import Mathlib

/-!
# Verification of the meta-tree library

A shallow embedding of the `meta-tree` JavaScript library: the data model
(`Field`, `Section`, `Record`, `Tree`), the serializer (`stringify`), the
line-oriented parser (`treeFromString`) and the verb classifier
(`getVerbFromActionName`), together with theorems settling the specification
claims.

Strings are modelled as `List Char` (abbreviated `Str`); JavaScript `Map`s and
plain objects are modelled as insertion-ordered association lists; mutating
methods that can `throw` are modelled as `Except`-valued functions whose error
carries the state at the time of the throw, so that atomicity statements are
meaningful.
-/

namespace MetaTree

/-- Strings as lists of characters (JS strings, ASCII fragment). -/
abbrev Str := List Char

/-- Decidable equality of `Except` values (needed to settle concrete
evaluations of the fallible operations by `decide`). -/
instance {ε α : Type} [DecidableEq ε] [DecidableEq α] : DecidableEq (Except ε α) := by
  intro a b
  cases a <;> cases b
  case error.error e e' => exact if h : e = e' then .isTrue (by rw [h]) else .isFalse (by simp [h])
  case error.ok => exact .isFalse (by simp)
  case ok.error => exact .isFalse (by simp)
  case ok.ok v v' => exact if h : v = v' then .isTrue (by rw [h]) else .isFalse (by simp [h])

/-- Characters matched by the JS regex `\s` (ASCII fragment). -/
def isWsChar (c : Char) : Bool :=
  c = ' ' || c = '\t' || c = '\n' || c = '\r' || c = '\x0b' || c = '\x0c'

/-- Characters matched by `[\w_.]` and `[a-zA-Z0-9_.]` (both regexes in the
source denote the same class). -/
def isWordDotChar (c : Char) : Bool :=
  ('a' ≤ c && c ≤ 'z') || ('A' ≤ c && c ≤ 'Z') || ('0' ≤ c && c ≤ '9')
    || c = '_' || c = '.'

/-- JS `String.prototype.trimStart` (ASCII fragment). -/
def trimL (s : Str) : Str := s.dropWhile isWsChar

/-- JS `String.prototype.trimEnd` (ASCII fragment). -/
def trimR (s : Str) : Str := (s.reverse.dropWhile isWsChar).reverse

/-- JS `String.prototype.trim` (ASCII fragment). -/
def trimS (s : Str) : Str := trimR (trimL s)

/-- `p.isPrefixOf s` as a Bool, i.e. JS `s.startsWith(p)`. -/
def startsWithS (p s : Str) : Bool := List.isPrefixOf p s

/-- JS `s.split(c)` for a single-character separator. -/
def splitChar (c : Char) : Str → List Str
  | [] => [[]]
  | x :: xs =>
    if x = c then [] :: splitChar c xs
    else
      match splitChar c xs with
      | [] => [[x]]
      | y :: ys => (x :: y) :: ys

/-- JS `s.split(/\/\//)`: split on (non-overlapping, leftmost) `//`. -/
def splitDSlash : Str → List Str
  | '/' :: '/' :: rest => [] :: splitDSlash rest
  | c :: cs =>
    match splitDSlash cs with
    | [] => [[c]]
    | y :: ys => (c :: y) :: ys
  | [] => [[]]

/-- `pat` occurs as a contiguous substring of `s` (JS regex `/pat/.test(s)`
for a literal pattern). -/
def containsSeq (pat : Str) : Str → Bool
  | [] => startsWithS pat []
  | c :: cs => startsWithS pat (c :: cs) || containsSeq pat cs

/-- JS `s.indexOf(c)` for a single character, as an `Option Nat`. -/
def indexOfChar (c : Char) : Str → Option Nat
  | [] => none
  | x :: xs => if x = c then some 0 else (indexOfChar c xs).map (· + 1)

/-! ## Ordered maps

JS `Map` (and, in `parseHtmlAttributes`, a plain object with non-numeric
string keys): insertion order is preserved; setting an existing key updates
the value in place. -/

/-- `map.has(k)`. -/
def mapHas (k : Str) (m : List (Str × α)) : Bool := m.any (fun e => e.1 = k)

/-- `map.get(k)` (as an `Option`). -/
def mapGet (k : Str) : List (Str × α) → Option α
  | [] => none
  | (k', v) :: rest => if k' = k then some v else mapGet k rest

/-- `map.set(k, v)`: update in place if present, else append. -/
def mapSet (k : Str) (v : α) : List (Str × α) → List (Str × α)
  | [] => [(k, v)]
  | (k', v') :: rest =>
    if k' = k then (k, v) :: rest else (k', v') :: mapSet k v rest

/-- `map.delete(k)`. -/
def mapDelete (k : Str) (m : List (Str × α)) : List (Str × α) :=
  m.filter (fun e => ¬ e.1 = k)

/-- The keys of a map are pairwise distinct. -/
def distinctKeys : List (Str × α) → Bool
  | [] => true
  | (k, _) :: rest => !(rest.any (fun e => e.1 = k)) && distinctKeys rest

/-- JS truthiness of a `string|null` value: `null` and `""` are falsy. -/
def truthy : Option Str → Bool
  | none => false
  | some s => s ≠ []

/-! ## Data model -/

/-- `Field` (src/src/tree/field.js): name, optionality flag, default value,
insertion-ordered attribute map, description. -/
structure Field where
  name : Str
  isOptional : Bool
  defaultValue : Option Str
  attributes : List (Str × Option Str)
  description : Option Str
deriving DecidableEq, Repr

/-- The `Field` constructor: plain assignment, `attributes` initialised to an
empty map; no validation of any argument. -/
def mkField (name : Str) (isOptional : Bool) (defaultValue : Option Str)
    (description : Option Str) : Field :=
  { name := name, isOptional := isOptional, defaultValue := defaultValue,
    attributes := [], description := description }

/-- `Field.setAttribute(name, value)` (number-to-string coercion is outside
the `Str` model). -/
def Field.setAttribute (f : Field) (name : Str) (value : Option Str) : Field :=
  { f with attributes := mapSet name value f.attributes }

/-- `Section` (src/src/tree/section.js): a name and an insertion-ordered map
from field name to `Field`. -/
structure Section where
  name : Str
  fields : List (Str × Field)
deriving DecidableEq, Repr

/-- The string `"main"`. -/
def mainStr : Str := ['m', 'a', 'i', 'n']

/-- The `Section` constructor: rejects names containing whitespace and the
empty name. -/
def mkSection (name : Str) : Except Str Section :=
  if name.any isWsChar then .error ("Section name cannot contain spaces: ".toList ++ name)
  else if name.length = 0 then .error "Section name cannot be empty".toList
  else .ok { name := name, fields := [] }

/-- `Section.addField(field)`: throws if a field with the same name exists.
The error carries the (unchanged) section state. -/
def Section.addField (s : Section) (f : Field) : Except (Str × Section) Section :=
  if mapHas f.name s.fields then
    .error ("Field already exists: ".toList ++ f.name, s)
  else .ok { s with fields := mapSet f.name f s.fields }

/-- `Section.setField(field)`: unconditional insert-or-replace. -/
def Section.setField (s : Section) (f : Field) : Section :=
  { s with fields := mapSet f.name f s.fields }

/-- `Section.hasField(name)`. -/
def Section.hasField (s : Section) (name : Str) : Bool := mapHas name s.fields

/-- `Section.getField(name)`. -/
def Section.getField (s : Section) (name : Str) : Option Field :=
  mapGet name s.fields

/-- `Section.deleteField(name)`. -/
def Section.deleteField (s : Section) (name : Str) : Section :=
  { s with fields := mapDelete name s.fields }

/-- `Record` (src/src/tree/record.js): entity name, optional property name,
optional verb (the third constructor argument, stored as given), the ordered
section map, and a description. -/
structure Record where
  entityName : Str
  propertyName : Option Str
  verb : Option Str
  sections : List (Str × Section)
  description : Option Str
deriving DecidableEq, Repr

/-- The `Record` constructor: validates entity name (no whitespace, nonempty)
and, when truthy, property name and verb (no whitespace; the length-zero
checks are unreachable because `""` is falsy, and are kept for fidelity).
Always creates the `"main"` section. -/
def mkRecord (entityName : Str) (propertyName verb description : Option Str) :
    Except Str Record :=
  if entityName.any isWsChar then
    .error ("Entity name cannot contain spaces: ".toList ++ entityName)
  else if entityName.length = 0 then .error "Entity name cannot be empty".toList
  else if truthy propertyName && (propertyName.getD []).any isWsChar then
    .error ("Property name cannot contain spaces: ".toList ++ propertyName.getD [])
  else if truthy propertyName && (propertyName.getD []).length = 0 then
    .error "Property name cannot be empty".toList
  else if truthy verb && (verb.getD []).any isWsChar then
    .error ("Verb cannot contain spaces: ".toList ++ verb.getD [])
  else if truthy verb && (verb.getD []).length = 0 then
    .error "Verb cannot be empty".toList
  else
    .ok { entityName := entityName, propertyName := propertyName, verb := verb,
          sections := [(mainStr, { name := mainStr, fields := [] })],
          description := description }

/-- `Record.getFullName()`: entity name, then `"." + propertyName` if truthy,
then `"." + verb` if truthy. -/
def Record.getFullName (r : Record) : Str :=
  let n := r.entityName
  let n := if truthy r.propertyName then n ++ '.' :: r.propertyName.getD [] else n
  if truthy r.verb then n ++ '.' :: r.verb.getD [] else n

/-- `Record.addSection(name)`: throws if the name exists (before constructing
the section); the error carries the record state at the throw. -/
def Record.addSection (r : Record) (name : Str) :
    Except (Str × Record) (Section × Record) :=
  if mapHas name r.sections then
    .error ("Section already exists: ".toList ++ name, r)
  else
    match mkSection name with
    | .error e => .error (e, r)
    | .ok s => .ok (s, { r with sections := mapSet name s r.sections })

/-- `Record.getSection(name)`. -/
def Record.getSection (r : Record) (name : Str) : Option Section :=
  mapGet name r.sections

/-- `Record.hasSection(name)`. -/
def Record.hasSection (r : Record) (name : Str) : Bool := mapHas name r.sections

/-- `Record.deleteSection(name)`: unconditional delete, `"main"` included. -/
def Record.deleteSection (r : Record) (name : Str) : Record :=
  { r with sections := mapDelete name r.sections }

/-- `Record.setSection(section)`: insert-or-replace under `section.name`. -/
def Record.setSection (r : Record) (s : Section) : Record :=
  { r with sections := mapSet s.name s r.sections }

/-- `Record.addField(field, sectionName)`: resolves the named section
(creating it when absent), then delegates to `Section.addField`. In the JS
source `sectionName` defaults to `"main"`. A duplicate-field throw after the
section was implicitly created leaves the newly created empty section in
place, which the carried error state reflects. -/
def Record.addField (r : Record) (f : Field) (sectionName : Str) :
    Except (Str × Record) Record :=
  match mapGet sectionName r.sections with
  | some s =>
    match s.addField f with
    | .error (e, _) => .error (e, r)
    | .ok s' => .ok { r with sections := mapSet sectionName s' r.sections }
  | none =>
    match r.addSection sectionName with
    | .error (e, r') => .error (e, r')
    | .ok (s, r') =>
      match s.addField f with
      | .error (e, _) => .error (e, r')
      | .ok s' => .ok { r' with sections := mapSet sectionName s' r'.sections }

/-- `Record.setField(field, sectionName)`: like `addField` but overwrites. -/
def Record.setField (r : Record) (f : Field) (sectionName : Str) :
    Except (Str × Record) Record :=
  match mapGet sectionName r.sections with
  | some s => .ok { r with sections := mapSet sectionName (s.setField f) r.sections }
  | none =>
    match r.addSection sectionName with
    | .error (e, r') => .error (e, r')
    | .ok (s, r') =>
      .ok { r' with sections := mapSet sectionName (s.setField f) r'.sections }

/-- `Record.deleteField(name, sectionName)`: no-op when the section is
absent. -/
def Record.deleteField (r : Record) (name : Str) (sectionName : Str) : Record :=
  match mapGet sectionName r.sections with
  | none => r
  | some s => { r with sections := mapSet sectionName (s.deleteField name) r.sections }

/-- `Tree` (src/tree/tree.js, provided unnamed): an insertion-ordered map from
record full name to `Record`. -/
structure Tree where
  records : List (Str × Record)
deriving DecidableEq, Repr

/-- `Tree.addRecord(entityName, propertyName, verb, description)`: constructs
the record (validation may throw), computes its full name, throws if the full
name is taken, else inserts. The error carries the (unchanged) tree. -/
def Tree.addRecord (t : Tree) (entityName : Str)
    (propertyName verb description : Option Str) :
    Except (Str × Tree) (Record × Tree) :=
  match mkRecord entityName propertyName verb description with
  | .error e => .error (e, t)
  | .ok record =>
    let fullName := record.getFullName
    if mapHas fullName t.records then
      .error ("Record already exists: ".toList ++ fullName, t)
    else .ok (record, { records := mapSet fullName record t.records })

/-- `Tree.hasRecord(fullName)`. -/
def Tree.hasRecord (t : Tree) (fullName : Str) : Bool := mapHas fullName t.records

/-- `Tree.getRecord(fullName)`. -/
def Tree.getRecord (t : Tree) (fullName : Str) : Option Record :=
  mapGet fullName t.records

/-- `Tree.deleteRecord(fullName)`. -/
def Tree.deleteRecord (t : Tree) (fullName : Str) : Tree :=
  { records := mapDelete fullName t.records }

/-- `Tree.setRecord(record)`: insert-or-replace under the record's current
full name. -/
def Tree.setRecord (t : Tree) (r : Record) : Tree :=
  { records := mapSet r.getFullName r t.records }

/-! ## Verb classifier (src/src/tools/tools.js) -/

/-- `getVerbFromActionName(actionName)`: `null`/`""` map to `null`; otherwise
the name is trimmed and matched: prefix `get`/`set`/`add`/`delete`, then
case-insensitive substring `list`, then prefix `check`, defaulting to
`check`. -/
def getVerbFromActionName (actionName : Option Str) : Option Str :=
  match actionName with
  | none => none
  | some s =>
    if s = [] then none
    else
      let t := trimS s
      if startsWithS "get".toList t then some "get".toList
      else if startsWithS "set".toList t then some "set".toList
      else if startsWithS "add".toList t then some "add".toList
      else if startsWithS "delete".toList t then some "delete".toList
      else if containsSeq "list".toList (t.map Char.toLower) then some "list".toList
      else if startsWithS "check".toList t then some "check".toList
      else some "check".toList

/-! ## Serialization -/

/-- `replace(/"/g, '\\"')`. -/
def escQ : Str → Str
  | '"' :: rest => '\\' :: '"' :: escQ rest
  | c :: rest => c :: escQ rest
  | [] => []

/-- `replace(/'/g, "\\'")`. -/
def escSQ : Str → Str
  | '\'' :: rest => '\\' :: '\'' :: escSQ rest
  | c :: rest => c :: escSQ rest
  | [] => []

/-- `replace(/\r?\n/g, "\\n")` (a lone `\r` is untouched). -/
def escNL : Str → Str
  | '\r' :: '\n' :: rest => '\\' :: 'n' :: escNL rest
  | '\n' :: rest => '\\' :: 'n' :: escNL rest
  | c :: rest => c :: escNL rest
  | [] => []

/-- `replace(/"/g, "&quot;")`. -/
def escDescQ : Str → Str
  | '"' :: rest => "&quot;".toList ++ escDescQ rest
  | c :: rest => c :: escDescQ rest
  | [] => []

/-- Attribute-value escaping in `Field.#attrsToString`: `"` then `'` then
newlines. -/
def escAttrValue (v : Str) : Str := escNL (escSQ (escQ v))

/-- `#descriptionToString` (shared shape in `Field` and `Record`): empty for
a falsy description, else `"// " + escaped`, trimmed. -/
def descToString : Option Str → Str
  | none => []
  | some d =>
    if d = [] then []
    else trimS ("// ".toList ++ escNL (escDescQ d))

/-- JS template interpolation of a `string|null`: `null` prints as the four
characters `null`. -/
def jsShow : Option Str → Str
  | none => "null".toList
  | some s => s

/-- One attribute as rendered by `Field.#attrsToString`: `name="escaped"` for
a truthy value, the bare name otherwise. -/
def renderAttr (e : Str × Option Str) : Str :=
  match e.2 with
  | some v => if v ≠ [] then e.1 ++ '=' :: '"' :: escAttrValue v ++ ['"'] else e.1
  | none => e.1

/-- `Field.stringify()`: `[name="defaultValue"]` when optional (the default
interpolated raw, `null` printing as `null`), else the bare name; then the
space-joined attributes, then the description; the whole trimmed. -/
def Field.stringify (f : Field) : Str :=
  let nameStr :=
    if f.isOptional then
      '[' :: f.name ++ '=' :: '"' :: jsShow f.defaultValue ++ ['"', ']']
    else f.name
  let attrs := List.intercalate [' '] (f.attributes.map renderAttr)
  trimS (nameStr ++ "    ".toList ++ attrs ++ ' ' :: descToString f.description)

/-- `Section.stringify(padding)`: each field on its own indented line; the
`"main"` section emits no header, others an indented `@name` line; trailing
newline. -/
def Section.stringify (s : Section) (padding : Str) : Str :=
  let fields := List.intercalate ['\n']
    (s.fields.map (fun e => padding ++ e.2.stringify))
  if s.name = mainStr then fields ++ ['\n']
  else (padding ++ '@' :: s.name) ++ '\n' :: fields ++ ['\n']

/-- `Record.stringify()`: the trimmed header line (full name, padding,
description), then each section's serialization, joined by newline. -/
def Record.stringify (r : Record) : Str :=
  let header := trimS (r.getFullName ++ "    ".toList ++ descToString r.description)
  List.intercalate ['\n'] (header :: r.sections.map (fun e => e.2.stringify "    ".toList))

/-- `Tree.stringify()`: records joined by a blank line. -/
def Tree.stringify (t : Tree) : Str :=
  List.intercalate "\n\n".toList (t.records.map (fun e => e.2.stringify))

/-! ## Parser (src/src/tools/treeFromString.js) -/

/-- `isSectionDeclaration(line)`: starts with `@`. -/
def isSectionDeclaration (line : Str) : Bool := startsWithS ['@'] line

/-- `isRecordDeclaration(line)`: does not start with whitespace and is not a
section declaration. -/
def isRecordDeclaration (line : Str) : Bool :=
  !(match line.head? with
    | some c => isWsChar c
    | none => false) && !isSectionDeclaration line

/-- The result of `parseRecordDeclaration`. -/
structure RecordDecl where
  entityName : Str
  propertyName : Option Str
  actionName : Option Str
  description : Option Str
deriving DecidableEq, Repr

/-- `parseRecordDeclaration(line)`: trims the line; the first
whitespace-delimited token is the full name; `split(/\/\//)[1]` (the text
between the first and second `//`), trimmed, is the description; the full
name is split on `.` into entity name, optional action name (last segment)
and optional property name (the middle segments rejoined with `.`). -/
def parseRecordDeclaration (line : Str) : RecordDecl :=
  let l := trimS line
  let fullName := l.takeWhile (fun c => !isWsChar c)
  let description : Option Str :=
    match splitDSlash l with
    | _ :: d :: _ => some (trimS d)
    | _ => none
  match splitChar '.' fullName with
  | [] => { entityName := [], propertyName := none, actionName := none,
            description := description }
  | entityName :: rest =>
    if h : rest = [] then
      { entityName := entityName, propertyName := none, actionName := none,
        description := description }
    else
      let actionName := rest.getLast h
      let middle := rest.dropLast
      { entityName := entityName,
        propertyName := if middle = [] then none
                        else some (List.intercalate ['.'] middle),
        actionName := some actionName,
        description := description }

/-- `parseSectionDeclaration(line)`: the match of `/^@([\w_\.]+)/`, or
`null`. -/
def parseSectionDeclaration (line : Str) : Option Str :=
  match line with
  | '@' :: rest =>
    let m := rest.takeWhile isWordDotChar
    if m = [] then none else some m
  | _ => none

/-- Scanner for the double-quoted value alternative `"(?:\\"|[^"])*"` after
the opening quote: returns the raw content and the rest after the closing
quote. `\"` is consumed as an escape; a failure here falls back to the
bareword alternative, which on such inputs selects the same token as the
backtracking JS engine. -/
def scanDQuoted : Str → Option (Str × Str)
  | '\\' :: '"' :: rest =>
    (scanDQuoted rest).map (fun p => ('\\' :: '"' :: p.1, p.2))
  | '"' :: rest => some ([], rest)
  | c :: rest => (scanDQuoted rest).map (fun p => (c :: p.1, p.2))
  | [] => none

/-- Scanner for the single-quoted value alternative `'(?:\\'|[^'])*'`. -/
def scanSQuoted : Str → Option (Str × Str)
  | '\\' :: '\'' :: rest =>
    (scanSQuoted rest).map (fun p => ('\\' :: '\'' :: p.1, p.2))
  | '\'' :: rest => some ([], rest)
  | c :: rest => (scanSQuoted rest).map (fun p => (c :: p.1, p.2))
  | [] => none

/-- `replace(/\\(["'])/g, "$1")`: drop a backslash before a quote. -/
def unescapeQuotes : Str → Str
  | '\\' :: '"' :: rest => '"' :: unescapeQuotes rest
  | '\\' :: '\'' :: rest => '\'' :: unescapeQuotes rest
  | c :: rest => c :: unescapeQuotes rest
  | [] => []

/-- The value computed from a raw matched value token: falsy (empty) raw
gives `null`; a raw both starting and ending with the same quote character is
stripped and unescaped; otherwise the raw itself. -/
def valueFromRaw (raw : Str) : Option Str :=
  if raw = [] then none
  else if (startsWithS ['"'] raw && startsWithS ['"'] raw.reverse)
       || (startsWithS ['\''] raw && startsWithS ['\''] raw.reverse) then
    some (unescapeQuotes ((raw.drop 1).dropLast))
  else some raw

/-- The string `"__proto__"`. -/
def protoStr : Str := "__proto__".toList

/-- One JS plain-object assignment `obj[name] = value` as performed by the
scanner's accumulator: the key `__proto__` hits the inherited
`Object.prototype.__proto__` accessor and creates no own property (a string
value also leaves the prototype unchanged), so `Object.entries` never
reports it; every other key is stored insert-or-replace in insertion
order. -/
def objSet (k : Str) (v : Option Str) (m : List (Str × Option Str)) :
    List (Str × Option Str) :=
  if k = protoStr then m else mapSet k v m

/-- One pass of the `attrRegex` exec loop, with explicit fuel (each iteration
consumes at least one character, so `length + 1` suffices; see
`parseAttrsLoop_fuel`). The scanner skips characters that cannot start a
name, reads a name token (`[^\s=]+`), stops with a comment at a name starting
`//` (the comment being the rest of the input from that point, minus the two
slashes, trimmed), and otherwise reads the optional `\s*=\s*value` part,
where value is double-quoted, single-quoted or a bare run of non-space
characters. Each match is stored with a plain-object assignment
(`objSet`). -/
def parseAttrsLoop : Nat → Str → List (Str × Option Str) →
    List (Str × Option Str) × Option Str
  | 0, _, acc => (acc, none)
  | fuel + 1, s, acc =>
    let s1 := s.dropWhile (fun c => isWsChar c || c = '=')
    match s1 with
    | [] => (acc, none)
    | _ :: _ =>
      let name := s1.takeWhile (fun c => !isWsChar c && c ≠ '=')
      if startsWithS "//".toList name then
        let comment := trimS (s1.drop 2)
        (acc, if comment = [] then none else some comment)
      else
        let rest := s1.drop name.length
        let rest1 := rest.dropWhile isWsChar
        match rest1 with
        | '=' :: afterEq =>
          let rest2 := afterEq.dropWhile isWsChar
          match rest2 with
          | '"' :: tl =>
            match scanDQuoted tl with
            | some (content, rest') =>
              parseAttrsLoop fuel rest'
                (objSet name (valueFromRaw ('"' :: content ++ ['"'])) acc)
            | none =>
              let raw := rest2.takeWhile (fun c => !isWsChar c)
              parseAttrsLoop fuel (rest2.drop raw.length)
                (objSet name (valueFromRaw raw) acc)
          | '\'' :: tl =>
            match scanSQuoted tl with
            | some (content, rest') =>
              parseAttrsLoop fuel rest'
                (objSet name (valueFromRaw ('\'' :: content ++ ['\''])) acc)
            | none =>
              let raw := rest2.takeWhile (fun c => !isWsChar c)
              parseAttrsLoop fuel (rest2.drop raw.length)
                (objSet name (valueFromRaw raw) acc)
          | _ =>
            let raw := rest2.takeWhile (fun c => !isWsChar c)
            parseAttrsLoop fuel (rest2.drop raw.length)
              (objSet name (valueFromRaw raw) acc)
        | _ => parseAttrsLoop fuel rest (objSet name none acc)

/-- `parseHtmlAttributes(inputString)`: the attribute map (in scan order) and
the comment, if any. -/
def parseHtmlAttributes (s : Str) : List (Str × Option Str) × Option Str :=
  parseAttrsLoop (s.length + 1) s []

/-- `parseField(line)`: bracketed shape (`[` up to the first `]` parsed as one
attribute token giving name and default, field optional) or plain shape
(leading `[a-zA-Z0-9_.]+` name, optional `?`); the remainder is parsed as
attributes plus comment, applied via `setAttribute` in scan order; the
comment becomes the description. Throws on a missing `]`, an empty plain
name, or (destructuring `undefined`) an empty bracket body. -/
def parseField (line : Str) : Except Str Field :=
  if startsWithS ['['] line then
    match indexOfChar ']' line with
    | none => .error ("Invalid field: ".toList ++ line)
    | some endIdx =>
      let body := (line.drop 1).take (endIdx - 1)
      match (parseHtmlAttributes body).1 with
      | [] => .error "TypeError: destructuring undefined".toList
      | (name, value) :: _ =>
        let attrsStr := trimS (line.drop (endIdx + 1))
        let parsed := parseHtmlAttributes attrsStr
        .ok { (parsed.1.foldl (fun f e => f.setAttribute e.1 e.2)
                (mkField name true value none)) with description := parsed.2 }
  else
    let m := line.takeWhile isWordDotChar
    if m = [] then .error ("Invalid field: ".toList ++ line)
    else
      let isOptional := (line.drop m.length).head? = some '?'
      let attrsStr := trimS (line.drop (m.length + if isOptional then 1 else 0))
      let parsed := parseHtmlAttributes attrsStr
      .ok { (parsed.1.foldl (fun f e => f.setAttribute e.1 e.2)
              (mkField m isOptional none none)) with description := parsed.2 }

/-- The parser's loop state: the tree under construction, the key of the
current record (the JS `currentRecord` alias, stable because a record's
name-defining fields are immutable), and the current section name. -/
structure ParseState where
  tree : Tree
  currentRecord : Option Str
  currentSectionName : Str
deriving DecidableEq, Repr

/-- Replace the record stored under `key`. -/
def Tree.putAt (t : Tree) (key : Str) (r : Record) : Tree :=
  { records := mapSet key r t.records }

/-- Processing of a single line of `treeFromString`: blank lines are skipped;
record-declaration lines add a record and reset the section to `"main"`;
anything else is ignored until a record is open; section lines call
`addSection`; remaining lines are parsed as fields and added to the current
section. Errors carry the state at the throw. -/
def parseLine (st : ParseState) (line : Str) : Except (Str × ParseState) ParseState :=
  if trimS line = [] then .ok st
  else if isRecordDeclaration line then
    let d := parseRecordDeclaration line
    match st.tree.addRecord d.entityName d.propertyName d.actionName d.description with
    | .error (e, t') => .error (e, { st with tree := t' })
    | .ok (record, t') =>
      .ok { tree := t', currentRecord := some record.getFullName,
            currentSectionName := mainStr }
  else
    match st.currentRecord with
    | none => .ok st
    | some key =>
      match mapGet key st.tree.records with
      | none => .ok st
      | some r =>
        let l := trimS line
        if isSectionDeclaration l then
          match parseSectionDeclaration l with
          | none => .ok st
          | some sectionName =>
            match r.addSection sectionName with
            | .error (e, r') => .error (e, { st with tree := st.tree.putAt key r' })
            | .ok (_, r') =>
              .ok { tree := st.tree.putAt key r', currentRecord := st.currentRecord,
                    currentSectionName := sectionName }
        else
          match parseField l with
          | .error e => .error (e, st)
          | .ok field =>
            match r.addField field st.currentSectionName with
            | .error (e, r') => .error (e, { st with tree := st.tree.putAt key r' })
            | .ok r' => .ok { st with tree := st.tree.putAt key r' }

/-- Fold `parseLine` over a list of lines, stopping at the first error. -/
def parseLines : ParseState → List Str → Except (Str × ParseState) ParseState
  | st, [] => .ok st
  | st, l :: ls =>
    match parseLine st l with
    | .error e => .error e
    | .ok st' => parseLines st' ls

/-- The initial parser state. -/
def initState : ParseState :=
  { tree := { records := [] }, currentRecord := none, currentSectionName := mainStr }

/-- `treeFromString(treeString)`: split on newlines and process each line. -/
def treeFromString (s : Str) : Except (Str × Tree) Tree :=
  match parseLines initState (splitChar '\n' s) with
  | .error (e, st) => .error (e, st.tree)
  | .ok st => .ok st.tree

/-! ## Spec-side definitions

Definitions transcribed from the specification's words (not from the source),
used in refinement-style comparisons with the source-derived definitions
above. -/

/-- The verb-classifier rules exactly as the specification states them for a
non-null, non-empty name: prefix `get`/`set`/`add`/`delete`, case-insensitive
substring `list`, prefix `check`, otherwise `check`. No trimming. -/
def verbRules (s : Str) : Str :=
  if startsWithS "get".toList s then "get".toList
  else if startsWithS "set".toList s then "set".toList
  else if startsWithS "add".toList s then "add".toList
  else if startsWithS "delete".toList s then "delete".toList
  else if containsSeq "list".toList (s.map Char.toLower) then "list".toList
  else if startsWithS "check".toList s then "check".toList
  else "check".toList

/-- The claim's classifier: null or empty input maps to null, and otherwise
the rules are applied to the input exactly as given (no trimming). -/
def classifyVerbSpec : Option Str → Option Str
  | none => none
  | some s => if s = [] then none else some (verbRules s)

/-- The claim's full-name rule: entity name, then `"." + propertyName` when
present, then `"." + actionName` when present. -/
def specFullName (e : Str) (p a : Option Str) : Str :=
  e ++ (match p with | some x => '.' :: x | none => [])
    ++ (match a with | some x => '.' :: x | none => [])

/-- The record-line-plus-two-field-lines input of the end-to-end example. -/
def c2input : Str :=
  "user.profile.update    // Updates a profile\n    username    maxLength=\"32\"\n    password?".toList

/-- The mutating `Record` operations named by the main-section claim. -/
inductive ROp where
  | addSection (name : Str)
  | deleteSection (name : Str)
  | setSection (s : Section)
  | addField (f : Field) (sectionName : Str)
  | setField (f : Field) (sectionName : Str)
  | deleteField (name : Str) (sectionName : Str)
deriving DecidableEq

/-- Apply one operation; for throwing operations the record state at the
throw (carried by the error) is taken, matching the post-exception JS
state. -/
def applyOp (r : Record) : ROp → Record
  | .addSection n =>
    match r.addSection n with
    | .ok (_, r') => r'
    | .error (_, r') => r'
  | .deleteSection n => r.deleteSection n
  | .setSection s => r.setSection s
  | .addField f sn =>
    match r.addField f sn with
    | .ok r' => r'
    | .error (_, r') => r'
  | .setField f sn =>
    match r.setField f sn with
    | .ok r' => r'
    | .error (_, r') => r'
  | .deleteField n sn => r.deleteField n sn

/-- Apply a sequence of operations. -/
def applyOps (r : Record) (ops : List ROp) : Record := ops.foldl applyOp r

/-- The string contains `//` somewhere. -/
def hasDSlash : Str → Bool
  | '/' :: '/' :: _ => true
  | _ :: rest => hasDSlash rest
  | [] => false

/-! Concrete fixtures used by witnesses and counterexamples. -/

/-- The record the constructor produces for entity `a` (only the `main`
section). -/
def recA : Record :=
  { entityName := ['a'], propertyName := none, verb := none,
    sections := [(mainStr, { name := mainStr, fields := [] })],
    description := none }

/-- A tree holding `recA` under key `a`. -/
def treeA : Tree := { records := [(['a'], recA)] }

/-- A record owning an empty section `s`. -/
def recS : Record :=
  { entityName := ['a'], propertyName := none, verb := none,
    sections := [(['s'], { name := ['s'], fields := [] })], description := none }

/-- A section `s` owning a required field `f`. -/
def secF : Section :=
  { name := ['s'], fields := [(['f'], mkField ['f'] false none none)] }

/-- A parser state with the record `a` open and `main` current. -/
def stA : ParseState :=
  { tree := treeA, currentRecord := some ['a'], currentSectionName := mainStr }

/-! Well-formedness for the round-trip claim: the conditions under which
serialization followed by parsing recovers the structure. -/

/-- Recursive form of the space-joined attribute rendering (equal to the
`intercalate` in `Field.stringify`; see `renderAttrs_eq_intercalate`). -/
def renderAttrs : List (Str × Option Str) → Str
  | [] => []
  | [e] => renderAttr e
  | e :: rest => renderAttr e ++ ' ' :: renderAttrs rest

/-- An attribute name survives rendering and rescanning: nonempty, no
whitespace, no `=`, not starting with `//`, and — because the JS parser
collects attributes into a plain object — containing at least one non-digit
(the object floats integer-like keys to the front) and different from
`__proto__` (whose assignment the object silently drops). -/
def wfAttrName (n : Str) : Bool :=
  n ≠ [] && n.all (fun c => !isWsChar c && c ≠ '=') &&
    !startsWithS "//".toList n && n.any (fun c => !c.isDigit) &&
    n ≠ protoStr

/-- An attribute value survives rendering and rescanning: absent, or nonempty
(the empty string renders as a bare flag and reads back as null) with no
double quote, no newline, and no trailing backslash (which would escape the
closing quote). -/
def wfAttrVal : Option Str → Bool
  | none => true
  | some w =>
    w ≠ [] && w.all (fun c => c ≠ '"' && c ≠ '\n' && c ≠ '\r') &&
      w.getLast? ≠ some '\\'

/-- Well-formed attribute entry. -/
def wfAttr (e : Str × Option Str) : Bool := wfAttrName e.1 && wfAttrVal e.2

/-- A default value that round-trips: rendered raw inside `[name="…"]`, so it
must avoid `"`, `]`, newlines, and backslashes (`\"` sequences are unescaped
on read but never escaped on write). -/
def wfDefault : Option Str → Bool
  | none => false
  | some v => v.all (fun c => c ≠ '"' && c ≠ '\n' && c ≠ '\r' && c ≠ ']' && c ≠ '\\')

/-- Well-formed field: name from the parser's name alphabet; an optional
field carries a well-formed (non-null) default and — since the bracketed
form `[name="default"]` round-trips name and default through the same plain
object as the attributes — a name different from `__proto__`; a required
field carries no default; attributes well-formed with distinct names. -/
def wfField (f : Field) : Bool :=
  f.name ≠ [] && f.name.all isWordDotChar &&
    (if f.isOptional then wfDefault f.defaultValue && f.name ≠ protoStr else decide (f.defaultValue = none)) &&
    f.attributes.all wfAttr && distinctKeys f.attributes

/-- Well-formed section entry: key equals the section name, name from the
`@`-header alphabet, fields keyed by their own names, distinct, well-formed. -/
def wfSection (k : Str) (s : Section) : Bool :=
  decide (s.name = k) && s.name ≠ [] && s.name.all isWordDotChar &&
    distinctKeys s.fields &&
    s.fields.all (fun e => decide (e.1 = e.2.name) && wfField e.2)

/-- Well-formed record entry: key equals the full name; the full name is
nonempty, whitespace-free, does not start with `@`, and has no empty
dot-segment; the section map is keyed consistently, distinct, headed by
`main`, and well-formed throughout. -/
def wfRecord (k : Str) (r : Record) : Bool :=
  decide (k = r.getFullName) && r.getFullName ≠ [] &&
    (r.getFullName).all (fun c => !isWsChar c) &&
    !startsWithS ['@'] r.getFullName &&
    (splitChar '.' r.getFullName).all (fun seg => seg ≠ []) &&
    distinctKeys r.sections &&
    (match r.sections with
     | (k0, _) :: _ => decide (k0 = mainStr)
     | [] => false) &&
    r.sections.all (fun e => wfSection e.1 e.2)

/-- Well-formed tree: distinct keys, each entry well-formed. -/
def wfTree (t : Tree) : Bool :=
  distinctKeys t.records && t.records.all (fun e => wfRecord e.1 e.2)

/-! Structural similarity: what the round-trip claim preserves (names,
optionality, defaults and attribute maps — not descriptions). -/

/-- The parsed field agrees with the original on name, optionality, default
value, and the attribute map. -/
def FieldSim (f g : Field) : Prop :=
  g.name = f.name ∧ g.isOptional = f.isOptional ∧
    g.defaultValue = f.defaultValue ∧ g.attributes = f.attributes

/-- Entry-wise similarity of two field maps. -/
def FieldsSim : List (Str × Field) → List (Str × Field) → Prop :=
  List.Forall₂ (fun a b => b.1 = a.1 ∧ FieldSim a.2 b.2)

/-- Same name, similar fields. -/
def SectionSim (s u : Section) : Prop := u.name = s.name ∧ FieldsSim s.fields u.fields

/-- Entry-wise similarity of two section maps. -/
def SectionsSim : List (Str × Section) → List (Str × Section) → Prop :=
  List.Forall₂ (fun a b => b.1 = a.1 ∧ SectionSim a.2 b.2)

/-- Same full name, similar sections. -/
def RecordSim (r u : Record) : Prop :=
  u.getFullName = r.getFullName ∧ SectionsSim r.sections u.sections

/-- Entry-wise similarity of two trees. -/
def TreeSim (t u : Tree) : Prop :=
  List.Forall₂ (fun a b => b.1 = a.1 ∧ RecordSim a.2 b.2) t.records u.records

/-- The field lines of a section body as serialized (4-space indent). -/
def fieldLines (fields : List (Str × Field)) : List Str :=
  fields.map (fun e => "    ".toList ++ e.2.stringify)

/-- The serialized header line of a record. -/
def headerOf (r : Record) : Str :=
  trimS (r.getFullName ++ "    ".toList ++ descToString r.description)

/-- The lines of a serialized section (4-space padding): the `@` header line
for non-`main` sections, the field lines (a single blank line when the
section is empty), and the blank line produced by the trailing newline. -/
def sectionLines (s : Section) : List Str :=
  (if s.name = mainStr then [] else ["    ".toList ++ '@' :: s.name]) ++
    (if s.fields = [] then [[]] else fieldLines s.fields) ++ [[]]

/-- The lines of a serialized record: the header, then each section's
lines. -/
def recordLines (r : Record) : List Str :=
  headerOf r :: (r.sections.map (fun e => sectionLines e.2)).flatten

/-- The lines of a serialized tree: the records' lines with one blank line
between consecutive records. -/
def treeLines (t : Tree) : List Str :=
  ((t.records.map (fun e => recordLines e.2)).intersperse [[]]).flatten

/-- The claim's own hypothesis on a tree: no field value (default or
attribute value) and no description contains a double quote or a newline. -/
def claimHyp (t : Tree) : Bool :=
  let optOk : Option Str → Bool := fun o => (o.getD []).all (fun c => c ≠ '"' && c ≠ '\n')
  t.records.all (fun er =>
    optOk er.2.description &&
    er.2.sections.all (fun es =>
      es.2.fields.all (fun ef =>
        optOk ef.2.defaultValue && optOk ef.2.description &&
        ef.2.attributes.all (fun ea => optOk ea.2))))

/-- A one-record tree whose only field is optional with a null default —
inside the claim's hypothesis, yet not round-trippable: it serializes as
`[f="null"]`. -/
def t0c1 : Tree :=
  { records := [(['r'],
      { entityName := ['r'], propertyName := none, verb := none,
        sections := [(mainStr,
          { name := mainStr,
            fields := [(['f'],
              { name := ['f'], isOptional := true, defaultValue := none,
                attributes := [], description := none })] })],
        description := none })] }

/-- What `t0c1` parses back to: the default has become the string `null`. -/
def t1c1 : Tree :=
  { records := [(['r'],
      { entityName := ['r'], propertyName := none, verb := none,
        sections := [(mainStr,
          { name := mainStr,
            fields := [(['f'],
              { name := ['f'], isOptional := true,
                defaultValue := some "null".toList,
                attributes := [], description := none })] })],
        description := none })] }

/-! ## Theorems -/

/-! ### String toolkit -/

theorem dropWhile_append_cons (p : α → Bool) (a : List α) (c : α) (b : List α)
    (hc : p c = false) :
    List.dropWhile p (a ++ c :: b) = List.dropWhile p a ++ c :: b := by
  rw [List.dropWhile_append]
  split
  next h =>
    rw [List.isEmpty_iff] at h
    rw [h, List.dropWhile_cons, hc]
    simp
  next h => rfl

theorem takeWhile_append_cons (p : α → Bool) (a : List α) (c : α) (b : List α)
    (ha : ∀ x ∈ a, p x = true) (hc : p c = false) :
    List.takeWhile p (a ++ c :: b) = a := by
  rw [List.takeWhile_append]
  have h1 : List.takeWhile p a = a := List.takeWhile_eq_self_iff.mpr ha
  rw [if_pos (by rw [h1]), List.takeWhile_cons, hc]
  simp

theorem trimL_append_cons (a : Str) (c : Char) (b : Str) (hc : isWsChar c = false) :
    trimL (a ++ c :: b) = trimL a ++ c :: b :=
  dropWhile_append_cons _ a c b hc

theorem trimR_append_cons (a : Str) (c : Char) (b : Str) (hc : isWsChar c = false) :
    trimR (a ++ c :: b) = a ++ c :: trimR b := by
  unfold trimR
  rw [show (a ++ c :: b).reverse = b.reverse ++ c :: a.reverse by simp,
    dropWhile_append_cons _ _ _ _ hc]
  simp

theorem trimR_prefix (s : Str) : trimR s <+: s := by
  have h := List.reverse_prefix.mpr
    (show List.dropWhile isWsChar s.reverse <:+ s.reverse from List.dropWhile_suffix _)
  rw [List.reverse_reverse] at h
  exact h

theorem head?_of_prefix {l m : List α} (h : l <+: m) (hne : l ≠ []) :
    m.head? = l.head? := by
  obtain ⟨t, rfl⟩ := h
  cases l with
  | nil => exact absurd rfl hne
  | cons c l' => rfl

theorem trimR_eq_nil_iff (s : Str) : trimR s = [] ↔ ∀ c ∈ s, isWsChar c = true := by
  unfold trimR
  rw [List.reverse_eq_nil_iff, List.dropWhile_eq_nil_iff]
  constructor
  · intro h c hc
    exact h c (List.mem_reverse.mpr hc)
  · intro h c hc
    exact h c (List.mem_reverse.mp hc)

theorem trimL_eq_nil_iff (s : Str) : trimL s = [] ↔ ∀ c ∈ s, isWsChar c = true := by
  unfold trimL
  exact List.dropWhile_eq_nil_iff

theorem dropWhile_append_all (p : α → Bool) (a b : List α)
    (ha : ∀ x ∈ a, p x = true) :
    List.dropWhile p (a ++ b) = List.dropWhile p b := by
  rw [List.dropWhile_append,
    if_pos (by rw [List.isEmpty_iff, List.dropWhile_eq_nil_iff]; exact ha)]

theorem trimL_ws_append (a b : Str) (ha : ∀ c ∈ a, isWsChar c = true) :
    trimL (a ++ b) = trimL b :=
  dropWhile_append_all _ a b ha

theorem trimR_append_ws (a b : Str) (hb : ∀ c ∈ b, isWsChar c = true) :
    trimR (a ++ b) = trimR a := by
  unfold trimR
  rw [List.reverse_append, dropWhile_append_all _ _ _
    (by intro c hc; exact hb c (List.mem_reverse.mp hc))]

theorem trimL_idem (s : Str) : trimL (trimL s) = trimL s := by
  unfold trimL
  cases h : List.dropWhile isWsChar s with
  | nil => rfl
  | cons c t =>
    have hc : isWsChar c = false := by
      have := List.head?_dropWhile_not isWsChar s
      rw [h] at this
      simpa using this
    rw [List.dropWhile_cons, hc]
    simp

theorem trimR_idem (s : Str) : trimR (trimR s) = trimR s := by
  unfold trimR
  rw [List.reverse_reverse]
  have : List.dropWhile isWsChar (List.dropWhile isWsChar s.reverse) =
      List.dropWhile isWsChar s.reverse := trimL_idem s.reverse
  rw [this]

theorem ws_decomp (s : Str) :
    s = s.takeWhile isWsChar ++ trimL s := (List.takeWhile_append_dropWhile _ _).symm

theorem trimR_decomp (x : Str) :
    x = trimR x ++ (x.reverse.takeWhile isWsChar).reverse := by
  unfold trimR
  conv_lhs => rw [← List.reverse_reverse x,
    ← List.takeWhile_append_dropWhile isWsChar x.reverse]
  rw [List.reverse_append]

theorem trimR_cons_trimR (c : Char) (x : Str) :
    trimR (c :: trimR x) = trimR (c :: x) := by
  conv_rhs => rw [trimR_decomp x]
  rw [show c :: (trimR x ++ (x.reverse.takeWhile isWsChar).reverse) =
        (c :: trimR x) ++ (x.reverse.takeWhile isWsChar).reverse by simp,
    trimR_append_ws]
  intro d hd
  exact List.mem_takeWhile_imp (List.mem_reverse.mp hd)

theorem trimL_trimR_comm (s : Str) : trimL (trimR s) = trimR (trimL s) := by
  cases he : trimL s with
  | nil =>
    have hall : ∀ c ∈ s, isWsChar c = true := (trimL_eq_nil_iff s).mp he
    have h1 : trimR s = [] := (trimR_eq_nil_iff s).mpr hall
    rw [h1]
    rfl
  | cons c e' =>
    have hc : isWsChar c = false := by
      have := List.head?_dropWhile_not isWsChar s
      rw [show List.dropWhile isWsChar s = c :: e' from he] at this
      simpa using this
    have hdec : s = s.takeWhile isWsChar ++ c :: e' := by
      conv_lhs => rw [ws_decomp s]
      rw [he]
    have hws : ∀ x ∈ s.takeWhile isWsChar, isWsChar x = true := by
      intro x hx
      exact List.mem_takeWhile_imp hx
    calc trimL (trimR s)
        = trimL (trimR (s.takeWhile isWsChar ++ c :: e')) := by rw [← hdec]
      _ = trimL (s.takeWhile isWsChar ++ c :: trimR e') := by
          rw [trimR_append_cons _ _ _ hc]
      _ = trimL (s.takeWhile isWsChar) ++ c :: trimR e' := by
          rw [trimL_append_cons _ _ _ hc]
      _ = c :: trimR e' := by rw [(trimL_eq_nil_iff _).mpr hws]; rfl
      _ = trimR (c :: e') := by
          have := trimR_append_cons [] c e' hc
          simpa using this.symm

theorem trimS_trimR (s : Str) : trimS (trimR s) = trimS s := by
  unfold trimS
  rw [trimL_trimR_comm, trimR_idem]

theorem trimS_idem (s : Str) : trimS (trimS s) = trimS s := by
  unfold trimS
  rw [trimL_trimR_comm, trimL_idem, trimR_idem]

theorem trimS_ws_append (a b : Str) (ha : ∀ c ∈ a, isWsChar c = true) :
    trimS (a ++ b) = trimS b := by
  unfold trimS
  rw [trimL_ws_append a b ha]

/-! ### `//`-splitting lemmas -/

theorem splitDSlash_ne_nil (s : Str) : splitDSlash s ≠ [] := by
  unfold splitDSlash
  split
  · simp
  · split <;> simp
  · simp

theorem splitDSlash_cons (c : Char) (s : Str)
    (h : ¬(c = '/' ∧ s.head? = some '/')) :
    splitDSlash (c :: s) =
      match splitDSlash s with
      | [] => [[c]]
      | y :: ys => (c :: y) :: ys := by
  conv_lhs => unfold splitDSlash
  split
  next rest heq =>
    exfalso
    rw [List.cons.injEq] at heq
    obtain ⟨hc, hs⟩ := heq
    exact h ⟨hc, by rw [hs]; rfl⟩
  next c' cs heq =>
    rw [List.cons.injEq] at heq
    obtain ⟨hc, hs⟩ := heq
    rw [hc, hs]
  next heq => exact absurd heq (by simp)

theorem hasDSlash_cons (c : Char) (s : Str) :
    hasDSlash (c :: s) =
      if c = '/' ∧ s.head? = some '/' then true else hasDSlash s := by
  by_cases h : c = '/' ∧ s.head? = some '/'
  · obtain ⟨hc, hs⟩ := h
    cases s with
    | nil => simp at hs
    | cons d s' =>
      have hd : d = '/' := by simpa using hs
      subst hc hd
      simp [hasDSlash]
  · rw [if_neg h]
    conv_lhs => unfold hasDSlash
    split
    next rest heq =>
      exfalso
      rw [List.cons.injEq] at heq
      obtain ⟨hc, hs⟩ := heq
      exact h ⟨hc, by rw [hs]; rfl⟩
    next c' cs heq =>
      rw [List.cons.injEq] at heq
      rw [heq.2]
    next heq => exact absurd heq (by simp)

theorem hasDSlash_append_right (a b : Str) (h : hasDSlash (a ++ b) = false) :
    hasDSlash b = false := by
  induction a with
  | nil => exact h
  | cons c a' ih =>
    rw [List.cons_append, hasDSlash_cons] at h
    split at h
    · exact absurd h (by simp)
    · exact ih h

theorem hasDSlash_append_left (a b : Str) (h : hasDSlash (a ++ b) = false) :
    hasDSlash a = false := by
  induction a with
  | nil => rfl
  | cons c a' ih =>
    rw [List.cons_append, hasDSlash_cons] at h
    split at h
    next hcond => exact absurd h (by simp)
    next hcond =>
      rw [hasDSlash_cons]
      split
      next hcond2 =>
        exfalso
        obtain ⟨hc, hh⟩ := hcond2
        apply hcond
        refine ⟨hc, ?_⟩
        cases a' with
        | nil => simp at hh
        | cons d t => simpa using hh
      next => exact ih h

theorem hasDSlash_of_suffix {t s : Str} (hsuf : t <:+ s)
    (h : hasDSlash s = false) : hasDSlash t = false := by
  obtain ⟨u, rfl⟩ := hsuf
  exact hasDSlash_append_right u t h

theorem hasDSlash_of_prefix {t s : Str} (hpre : t <+: s)
    (h : hasDSlash s = false) : hasDSlash t = false := by
  obtain ⟨u, rfl⟩ := hpre
  exact hasDSlash_append_left t u h

theorem splitDSlash_no (s : Str) (h : hasDSlash s = false) :
    splitDSlash s = [s] := by
  induction s with
  | nil => rfl
  | cons c s' ih =>
    rw [hasDSlash_cons] at h
    split at h
    · exact absurd h (by simp)
    next hcond =>
      rw [splitDSlash_cons c s' hcond, ih h]

theorem splitDSlash_append (a b : Str) (ha : hasDSlash a = false)
    (hlast : a.getLast? ≠ some '/') :
    splitDSlash (a ++ '/' :: '/' :: b) = a :: splitDSlash b := by
  induction a with
  | nil => rfl
  | cons c a' ih =>
    rw [hasDSlash_cons] at ha
    split at ha
    · exact absurd ha (by simp)
    next hcond =>
      have hnot : ¬(c = '/' ∧ (a' ++ '/' :: '/' :: b).head? = some '/') := by
        rintro ⟨hc, hh⟩
        cases a' with
        | nil =>
          apply hlast
          rw [hc]
          rfl
        | cons d t =>
          exact hcond ⟨hc, by simpa using hh⟩
      have hlast' : a'.getLast? ≠ some '/' := by
        cases a' with
        | nil => simp
        | cons d t =>
          intro hl
          apply hlast
          rw [show (c :: d :: t).getLast? = (d :: t).getLast? by
            exact List.getLast?_append_of_ne_nil [c] (by simp)]
          exact hl
      rw [List.cons_append, splitDSlash_cons _ _ hnot, ih ha hlast']

/-- The description computed by `parseRecordDeclaration` is governed entirely
by the `//`-split of the trimmed line. -/
theorem parseRecordDeclaration_description (line : Str) :
    (parseRecordDeclaration line).description =
      match splitDSlash (trimS line) with
      | _ :: d2 :: _ => some (trimS d2)
      | _ => none := by
  simp only [parseRecordDeclaration]
  split
  · rfl
  · split
    · rfl
    · rfl

/-- **C8, counterexample.** On the line `r // b // c` the description is
`b` — the text between the first and second `//` — not `b // c`, the text
after the first `//`: `split(/\/\//)[1]` stops at the second marker. -/
theorem c8_counterexample :
    (parseRecordDeclaration "r // b // c".toList).description = some ['b'] ∧
    (parseRecordDeclaration "r // b // c".toList).description ≠
      some "b // c".toList :=
  ⟨by decide, by decide⟩

/-- **C8, amended.** For a record-declaration line containing `//`, the
description is the text between the first and the second `//` (trimmed); any
text from the second `//` onward is discarded. Stated for lines decomposed as
`pre ++ "//" ++ d` (no further `//` and no marker-splitting `/` adjacency in
`pre` or `d`): with no second marker the description is `trim d`, and with a
second marker `pre ++ "//" ++ d ++ "//" ++ x` it is again `trim d` whatever
`x` holds. -/
theorem c8_amended :
    (∀ pre d : Str, hasDSlash pre = false → pre.getLast? ≠ some '/' →
      hasDSlash d = false →
      (parseRecordDeclaration (pre ++ '/' :: '/' :: d)).description =
        some (trimS d)) ∧
    (∀ pre d x : Str, hasDSlash pre = false → pre.getLast? ≠ some '/' →
      hasDSlash d = false → d.getLast? ≠ some '/' →
      (parseRecordDeclaration (pre ++ '/' :: '/' :: (d ++ '/' :: '/' :: x))).description =
        some (trimS d)) := by
  have hslash : isWsChar '/' = false := by decide
  have htrim : ∀ pre tail_ : Str,
      trimS (pre ++ '/' :: '/' :: tail_) =
        trimL pre ++ '/' :: '/' :: trimR tail_ := by
    intro pre tail_
    unfold trimS
    rw [trimL_append_cons _ _ _ hslash]
    have h2 : trimL pre ++ '/' :: '/' :: tail_ =
        (trimL pre ++ ['/']) ++ '/' :: tail_ := by simp
    rw [h2, trimR_append_cons _ _ _ hslash]
    simp
  have hpre' : ∀ pre : Str, hasDSlash pre = false → pre.getLast? ≠ some '/' →
      hasDSlash (trimL pre) = false ∧ (trimL pre).getLast? ≠ some '/' := by
    intro pre hpre hlast
    refine ⟨hasDSlash_of_suffix (List.dropWhile_suffix _) hpre, ?_⟩
    cases hL : trimL pre with
    | nil => simp
    | cons c t =>
      have hEq : pre.getLast? = (trimL pre).getLast? := by
        conv_lhs => rw [ws_decomp pre]
        exact List.getLast?_append_of_ne_nil _ (by rw [hL]; simp)
      rw [← hL, ← hEq]
      exact hlast
  constructor
  · intro pre d hpre hlast hd
    rw [parseRecordDeclaration_description, htrim pre d]
    obtain ⟨h1, h2⟩ := hpre' pre hpre hlast
    rw [splitDSlash_append _ _ h1 h2,
      splitDSlash_no _ ( hasDSlash_of_prefix ( trimR_prefix d) hd)]
    simp [trimS_trimR]
  · intro pre d x hpre hlast hd hdlast
    have hx : d ++ '/' :: '/' :: x = (d ++ ['/']) ++ '/' :: x := by simp
    have htail : trimR (d ++ '/' :: '/' :: x) = d ++ '/' :: '/' :: trimR x := by
      rw [hx, trimR_append_cons _ _ _ hslash]
      simp
    rw [parseRecordDeclaration_description, htrim pre _, htail]
    obtain ⟨h1, h2⟩ := hpre' pre hpre hlast
    rw [splitDSlash_append _ _ h1 h2, splitDSlash_append _ _ hd hdlast]

/-- **C8, amended, witness.** -/
theorem c8_amended_witness :
    (parseRecordDeclaration ("r ".toList ++ '/' :: '/' ::
      (" b ".toList ++ '/' :: '/' :: " c".toList))).description =
      some (trimS " b ".toList) :=
  c8_amended.2 "r ".toList " b ".toList " c".toList (by decide) (by decide)
    (by decide) (by decide)

/-! ### C10: malformed section lines -/

theorem isRecordDeclaration_false_of_trim_at (line : Str)
    (h : (trimS line).head? = some '@') : isRecordDeclaration line = false := by
  cases line with
  | nil => simp [trimS, trimL, trimR] at h
  | cons c rest =>
    by_cases hc : isWsChar c
    · simp [isRecordDeclaration, hc]
    · have hL : trimL (c :: rest) = c :: rest := by
        unfold trimL
        rw [List.dropWhile_cons]
        simp [hc]
      have hS : trimS (c :: rest) = trimR (c :: rest) := by
        unfold trimS
        rw [hL]
      rw [hS] at h
      have hne : trimR (c :: rest) ≠ [] := by
        intro hnil
        rw [hnil] at h
        simp at h
      have hhead := head?_of_prefix ( trimR_prefix (c :: rest)) hne
      rw [h] at hhead
      have hc' : c = '@' := by simpa using hhead
      subst hc'
      simp [isRecordDeclaration, isSectionDeclaration, startsWithS,
        List.isPrefixOf]

/-- **C10.** A line that (after trimming) starts with `@` but whose next
character is missing or not a word/underscore/dot character, encountered
while a record is open, is silently skipped: no error, no section added, and
the parser state (current record and current target section included) is
returned unchanged. -/
theorem c10_bad_section_line_skipped (st : ParseState) (line key : Str)
    (hopen : st.currentRecord = some key)
    (hat : (trimS line).head? = some '@')
    (hbad : ∀ c, ((trimS line).drop 1).head? = some c → isWordDotChar c = false) :
    parseLine st line = .ok st := by
  obtain ⟨rest, hrest⟩ : ∃ rest, trimS line = '@' :: rest := by
    cases h : trimS line with
    | nil => rw [h] at hat; simp at hat
    | cons c r =>
      rw [h] at hat
      exact ⟨r, by rw [show c = '@' by simpa using hat]⟩
  have hnotnil : ¬(trimS line = []) := by rw [hrest]; simp
  have hnotrec : isRecordDeclaration line = false :=
    isRecordDeclaration_false_of_trim_at line (by rw [hrest]; rfl)
  have hsec : isSectionDeclaration (trimS line) = true := by
    rw [hrest]
    simp [isSectionDeclaration, startsWithS, List.isPrefixOf]
  have hparse : parseSectionDeclaration (trimS line) = none := by
    rw [hrest]
    unfold parseSectionDeclaration
    have hm : rest.takeWhile isWordDotChar = [] := by
      cases rest with
      | nil => rfl
      | cons c r' =>
        have := hbad c (by rw [hrest]; rfl)
        rw [List.takeWhile_cons, this]
        rfl
    simp [hm]
  unfold parseLine
  rw [if_neg hnotnil, if_neg (by rw [hnotrec]; simp), hopen]
  cases hget : mapGet key st.tree.records with
  | none => simp [hget]
  | some r => simp [hget, hsec, hparse]

/-- **C10, witness.** -/
theorem c10_witness : parseLine stA ("  @?bad".toList) = .ok stA :=
  c10_bad_section_line_skipped stA "  @?bad".toList ['a'] rfl (by decide)
    (by decide)

/-! ### Map lemmas -/

theorem mapSet_mem {α : Type} {e : Str × α} {k : Str} {v : α} :
    ∀ {m : List (Str × α)}, e ∈ mapSet k v m → e = (k, v) ∨ e ∈ m := by
  intro m
  induction m with
  | nil => intro h; simp [mapSet] at h; exact Or.inl h
  | cons kv rest ih =>
    intro h
    unfold mapSet at h
    split at h
    · rcases List.mem_cons.mp h with h | h
      · exact Or.inl h
      · exact Or.inr (List.mem_cons_of_mem _ h)
    · rcases List.mem_cons.mp h with h | h
      · exact Or.inr (h ▸ List.mem_cons_self _ _)
      · rcases ih h with h | h
        · exact Or.inl h
        · exact Or.inr (List.mem_cons_of_mem _ h)

theorem objSet_ne (k : Str) (v : Option Str) (m : List (Str × Option Str))
    (h : k ≠ protoStr) : objSet k v m = mapSet k v m := by
  unfold objSet
  rw [if_neg h]

theorem objSet_mem {e : Str × Option Str} {k : Str} {v : Option Str}
    {m : List (Str × Option Str)} (h : e ∈ objSet k v m) :
    e = (k, v) ∨ e ∈ m := by
  unfold objSet at h
  split at h
  · exact Or.inr h
  · exact mapSet_mem h

theorem mapHas_mapSet {α : Type} (k k' : Str) (v : α) (m : List (Str × α))
    (h : mapHas k m = true) : mapHas k (mapSet k' v m) = true := by
  induction m with
  | nil => simp [mapHas] at h
  | cons kv rest ih =>
    rw [mapHas, List.any_cons] at h
    unfold mapSet
    split
    next heq =>
      rw [mapHas, List.any_cons, Bool.or_eq_true_iff]
      rcases Bool.or_eq_true_iff.mp h with h1 | h1
      · exact Or.inl (decide_eq_true (heq.symm.trans (of_decide_eq_true h1)))
      · exact Or.inr h1
    next heq =>
      rw [mapHas, List.any_cons, Bool.or_eq_true_iff]
      rcases Bool.or_eq_true_iff.mp h with h1 | h1
      · exact Or.inl h1
      · exact Or.inr (ih h1)

theorem mapHas_mapSet_self {α : Type} (k : Str) (v : α) (m : List (Str × α)) :
    mapHas k (mapSet k v m) = true := by
  induction m with
  | nil => simp [mapSet, mapHas]
  | cons kv rest ih =>
    unfold mapSet
    split
    · simp [mapHas]
    · unfold mapHas at ih ⊢
      simp only [List.any_cons]
      rw [ih]
      simp

theorem mapGet_mapSet_self {α : Type} (k : Str) (v : α) (m : List (Str × α)) :
    mapGet k (mapSet k v m) = some v := by
  induction m with
  | nil => simp [mapSet, mapGet]
  | cons kv rest ih =>
    unfold mapSet
    split
    · simp [mapGet]
    next hne =>
      unfold mapGet
      rw [if_neg hne]
      exact ih

theorem mapHas_mapDelete_ne {α : Type} (k n : Str) (m : List (Str × α))
    (hne : k ≠ n) (h : mapHas k m = true) : mapHas k (mapDelete n m) = true := by
  unfold mapHas mapDelete at *
  rw [List.any_eq_true] at h ⊢
  obtain ⟨e, he, hk⟩ := h
  refine ⟨e, List.mem_filter.mpr ⟨he, ?_⟩, hk⟩
  have : e.1 = k := by simpa using hk
  simp [this, hne]

/-! ### C9: field-name validation -/

theorem isWsChar_cases (c : Char) (h : isWsChar c = true) :
    c = ' ' ∨ c = '\t' ∨ c = '\n' ∨ c = '\r' ∨ c = '\x0b' ∨ c = '\x0c' := by
  unfold isWsChar at h
  simp only [Bool.or_eq_true, decide_eq_true_eq] at h
  tauto

theorem isWordDotChar_not_ws (c : Char) (h : isWordDotChar c = true) :
    isWsChar c = false := by
  by_contra hws
  rw [Bool.not_eq_false] at hws
  rcases isWsChar_cases c hws with rfl | rfl | rfl | rfl | rfl | rfl <;>
    exact absurd h (by decide)

theorem foldl_setAttribute_name (l : List (Str × Option Str)) (f : Field) :
    (l.foldl (fun f e => f.setAttribute e.1 e.2) f).name = f.name := by
  induction l generalizing f with
  | nil => rfl
  | cons e rest ih => exact ih _

/-- Every attribute name produced by the scanner is nonempty and free of
whitespace and `=`. -/
theorem parseAttrsLoop_names (fuel : Nat) :
    ∀ (s : Str) (acc : List (Str × Option Str)),
      (∀ e ∈ acc, e.1 ≠ [] ∧ e.1.all (fun c => !isWsChar c && c ≠ '=') = true) →
      ∀ e ∈ (parseAttrsLoop fuel s acc).1,
        e.1 ≠ [] ∧ e.1.all (fun c => !isWsChar c && c ≠ '=') = true := by
  induction fuel with
  | zero => intro s acc hacc; exact hacc
  | succ fuel ih =>
    intro s acc hacc e he
    simp only [parseAttrsLoop] at he
    rcases hs1 : s.dropWhile (fun c => isWsChar c || c = '=') with _ | ⟨c, s1'⟩ <;>
      rw [hs1] at he
    · exact hacc e he
    · have hchead : (isWsChar c || decide (c = '=')) = false := by
        have hh := List.head?_dropWhile_not (fun c => isWsChar c || c = '=') s
        rw [hs1] at hh
        simpa using hh
      obtain ⟨hc1, hc2⟩ := Bool.or_eq_false_iff.mp hchead
      have hP : ((c :: s1').takeWhile (fun c => !isWsChar c && c ≠ '=')) ≠ [] ∧
          ((c :: s1').takeWhile (fun c => !isWsChar c && c ≠ '=')).all
            (fun c => !isWsChar c && c ≠ '=') = true := by
        constructor
        · rw [List.takeWhile_cons]
          simp [hc1, hc2]
        · rw [List.all_eq_true]
          intro x hx
          exact @List.mem_takeWhile_imp Char (fun c => !isWsChar c && c ≠ '=')
            (c :: s1') x hx
      repeat' split at he
      all_goals
        first
        | exact hacc e he
        | exact ih _ _ (fun e' he' => (objSet_mem he').elim
            (fun hh => by rw [hh]; exact hP) (hacc e')) e he

/-- **C9, counterexample.** The `Field` constructor performs no validation:
constructing a field with the name `a b` (whitespace inside) or the empty
name succeeds and stores the offending name verbatim. -/
theorem c9_counterexample :
    (mkField "a b".toList false none none).name = "a b".toList ∧
    ("a b".toList.any isWsChar = true) ∧
    (mkField [] false none none).name = [] :=
  ⟨rfl, by decide, rfl⟩

/-- **C9, amended.** Fields created by the parser do satisfy the invariant:
whenever `parseField` succeeds, the resulting field's name is nonempty and
contains no whitespace. Direct construction (the `Field` constructor) does
not validate, so caller-constructed fields are not covered. -/
theorem c9_amended (line : Str) (f : Field) (h : parseField line = .ok f) :
    f.name ≠ [] ∧ f.name.any isWsChar = false := by
  simp only [parseField] at h
  split at h
  · -- bracketed shape
    split at h
    · exact absurd h (by simp)
    next endIdx _ =>
      split at h
      next hattrs => exact absurd h (by simp)
      next name value restAttrs hattrs =>
        rw [Except.ok.injEq] at h
        have hname : f.name = name := by
          rw [← h]
          exact foldl_setAttribute_name _ _
        have hmem : (name, value) ∈
            (parseHtmlAttributes ((line.drop 1).take (endIdx - 1))).1 := by
          rw [hattrs]
          exact List.mem_cons_self _ _
        have hP := parseAttrsLoop_names _ _ [] (by simp) _ hmem
        rw [hname]
        refine ⟨hP.1, ?_⟩
        rw [List.any_eq_false]
        intro x hx
        have hx' := (List.all_eq_true.mp hP.2) x hx
        simp only [Bool.and_eq_true] at hx'
        simpa using hx'.1
  · -- plain shape
    split at h
    · exact absurd h (by simp)
    next hm =>
      rw [Except.ok.injEq] at h
      have hname : f.name = line.takeWhile isWordDotChar := by
        rw [← h]
        exact foldl_setAttribute_name _ _
      refine ⟨by rw [hname]; exact hm, ?_⟩
      rw [hname, List.any_eq_false]
      intro x hx
      rw [isWordDotChar_not_ws x (List.mem_takeWhile_imp hx)]
      simp

/-- **C9, amended, witness.** -/
theorem c9_amended_witness :
    ({ name := ['x'], isOptional := false, defaultValue := none,
       attributes := [], description := none } : Field).name ≠ [] ∧
    ({ name := ['x'], isOptional := false, defaultValue := none,
       attributes := [], description := none } : Field).name.any isWsChar = false :=
  c9_amended ['x'] _ (by decide)

/-! ### C6: the main section -/

/-- **C6, counterexample.** `deleteSection("main")` removes the `main`
section: after it, `hasSection("main")` is false, so `main` does not survive
every operation sequence. -/
theorem c6_counterexample :
    Record.hasSection recA mainStr = true ∧
    Record.hasSection (applyOp recA (.deleteSection mainStr)) mainStr = false :=
  ⟨by decide, by decide⟩

theorem addSection_error_state (r : Record) (n e : Str) (r' : Record)
    (h : r.addSection n = .error (e, r')) : r' = r := by
  unfold Record.addSection at h
  split at h
  · rw [Except.error.injEq, Prod.mk.injEq] at h
    exact h.2.symm
  · split at h
    · rw [Except.error.injEq, Prod.mk.injEq] at h
      exact h.2.symm
    · exact absurd h (by simp)

theorem addSection_ok_state (r : Record) (n : Str) (s : Section) (r' : Record)
    (h : r.addSection n = .ok (s, r')) :
    r' = { r with sections := mapSet n s r.sections } := by
  unfold Record.addSection at h
  split at h
  · exact absurd h (by simp)
  · split at h
    · exact absurd h (by simp)
    next s0 hs0 =>
      rw [Except.ok.injEq, Prod.mk.injEq] at h
      obtain ⟨h1, h2⟩ := h
      rw [← h2, ← h1]

theorem hasSection_main_applyOp (r : Record) (op : ROp)
    (hop : op ≠ .deleteSection mainStr)
    (h : mapHas mainStr r.sections = true) :
    mapHas mainStr (applyOp r op).sections = true := by
  cases op with
  | addSection n =>
    simp only [applyOp]
    split
    next s r' heq =>
      rw [addSection_ok_state r n s r' heq]
      exact mapHas_mapSet _ _ _ _ h
    next e r' heq =>
      rw [addSection_error_state r n e r' heq]
      exact h
  | deleteSection n =>
    have hne : mainStr ≠ n := fun heq => hop (by rw [heq])
    simp only [applyOp]
    exact mapHas_mapDelete_ne _ _ _ hne h
  | setSection s =>
    simp only [applyOp]
    exact mapHas_mapSet _ _ _ _ h
  | addField f sn =>
    simp only [applyOp]
    split
    next r' heq =>
      unfold Record.addField at heq
      split at heq
      · split at heq
        · exact absurd heq (by simp)
        · rw [Except.ok.injEq] at heq
          rw [← heq]
          exact mapHas_mapSet _ _ _ _ h
      · split at heq
        · exact absurd heq (by simp)
        next s2 r2 heq2 =>
          split at heq
          · exact absurd heq (by simp)
          · rw [Except.ok.injEq] at heq
            rw [← heq, addSection_ok_state r sn s2 r2 heq2]
            exact mapHas_mapSet _ _ _ _ (mapHas_mapSet _ _ _ _ h)
    next e r' heq =>
      unfold Record.addField at heq
      split at heq
      · split at heq
        · rw [Except.error.injEq, Prod.mk.injEq] at heq
          rw [← heq.2]
          exact h
        · exact absurd heq (by simp)
      · split at heq
        next e2 r2 heq2 =>
          rw [Except.error.injEq, Prod.mk.injEq] at heq
          rw [← heq.2, addSection_error_state r sn e2 r2 heq2]
          exact h
        next s2 r2 heq2 =>
          split at heq
          · rw [Except.error.injEq, Prod.mk.injEq] at heq
            rw [← heq.2, addSection_ok_state r sn s2 r2 heq2]
            exact mapHas_mapSet _ _ _ _ h
          · exact absurd heq (by simp)
  | setField f sn =>
    simp only [applyOp]
    split
    next r' heq =>
      unfold Record.setField at heq
      split at heq
      · rw [Except.ok.injEq] at heq
        rw [← heq]
        exact mapHas_mapSet _ _ _ _ h
      · split at heq
        · exact absurd heq (by simp)
        next s2 r2 heq2 =>
          rw [Except.ok.injEq] at heq
          rw [← heq, addSection_ok_state r sn s2 r2 heq2]
          exact mapHas_mapSet _ _ _ _ (mapHas_mapSet _ _ _ _ h)
    next e r' heq =>
      unfold Record.setField at heq
      split at heq
      · exact absurd heq (by simp)
      · split at heq
        next e2 r2 heq2 =>
          rw [Except.error.injEq, Prod.mk.injEq] at heq
          rw [← heq.2, addSection_error_state r sn e2 r2 heq2]
          exact h
        next s2 r2 heq2 => exact absurd heq (by simp)
  | deleteField n sn =>
    simp only [applyOp]
    unfold Record.deleteField
    split
    · exact h
    · exact mapHas_mapSet _ _ _ _ h

/-- **C6, amended.** The `main` section exists at construction and is
preserved by every sequence of the record operations *other than*
`deleteSection("main")` (which does remove it). Of the field operations
whose section-name argument defaults to `main`, `addField` and `setField`
place the field in the `main` section, recreating that section when it is
absent; `deleteField` is a no-op when the targeted section is absent, so it
does not recreate `main`. -/
theorem c6_amended :
    (∀ e p v d r, mkRecord e p v d = .ok r → r.hasSection mainStr = true) ∧
    (∀ (r : Record) (ops : List ROp), r.hasSection mainStr = true →
      (∀ op ∈ ops, op ≠ .deleteSection mainStr) →
      (applyOps r ops).hasSection mainStr = true) ∧
    (∀ (r : Record) (f : Field) (r' : Record), r.addField f mainStr = .ok r' →
      ∃ sec, mapGet mainStr r'.sections = some sec ∧
        sec.hasField f.name = true) ∧
    (∀ (r : Record) (f : Field) (r' : Record), r.setField f mainStr = .ok r' →
      ∃ sec, mapGet mainStr r'.sections = some sec ∧
        sec.hasField f.name = true) ∧
    (∀ (r : Record) (n : Str), mapGet mainStr r.sections = none →
      r.deleteField n mainStr = r) := by
  refine ⟨?_, ?_, ?_, ?_, ?_⟩
  · intro e p v d r hmk
    unfold mkRecord at hmk
    repeat' split at hmk
    all_goals
      first
      | (rw [Except.ok.injEq] at hmk
         rw [Record.hasSection, ← hmk]
         rfl)
      | exact absurd hmk (by simp)
  · intro r ops
    induction ops generalizing r with
    | nil => intro h _; exact h
    | cons op rest ih =>
      intro h hops
      unfold applyOps at *
      rw [List.foldl_cons]
      exact ih _ (hasSection_main_applyOp r op (hops op (by simp)) h)
        (fun o ho => hops o (List.mem_cons_of_mem _ ho))
  · intro r f r' h
    unfold Record.addField at h
    split at h
    next s hget =>
      unfold Section.addField at h
      split at h
      · exact absurd h (by simp)
      · rename_i s' heq'
        simp only [Except.ok.injEq] at h
        refine ⟨s', ?_, ?_⟩
        · rw [← h]
          exact mapGet_mapSet_self _ _ _
        · split at heq'
          · exact absurd heq' (by simp)
          · rw [Except.ok.injEq] at heq'
            rw [← heq']
            exact mapHas_mapSet_self _ _ _
    next hget =>
      split at h
      · exact absurd h (by simp)
      · rename_i s2 r2 heq2
        unfold Section.addField at h
        split at h
        · exact absurd h (by simp)
        · rename_i s' heq'
          simp only [Except.ok.injEq] at h
          refine ⟨s', ?_, ?_⟩
          · rw [← h]
            exact mapGet_mapSet_self _ _ _
          · split at heq'
            · exact absurd heq' (by simp)
            · rw [Except.ok.injEq] at heq'
              rw [← heq']
              exact mapHas_mapSet_self _ _ _
  · intro r f r' h
    unfold Record.setField at h
    split at h
    next s hget =>
      simp only [Except.ok.injEq] at h
      refine ⟨s.setField f, ?_, ?_⟩
      · rw [← h]
        exact mapGet_mapSet_self _ _ _
      · exact mapHas_mapSet_self _ _ _
    next hget =>
      split at h
      · exact absurd h (by simp)
      · rename_i s2 r2 heq2
        simp only [Except.ok.injEq] at h
        refine ⟨s2.setField f, ?_, ?_⟩
        · rw [← h]
          exact mapGet_mapSet_self _ _ _
        · exact mapHas_mapSet_self _ _ _
  · intro r n hget
    unfold Record.deleteField
    rw [hget]

/-- **C6, amended, witness.** -/
theorem c6_amended_witness :
    ((applyOps recA [ROp.addSection ['s'], ROp.deleteSection ['s']]).hasSection
      mainStr = true) ∧
    Record.deleteField recS ['f'] mainStr = recS :=
  ⟨c6_amended.2.1 recA [ROp.addSection ['s'], ROp.deleteSection ['s']]
    (by decide) (by decide),
   c6_amended.2.2.2.2 recS ['f'] (by decide)⟩

/-- **C4, counterexample.** The classifier trims its input before the prefix
tests, so on `" getUser"` (leading space) the code answers `get` while the
claim's untrimmed rules, checked in order with first match winning, answer
`check`: the claimed description is not what the code computes on every
input. -/
theorem c4_counterexample :
    getVerbFromActionName (some (' ' :: "getUser".toList)) = some "get".toList ∧
    classifyVerbSpec (some (' ' :: "getUser".toList)) = some "check".toList ∧
    getVerbFromActionName (some (' ' :: "getUser".toList)) ≠
      classifyVerbSpec (some (' ' :: "getUser".toList)) := by
  refine ⟨by decide, by decide, by decide⟩

/-- **C4, amended.** The verb classifier is a pure function that maps null
and the empty name to null and otherwise applies the claim's rules — prefix
`get`/`set`/`add`/`delete`, case-insensitive substring `list`, prefix
`check`, otherwise `check`, first match winning — to the *whitespace-trimmed*
name (emptiness being checked before trimming). In particular
`classifyVerb("getUser") = GET`, `classifyVerb("listAll") = LIST`,
`classifyVerb("frobnicate") = CHECK`, `classifyVerb(null) = null`. -/
theorem c4_amended :
    (∀ a : Option Str, getVerbFromActionName a =
      match a with
      | none => none
      | some s => if s = [] then none else some (verbRules (trimS s))) ∧
    getVerbFromActionName (some "getUser".toList) = some "get".toList ∧
    getVerbFromActionName (some "listAll".toList) = some "list".toList ∧
    getVerbFromActionName (some "frobnicate".toList) = some "check".toList ∧
    getVerbFromActionName none = none := by
  refine ⟨?_, by decide, by decide, by decide, rfl⟩
  intro a
  match a with
  | none => rfl
  | some s =>
    by_cases h : s = []
    · simp [getVerbFromActionName, verbRules, h]
    · simp only [getVerbFromActionName, verbRules, h, if_false]
      split_ifs <;> rfl

/-- **C7.** Field-line parsing examples:
`[port="8080"] min="1" max="65535" // Port number` parses to the optional
field `port` with default `8080`, attributes `min="1"`, `max="65535"` in that
order, and description `Port number`; `name? // optional field` parses to the
optional field `name` with no default, no attributes, and description
`optional field`. -/
theorem c7_field_examples :
    parseField "[port=\"8080\"] min=\"1\" max=\"65535\" // Port number".toList =
      .ok { name := "port".toList, isOptional := true,
            defaultValue := some "8080".toList,
            attributes := [("min".toList, some "1".toList),
                           ("max".toList, some "65535".toList)],
            description := some "Port number".toList } ∧
    parseField "name? // optional field".toList =
      .ok { name := "name".toList, isOptional := true, defaultValue := none,
            attributes := [], description := some "optional field".toList } := by
  exact ⟨by decide, by decide⟩

/-- **C5.** Full-name derivation: for every record whose property name and
verb are not the (unreachable-through-validation) empty string, the full name
is the entity name, followed by `"." + propertyName` when present, followed
by `"." +` the action segment (stored as `verb`) when present; and the three
concrete examples hold through `Tree.addRecord`. -/
theorem c5_full_name :
    (∀ r : Record, r.propertyName ≠ some [] → r.verb ≠ some [] →
      r.getFullName = specFullName r.entityName r.propertyName r.verb) ∧
    (Tree.addRecord { records := [] } "user".toList (some "profile".toList)
        (some "update".toList) none).map (fun p => p.1.getFullName) =
      .ok "user.profile.update".toList ∧
    (Tree.addRecord { records := [] } "order".toList none (some "create".toList)
        none).map (fun p => p.1.getFullName) = .ok "order.create".toList ∧
    (Tree.addRecord { records := [] } "ping".toList none none none).map
      (fun p => p.1.getFullName) = .ok "ping".toList := by
  refine ⟨?_, by decide, by decide, by decide⟩
  intro r hp hv
  unfold Record.getFullName specFullName
  match hp' : r.propertyName, hv' : r.verb with
  | none, none => simp [truthy]
  | none, some v => simp [truthy, show v ≠ [] from fun h => hv (h ▸ hv')]
  | some p, none => simp [truthy, show p ≠ [] from fun h => hp (h ▸ hp')]
  | some p, some v =>
    simp [truthy, show p ≠ [] from fun h => hp (h ▸ hp'),
          show v ≠ [] from fun h => hv (h ▸ hv')]

/-- **C5, witness.** -/
theorem c5_full_name_witness :
    ({ entityName := ['a'], propertyName := some ['b'], verb := some ['c'],
       sections := [], description := none } : Record).getFullName =
      specFullName ['a'] (some ['b']) (some ['c']) :=
  c5_full_name.1 _ (by decide) (by decide)

/-- **C3.** Duplicate rejection with atomicity: adding a record whose full
name is already a key of the tree, adding a section whose name already exists
on the record, and adding a field whose name already exists in the section
each produce an error whose carried state is exactly the prior state. -/
theorem c3_duplicate_rejection :
    (∀ (t : Tree) e p v d rec, mkRecord e p v d = .ok rec →
      mapHas rec.getFullName t.records = true →
      t.addRecord e p v d =
        .error ("Record already exists: ".toList ++ rec.getFullName, t)) ∧
    (∀ (r : Record) n, mapHas n r.sections = true →
      r.addSection n = .error ("Section already exists: ".toList ++ n, r)) ∧
    (∀ (s : Section) f, mapHas f.name s.fields = true →
      s.addField f = .error ("Field already exists: ".toList ++ f.name, s)) := by
  refine ⟨?_, ?_, ?_⟩
  · intro t e p v d rec hmk hin
    unfold Tree.addRecord
    rw [hmk]
    simp [hin]
  · intro r n hin
    unfold Record.addSection
    simp [hin]
  · intro s f hin
    unfold Section.addField
    simp [hin]

/-- **C3, witness.** -/
theorem c3_duplicate_rejection_witness :
    (Tree.addRecord treeA ['a'] none none none =
      .error ("Record already exists: ".toList ++ ['a'], treeA)) ∧
    (Record.addSection recS ['s'] =
      .error ("Section already exists: ".toList ++ ['s'], recS)) ∧
    (Section.addField secF (mkField ['f'] true none none) =
      .error ("Field already exists: ".toList ++ ['f'], secF)) :=
  ⟨c3_duplicate_rejection.1 treeA ['a'] none none none recA (by decide) (by decide),
   c3_duplicate_rejection.2.1 recS ['s'] (by decide),
   c3_duplicate_rejection.2.2 secF (mkField ['f'] true none none) (by decide)⟩

/-- **C2, counterexample.** Parsing the end-to-end example line
`user.profile.update    // Updates a profile` (with its two field lines)
yields a record whose `verb` is the raw final segment `update`, not the
classifier output SET: the classifier is never consulted, so the claim's
`verb = SET` is false on the code. -/
theorem c2_counterexample :
    ((treeFromString c2input).toOption.bind
        (fun t => t.getRecord "user.profile.update".toList)).map Record.verb =
      some (some "update".toList) ∧
    ¬ ((treeFromString c2input).toOption.bind
        (fun t => t.getRecord "user.profile.update".toList)).map Record.verb =
      some (some "set".toList) := by
  exact ⟨by decide, by decide⟩

/-- **C2, amended.** A record's `verb` is the caller-supplied third
constructor argument, stored unchanged (so it is independently settable and
the verb classifier is not consulted); the parser passes the record line's
final dot-segment through as that argument, so parsing the example yields one
record with entity name `user`, property name `profile`, verb `update` (the
raw segment), description `Updates a profile`, and a main section holding
`username` (required, attribute `maxLength="32"`) and `password` (optional,
no default). -/
theorem c2_amended :
    (∀ e p v d rec, mkRecord e p v d = .ok rec → rec.verb = v) ∧
    (treeFromString c2input).toOption.bind
        (fun t => t.getRecord "user.profile.update".toList) =
      some { entityName := "user".toList, propertyName := some "profile".toList,
             verb := some "update".toList,
             sections := [(mainStr,
               { name := mainStr,
                 fields := [("username".toList,
                             { name := "username".toList, isOptional := false,
                               defaultValue := none,
                               attributes := [("maxLength".toList, some "32".toList)],
                               description := none }),
                            ("password".toList,
                             { name := "password".toList, isOptional := true,
                               defaultValue := none, attributes := [],
                               description := none })] })],
             description := some "Updates a profile".toList } := by
  constructor
  · intro e p v d rec hmk
    unfold mkRecord at hmk
    repeat' split at hmk
    all_goals simp at hmk
    simp [← hmk]
  · decide

/-- **C2, witness.** -/
theorem c2_amended_witness :
    ∃ rec, mkRecord ['x'] none (some "zzz".toList) none = .ok rec ∧
      rec.verb = some "zzz".toList := by
  refine ⟨_, rfl, c2_amended.1 ['x'] none (some "zzz".toList) none _ rfl⟩

/-! ### C1: escaping and quoted-scanning lemmas -/

/-- **C1, counterexample.** The tree `t0c1` (one record `r`, one optional
field `f` with a null default) satisfies the claim's hypothesis — no value or
description contains a quote or a newline — yet parsing its serialization
turns the null default into the four-character string `null`, because
`Field.stringify` interpolates `null` into `[f="null"]`. The
isOptional/defaultValue pairs are therefore not preserved. -/
theorem c1_counterexample :
    claimHyp t0c1 = true ∧
    treeFromString t0c1.stringify = .ok t1c1 ∧
    ((mapGet ['r'] t0c1.records).bind (fun r => (mapGet mainStr r.sections).bind
      (fun s => (mapGet ['f'] s.fields).map Field.defaultValue)) = some none) ∧
    ((mapGet ['r'] t1c1.records).bind (fun r => (mapGet mainStr r.sections).bind
      (fun s => (mapGet ['f'] s.fields).map Field.defaultValue)) =
        some (some "null".toList)) ∧
    some (none : Option Str) ≠ some (some "null".toList) :=
  ⟨by decide, by decide, by decide, by decide, by decide⟩

theorem escNL_cons_generic (c : Char) (rest : Str)
    (h1 : ¬(c = '\r' ∧ rest.head? = some '\n')) (h2 : c ≠ '\n') :
    escNL (c :: rest) = c :: escNL rest := by
  conv_lhs => unfold escNL
  split
  next r1 heq =>
    exfalso
    rw [List.cons.injEq] at heq
    exact h1 ⟨heq.1, by rw [heq.2]; rfl⟩
  next r1 heq =>
    exfalso
    rw [List.cons.injEq] at heq
    exact h2 heq.1
  next c' r1 heq =>
    rw [List.cons.injEq] at heq
    rw [heq.1, heq.2]
  next heq => exact absurd heq (by simp)

theorem escNL_id (s : Str) (h : ∀ c ∈ s, c ≠ '\n') : escNL s = s := by
  induction s with
  | nil => rfl
  | cons c rest ih =>
    have hc : c ≠ '\n' := h c (by simp)
    have hr : ∀ x ∈ rest, x ≠ '\n' := fun x hx => h x (List.mem_cons_of_mem _ hx)
    have h1 : ¬(c = '\r' ∧ rest.head? = some '\n') := by
      rintro ⟨-, hh⟩
      cases rest with
      | nil => simp at hh
      | cons d t =>
        have : d = '\n' := by simpa using hh
        exact hr d (by simp) this
    rw [escNL_cons_generic c rest h1 hc, ih hr]

theorem escNL_no_nl (s : Str) : ∀ c ∈ escNL s, c ≠ '\n' := by
  induction s using escNL.induct with
  | case1 rest ih =>
    intro c hc
    rw [show escNL ('\r' :: '\n' :: rest) = '\\' :: 'n' :: escNL rest from rfl] at hc
    rcases hc with _ | ⟨_, hc⟩
    · decide
    rcases hc with _ | ⟨_, hc⟩
    · decide
    · exact ih c hc
  | case2 rest ih =>
    intro c hc
    rw [show escNL ('\n' :: rest) = '\\' :: 'n' :: escNL rest from rfl] at hc
    rcases hc with _ | ⟨_, hc⟩
    · decide
    rcases hc with _ | ⟨_, hc⟩
    · decide
    · exact ih c hc
  | case3 c rest h1 h2 ih =>
    intro x hx
    rw [escNL_cons_generic c rest ?hne (fun hh => h2 hh)] at hx
    case hne =>
      rintro ⟨hc, hh⟩
      cases rest with
      | nil => simp at hh
      | cons d t => exact h1 t hc (by simpa using hh)
    rcases hx with _ | ⟨_, hx⟩
    · exact fun hh => h2 hh
    · exact ih x hx
  | case4 =>
    intro c hc
    rw [show escNL [] = [] from rfl] at hc
    simp at hc

theorem escQ_id (s : Str) (h : ∀ c ∈ s, c ≠ '"') : escQ s = s := by
  induction s with
  | nil => rfl
  | cons c rest ih =>
    have hc : c ≠ '"' := h c (by simp)
    have step : escQ (c :: rest) = c :: escQ rest := by
      conv_lhs => unfold escQ
      split
      next heq =>
        rw [List.cons.injEq] at heq
        exact absurd heq.1 hc
      next c' r1 heq =>
        rw [List.cons.injEq] at heq
        rw [heq.1, heq.2]
      next heq => exact absurd heq (by simp)
    rw [step, ih (fun x hx => h x (List.mem_cons_of_mem _ hx))]

theorem escSQ_cons (c : Char) (rest : Str) :
    escSQ (c :: rest) =
      if c = '\'' then '\\' :: '\'' :: escSQ rest else c :: escSQ rest := by
  by_cases hc : c = '\''
  · rw [if_pos hc, hc]
    rfl
  · rw [if_neg hc]
    conv_lhs => unfold escSQ
    split
    next heq =>
      rw [List.cons.injEq] at heq
      exact absurd heq.1 hc
    next c' r1 heq =>
      rw [List.cons.injEq] at heq
      rw [heq.1, heq.2]
    next heq => exact absurd heq (by simp)

theorem escSQ_mem (s : Str) : ∀ c ∈ escSQ s, c ∈ s ∨ c = '\\' := by
  induction s with
  | nil => intro c hc; simp [escSQ] at hc
  | cons d rest ih =>
    intro c hc
    rw [escSQ_cons] at hc
    split at hc
    next hd =>
      rcases hc with _ | ⟨_, hc⟩
      · exact Or.inr rfl
      rcases hc with _ | ⟨_, hc⟩
      · exact Or.inl (by rw [hd]; simp)
      · rcases ih c hc with h | h
        · exact Or.inl (List.mem_cons_of_mem _ h)
        · exact Or.inr h
    next hd =>
      rcases hc with _ | ⟨_, hc⟩
      · exact Or.inl (by simp)
      · rcases ih c hc with h | h
        · exact Or.inl (List.mem_cons_of_mem _ h)
        · exact Or.inr h

theorem escSQ_ne_nil (s : Str) (h : s ≠ []) : escSQ s ≠ [] := by
  cases s with
  | nil => exact absurd rfl h
  | cons c rest =>
    rw [escSQ_cons]
    split <;> simp

theorem escSQ_last (s : Str) (h : s.getLast? ≠ some '\\') :
    (escSQ s).getLast? ≠ some '\\' := by
  induction s with
  | nil => simp [escSQ]
  | cons c rest ih =>
    rw [escSQ_cons]
    cases hr : rest with
    | nil =>
      rw [hr] at h
      split
      next hc => simp [escSQ]
      next hc =>
        rw [show escSQ [] = [] from rfl]
        simpa using h
    | cons d t =>
      have hrest : rest.getLast? ≠ some '\\' := by
        rw [← List.getLast?_append_of_ne_nil [c] (by rw [hr]; simp)]
        exact h
      have hne : escSQ rest ≠ [] := escSQ_ne_nil rest (by rw [hr]; simp)
      rw [← hr]
      split
      · rw [show '\\' :: '\'' :: escSQ rest = ['\\', '\''] ++ escSQ rest by rfl,
          List.getLast?_append_of_ne_nil _ hne]
        exact ih hrest
      · rw [show (c :: escSQ rest) = [c] ++ escSQ rest by rfl,
          List.getLast?_append_of_ne_nil _ hne]
        exact ih hrest

theorem unescape_cons_generic (c : Char) (rest : Str)
    (h1 : ¬(c = '\\' ∧ rest.head? = some '"'))
    (h2 : ¬(c = '\\' ∧ rest.head? = some '\'')) :
    unescapeQuotes (c :: rest) = c :: unescapeQuotes rest := by
  conv_lhs => unfold unescapeQuotes
  split
  next heq =>
    rw [List.cons.injEq] at heq
    exact absurd ⟨heq.1, by rw [heq.2]; rfl⟩ h1
  next heq =>
    rw [List.cons.injEq] at heq
    exact absurd ⟨heq.1, by rw [heq.2]; rfl⟩ h2
  next c' r1 heq =>
    rw [List.cons.injEq] at heq
    rw [heq.1, heq.2]
  next heq => exact absurd heq (by simp)

theorem unescape_id (s : Str) (h : ∀ c ∈ s, c ≠ '\\') : unescapeQuotes s = s := by
  induction s with
  | nil => rfl
  | cons c rest ih =>
    have hc : c ≠ '\\' := h c (by simp)
    rw [unescape_cons_generic c rest (fun hh => hc hh.1) (fun hh => hc hh.1),
      ih (fun x hx => h x (List.mem_cons_of_mem _ hx))]

theorem unescape_escSQ (s : Str) (h : ∀ c ∈ s, c ≠ '"') :
    unescapeQuotes (escSQ s) = s := by
  induction s with
  | nil => rfl
  | cons c rest ih =>
    have hrest : ∀ x ∈ rest, x ≠ '"' := fun x hx => h x (List.mem_cons_of_mem _ hx)
    have hheadSQ : ∀ z : Str, (escSQ z).head? ≠ some '\'' := by
      intro z
      cases z with
      | nil => simp [escSQ]
      | cons d t =>
        rw [escSQ_cons]
        split
        · simp
        next hd => simpa using hd
    have hheadDQ : (escSQ rest).head? ≠ some '"' := by
      intro hh
      cases hesc : escSQ rest with
      | nil => rw [hesc] at hh; simp at hh
      | cons d t =>
        rw [hesc] at hh
        have hd : d = '"' := by simpa using hh
        have := escSQ_mem rest d (by rw [hesc]; simp)
        rcases this with hmem | hbs
        · exact hrest d hmem hd
        · rw [hbs] at hd; simp at hd
    rw [escSQ_cons]
    split
    next hc =>
      rw [show unescapeQuotes ('\\' :: '\'' :: escSQ rest) =
        '\'' :: unescapeQuotes (escSQ rest) from rfl, ih hrest, hc]
    next hc =>
      rw [unescape_cons_generic c (escSQ rest)
        (fun hh => hheadDQ hh.2) (fun hh => hheadSQ rest hh.2), ih hrest]

theorem scanDQuoted_exact (content rest : Str)
    (hq : ∀ c ∈ content, c ≠ '"') (hl : content.getLast? ≠ some '\\') :
    scanDQuoted (content ++ '"' :: rest) = some (content, rest) := by
  induction content with
  | nil =>
    rw [List.nil_append]
    rfl
  | cons c t ih =>
    have hc : c ≠ '"' := hq c (by simp)
    have step : scanDQuoted (c :: (t ++ '"' :: rest)) =
        (scanDQuoted (t ++ '"' :: rest)).map (fun p => (c :: p.1, p.2)) := by
      conv_lhs => unfold scanDQuoted
      split
      next r1 heq =>
        rw [List.cons.injEq] at heq
        obtain ⟨hc1, hc2⟩ := heq
        exfalso
        cases t with
        | nil =>
          rw [hc1] at hl
          simp at hl
        | cons d t' =>
          rw [List.cons_append, List.cons.injEq] at hc2
          exact hq d (by simp) hc2.1
      next r1 heq =>
        rw [List.cons.injEq] at heq
        exact absurd heq.1 hc
      next c' r1 heq =>
        rw [List.cons.injEq] at heq
        rw [heq.1, heq.2]
      next heq => exact absurd heq (by simp)
    rw [List.cons_append, step, ih (fun x hx => hq x (List.mem_cons_of_mem _ hx))
      (by
        cases t with
        | nil => simp
        | cons d t' =>
          rw [← @List.getLast?_append_of_ne_nil Char [c] (d :: t') (by simp)]
          exact hl)]
    rfl

theorem valueFromRaw_quoted (content : Str) :
    valueFromRaw ('"' :: content ++ ['"']) = some (unescapeQuotes content) := by
  unfold valueFromRaw
  rw [if_neg (by simp)]
  rw [if_pos]
  · rw [show ('"' :: content ++ ['"']).drop 1 = content ++ ['"'] from rfl,
      List.dropLast_concat]
  · apply Bool.or_eq_true_iff.mpr
    left
    apply Bool.and_eq_true_iff.mpr
    constructor
    · simp [startsWithS, List.isPrefixOf]
    · rw [show ('"' :: content ++ ['"']).reverse =
        '"' :: (content.reverse ++ ['"']) by simp]
      simp [startsWithS, List.isPrefixOf]

theorem escAttrValue_eq_escSQ (w : Str)
    (hw : ∀ c ∈ w, c ≠ '"' ∧ c ≠ '\n') : escAttrValue w = escSQ w := by
  unfold escAttrValue
  rw [escQ_id w (fun c hc => (hw c hc).1)]
  apply escNL_id
  intro c hc
  rcases escSQ_mem w c hc with h | h
  · exact (hw c h).2
  · rw [h]; decide

/-! ### C1: the attribute scanner on rendered attributes -/

theorem takeWhile_cons_pos {p : α → Bool} {a : α} (l : List α) (h : p a = true) :
    List.takeWhile p (a :: l) = a :: List.takeWhile p l := by
  rw [List.takeWhile_cons, if_pos h]

theorem takeWhile_cons_neg {p : α → Bool} {a : α} (l : List α) (h : p a = false) :
    List.takeWhile p (a :: l) = [] := by
  rw [List.takeWhile_cons, if_neg (by rw [h]; simp)]

theorem dropWhile_cons_pos {p : α → Bool} {a : α} (l : List α) (h : p a = true) :
    List.dropWhile p (a :: l) = List.dropWhile p l := by
  rw [List.dropWhile_cons, if_pos h]

theorem dropWhile_cons_neg {p : α → Bool} {a : α} (l : List α) (h : p a = false) :
    List.dropWhile p (a :: l) = a :: l := by
  rw [List.dropWhile_cons, if_neg (by rw [h]; simp)]

theorem dropWhile_idem (p : α → Bool) (l : List α) :
    List.dropWhile p (List.dropWhile p l) = List.dropWhile p l := by
  cases h : List.dropWhile p l with
  | nil => rfl
  | cons c t =>
    have hc : p c = false := by
      have := List.head?_dropWhile_not p l
      rw [h] at this
      simpa using this
    rw [List.dropWhile_cons, hc]
    simp

theorem mapSet_append_fresh {α : Type} (k : Str) (v : α) (m : List (Str × α))
    (h : mapHas k m = false) : mapSet k v m = m ++ [(k, v)] := by
  induction m with
  | nil => rfl
  | cons kv rest ih =>
    rw [mapHas, List.any_cons, Bool.or_eq_false_iff] at h
    unfold mapSet
    rw [if_neg (by simpa using h.1)]
    rw [ih h.2]
    rfl

theorem parseAttrsLoop_dropWhile (fuel : Nat) (s : Str)
    (acc : List (Str × Option Str)) :
    parseAttrsLoop fuel s acc =
      parseAttrsLoop fuel (s.dropWhile (fun c => isWsChar c || c = '=')) acc := by
  cases fuel with
  | zero => rfl
  | succ g =>
    simp only [parseAttrsLoop]
    rw [dropWhile_idem]

/-- The loop terminates with the accumulator unchanged on an empty or
comment-only tail. -/
theorem parseAttrsLoop_stop (fuel : Nat) (R : Str)
    (acc : List (Str × Option Str))
    (hR : R = [] ∨ ∃ d, R.dropWhile isWsChar = '/' :: '/' :: d)
    (hfuel : 1 ≤ fuel) :
    (parseAttrsLoop fuel R acc).1 = acc := by
  cases fuel with
  | zero => omega
  | succ g =>
    rcases hR with rfl | ⟨d, hd⟩
    · rfl
    · have hdw : R.dropWhile (fun c => isWsChar c || c = '=') = '/' :: '/' :: d := by
        conv_lhs => rw [← List.takeWhile_append_dropWhile isWsChar R, hd]
        rw [dropWhile_append_all _ _ _
          (fun x hx => by simp [List.mem_takeWhile_imp hx])]
        exact dropWhile_cons_neg _ (by decide)
      simp only [parseAttrsLoop]
      rw [hdw]
      have hname : ('/' :: '/' :: d).takeWhile (fun c => !isWsChar c && c ≠ '=') =
          '/' :: '/' :: d.takeWhile (fun c => !isWsChar c && c ≠ '=') := by
        rw [takeWhile_cons_pos _ (by decide), takeWhile_cons_pos _ (by decide)]
      rw [hname]
      rw [if_pos (by simp [startsWithS, List.isPrefixOf])]

/-- Consuming one rendered attribute: the loop records `(n, v)` and continues
on the remaining input. -/
theorem parseAttrsLoop_step (n : Str) (v : Option Str) (S : Str)
    (acc : List (Str × Option Str)) (fuel : Nat)
    (hwf : wfAttr (n, v) = true)
    (hS : S = [] ∨ S.head? = some ' ')
    (hS2 : (S.dropWhile isWsChar).head? ≠ some '=') :
    parseAttrsLoop (fuel + 1) (renderAttr (n, v) ++ S) acc =
      parseAttrsLoop fuel S (mapSet n v acc) := by
  unfold wfAttr wfAttrName at hwf
  simp only [Bool.and_eq_true] at hwf
  obtain ⟨⟨⟨⟨⟨hne, hchars⟩, hnoslash⟩, -⟩, hproto⟩, hval⟩ := hwf
  have hchars' : ∀ c ∈ n, (!isWsChar c && c ≠ '=') = true := List.all_eq_true.mp hchars
  have hnameOK : ∀ X : Str, (X = [] ∨ ∃ c t, X = c :: t ∧ (!isWsChar c && c ≠ '=') = false) →
      (n ++ X).takeWhile (fun c => !isWsChar c && c ≠ '=') = n := by
    intro X hX
    rcases hX with rfl | ⟨c, t, rfl, hcf⟩
    · rw [List.append_nil, List.takeWhile_eq_self_iff.mpr hchars']
    · exact takeWhile_append_cons _ _ _ _ hchars' hcf
  obtain ⟨nh, nt, rfl⟩ : ∃ nh nt, n = nh :: nt := by
    cases n with
    | nil => simp at hne
    | cons nh nt => exact ⟨nh, nt, rfl⟩
  have hnh := hchars' nh (by simp)
  have hnhf : (isWsChar nh || nh = '=') = false := by
    simp only [Bool.and_eq_true, Bool.not_eq_true', decide_eq_true_eq] at hnh
    simp [hnh.1, hnh.2]
  have hns : ¬ startsWithS "//".toList (nh :: nt) = true := by
    simpa using hnoslash
  rcases v with _ | w
  · -- bare attribute
    have hrender : renderAttr (nh :: nt, none) = nh :: nt := rfl
    rw [hrender]
    simp only [parseAttrsLoop]
    rw [List.cons_append, List.dropWhile_cons, hnhf]
    simp only [Bool.false_eq_true, if_false]
    rw [← List.cons_append,
      hnameOK S (by
        rcases hS with rfl | hh
        · exact Or.inl rfl
        · rcases S with _ | ⟨c, t⟩
          · exact Or.inl rfl
          · exact Or.inr ⟨c, t, rfl, by
              have : c = ' ' := by simpa using hh
              rw [this]
              decide⟩)]
    rw [if_neg hns]
    rw [List.drop_left]
    split
    · rename_i afterEq heq
      rw [heq] at hS2
      simp at hS2
    · rw [objSet_ne _ _ _ (by simpa using hproto)]
  · -- valued attribute
    have hwne : w ≠ [] := by
      unfold wfAttrVal at hval
      simp only [Bool.and_eq_true] at hval
      simpa using hval.1.1
    have hwchars : ∀ c ∈ w, c ≠ '"' ∧ c ≠ '\n' := by
      unfold wfAttrVal at hval
      simp only [Bool.and_eq_true] at hval
      intro c hc
      have := List.all_eq_true.mp hval.1.2 c hc
      simp only [Bool.and_eq_true, decide_eq_true_eq] at this
      exact ⟨this.1.1, this.1.2⟩
    have hwlast : w.getLast? ≠ some '\\' := by
      unfold wfAttrVal at hval
      simp only [Bool.and_eq_true] at hval
      simpa using hval.2
    have hrender : renderAttr (nh :: nt, some w) =
        (nh :: nt) ++ '=' :: '"' :: escAttrValue w ++ ['"'] := by
      show (if w ≠ [] then
        (nh :: nt, some w).1 ++ '=' :: '"' :: escAttrValue w ++ ['"']
        else (nh :: nt, some w).1) = _
      rw [if_pos hwne]
    have hE := escAttrValue_eq_escSQ w hwchars
    have hEq : ∀ c ∈ escAttrValue w, c ≠ '"' := by
      rw [hE]
      intro c hc
      rcases escSQ_mem w c hc with h | h
      · exact (hwchars c h).1
      · rw [h]; decide
    have hElast : (escAttrValue w).getLast? ≠ some '\\' := by
      rw [hE]
      exact escSQ_last w hwlast
    have hshape : ((nh :: nt) ++ '=' :: '"' :: escAttrValue w ++ ['"']) ++ S =
        (nh :: nt) ++ '=' :: '"' :: (escAttrValue w ++ '"' :: S) := by
      simp
    rw [hrender, hshape]
    simp only [parseAttrsLoop]
    rw [List.cons_append, List.dropWhile_cons, hnhf]
    simp only [Bool.false_eq_true, if_false]
    rw [← List.cons_append,
      hnameOK ('=' :: '"' :: (escAttrValue w ++ '"' :: S))
        (Or.inr ⟨'=', _, rfl, by decide⟩)]
    rw [if_neg hns, List.drop_left]
    rw [List.dropWhile_cons]
    simp only [show isWsChar '=' = false by decide, Bool.false_eq_true, if_false]
    rw [List.dropWhile_cons]
    simp only [show isWsChar '"' = false by decide, Bool.false_eq_true, if_false]
    rw [scanDQuoted_exact _ _ hEq hElast]
    simp only [valueFromRaw_quoted, hE,
      unescape_escSQ w (fun c hc => (hwchars c hc).1)]
    rw [objSet_ne _ _ _ (by simpa using hproto)]

/-- The head of a rendered attribute is the head of its name. -/
theorem renderAttr_decomp (n : Str) (v : Option Str) :
    ∃ X, renderAttr (n, v) = n ++ X := by
  rcases v with _ | w
  · exact ⟨[], by simp [renderAttr]⟩
  · by_cases hw : w = []
    · subst hw
      exact ⟨[], by simp [renderAttr]⟩
    · exact ⟨'=' :: '"' :: escAttrValue w ++ ['"'], by simp [renderAttr, hw]⟩

theorem renderAttrs_cons_decomp (e : Str × Option Str)
    (t : List (Str × Option Str)) : ∃ X, renderAttrs (e :: t) = e.1 ++ X := by
  obtain ⟨n, v⟩ := e
  obtain ⟨X, hX⟩ := renderAttr_decomp n v
  cases t with
  | nil => exact ⟨X, hX⟩
  | cons r2 t2 =>
    refine ⟨X ++ ' ' :: renderAttrs (r2 :: t2), ?_⟩
    rw [show renderAttrs ((n, v) :: r2 :: t2) =
      renderAttr (n, v) ++ ' ' :: renderAttrs (r2 :: t2) from rfl, hX]
    simp

theorem distinctKeys_fresh_left {α : Type} (a : List (Str × α)) (k : Str)
    (v : α) (b : List (Str × α)) (h : distinctKeys (a ++ (k, v) :: b) = true) :
    mapHas k a = false := by
  induction a with
  | nil => rfl
  | cons x a' ih =>
    rw [List.cons_append] at h
    unfold distinctKeys at h
    rw [Bool.and_eq_true] at h
    rw [mapHas, List.any_cons, Bool.or_eq_false_iff]
    constructor
    · have hkx : ((a' ++ (k, v) :: b).any fun e => decide (e.1 = x.1)) = false := by
        cases hb : ((a' ++ (k, v) :: b).any fun e => decide (e.1 = x.1)) with
        | false => rfl
        | true =>
          have h1 := h.1
          rw [hb] at h1
          exact absurd h1 (by decide)
      have hkv : decide ((k, v).1 = x.1) = false := by
        cases hb : decide ((k, v).1 = x.1) with
        | false => rfl
        | true =>
          have hany : ((a' ++ (k, v) :: b).any fun e => decide (e.1 = x.1)) = true :=
            List.any_eq_true.mpr ⟨(k, v), by simp, hb⟩
          rw [hany] at hkx
          exact absurd hkx (by decide)
      have hkf : ¬ (k = x.1) := by simpa using hkv
      have hxkf : ¬ (x.1 = k) := fun hxk => hkf hxk.symm
      simpa using hxkf
    · exact ih h.2

/-- The scanner recovers a rendered well-formed attribute list (any comment
tail ignored). -/
theorem parseAttrsLoop_render (attrs : List (Str × Option Str)) :
    ∀ (acc : List (Str × Option Str)) (R : Str) (fuel : Nat),
      attrs.all wfAttr = true →
      distinctKeys (acc ++ attrs) = true →
      (R = [] ∨ (R.head? = some ' ' ∧ ∃ d, R.dropWhile isWsChar = '/' :: '/' :: d)) →
      (renderAttrs attrs ++ R).length + 1 ≤ fuel →
      (parseAttrsLoop fuel (renderAttrs attrs ++ R) acc).1 = acc ++ attrs := by
  induction attrs with
  | nil =>
    intro acc R fuel _ _ hR hfuel
    rw [show renderAttrs [] = [] from rfl, List.nil_append] at hfuel ⊢
    rw [parseAttrsLoop_stop fuel R acc (hR.imp_right (fun h => h.2)) (by omega),
      List.append_nil]
  | cons e rest ih =>
    intro acc R fuel hwf hdis hR hfuel
    obtain ⟨n, v⟩ := e
    rw [List.all_cons, Bool.and_eq_true] at hwf
    have hfresh : mapHas n acc = false := distinctKeys_fresh_left acc n v rest hdis
    have hnne : n ≠ [] := by
      have := hwf.1
      unfold wfAttr wfAttrName at this
      simp only [Bool.and_eq_true] at this
      simpa using this.1.1.1.1.1
    obtain ⟨XA, hXA⟩ := renderAttr_decomp n v
    have hlenA : 1 ≤ (renderAttr (n, v)).length := by
      rw [hXA]
      cases n with
      | nil => exact absurd rfl hnne
      | cons c t => simp
    have hrender : renderAttrs ((n, v) :: rest) ++ R =
        renderAttr (n, v) ++
          ((if rest = [] then [] else ' ' :: renderAttrs rest) ++ R) := by
      cases rest with
      | nil => simp [renderAttrs]
      | cons r2 t2 =>
        rw [show renderAttrs ((n, v) :: r2 :: t2) =
          renderAttr (n, v) ++ ' ' :: renderAttrs (r2 :: t2) from rfl]
        simp
    obtain ⟨g, rfl⟩ : ∃ g, fuel = g + 1 := ⟨fuel - 1, by omega⟩
    have hS : ((if rest = [] then [] else ' ' :: renderAttrs rest) ++ R) = [] ∨
        ((if rest = [] then [] else ' ' :: renderAttrs rest) ++ R).head? = some ' ' := by
      cases rest with
      | nil =>
        rcases hR with rfl | ⟨hh, -⟩
        · exact Or.inl rfl
        · right
          rcases R with _ | ⟨c, t⟩
          · simp at hh
          · simpa using hh
      | cons r2 t2 => exact Or.inr rfl
    have hS2 : (((if rest = [] then [] else ' ' :: renderAttrs rest) ++ R).dropWhile
        isWsChar).head? ≠ some '=' := by
      cases rest with
      | nil =>
        rcases hR with rfl | ⟨-, d, hd⟩
        · simp
        · rw [if_pos rfl, List.nil_append, hd]
          simp
      | cons r2 t2 =>
        rw [if_neg (by simp)]
        obtain ⟨X2, hX2⟩ := renderAttrs_cons_decomp r2 t2
        have hr2wf : wfAttr r2 = true := by
          have := hwf.2
          rw [List.all_cons, Bool.and_eq_true] at this
          exact this.1
        have hr2chars : r2.1.all (fun c => !isWsChar c && c ≠ '=') = true := by
          unfold wfAttr wfAttrName at hr2wf
          simp only [Bool.and_eq_true] at hr2wf
          exact hr2wf.1.1.1.1.2
        obtain ⟨c2, t2', hc2⟩ : ∃ c2 t2', r2.1 = c2 :: t2' := by
          unfold wfAttr wfAttrName at hr2wf
          simp only [Bool.and_eq_true] at hr2wf
          have := hr2wf.1.1.1.1
          rcases hr : r2.1 with _ | ⟨c2, t2'⟩
          · rw [hr] at this; simp at this
          · exact ⟨c2, t2', rfl⟩
        have hc2p := List.all_eq_true.mp hr2chars c2 (by rw [hc2]; simp)
        simp only [Bool.and_eq_true, Bool.not_eq_true', decide_eq_true_eq] at hc2p
        rw [List.cons_append, List.dropWhile_cons]
        simp only [show isWsChar ' ' = true from rfl, if_true]
        rw [hX2, List.append_assoc, hc2, List.cons_append,
          List.dropWhile_cons, hc2p.1]
        simp only [Bool.false_eq_true, if_false]
        simp [hc2p.2]
    rw [hrender, parseAttrsLoop_step n v _ acc g hwf.1 hS hS2,
      mapSet_append_fresh _ _ _ hfresh]
    cases rest with
    | nil =>
      rw [if_pos rfl, List.nil_append]
      rw [parseAttrsLoop_stop g R _ (hR.imp_right (fun h => h.2)) ?hg]
      case hg =>
        rw [hrender] at hfuel
        simp only [List.length_append] at hfuel
        omega
    | cons r2 t2 =>
      rw [if_neg (by simp)]
      rw [List.cons_append]
      rw [parseAttrsLoop_dropWhile]
      have hdw : (' ' :: (renderAttrs (r2 :: t2) ++ R)).dropWhile
          (fun c => isWsChar c || c = '=') = renderAttrs (r2 :: t2) ++ R := by
        rw [List.dropWhile_cons]
        simp only [show (isWsChar ' ' || ' ' = '=') = true by decide, if_true]
        obtain ⟨X2, hX2⟩ := renderAttrs_cons_decomp r2 t2
        have hr2wf : wfAttr r2 = true := by
          have := hwf.2
          rw [List.all_cons, Bool.and_eq_true] at this
          exact this.1
        obtain ⟨c2, t2', hc2⟩ : ∃ c2 t2', r2.1 = c2 :: t2' := by
          unfold wfAttr wfAttrName at hr2wf
          simp only [Bool.and_eq_true] at hr2wf
          have := hr2wf.1.1.1.1
          rcases hr : r2.1 with _ | ⟨c2, t2'⟩
          · rw [hr] at this; simp at this
          · exact ⟨c2, t2', rfl⟩
        have hr2chars : r2.1.all (fun c => !isWsChar c && c ≠ '=') = true := by
          unfold wfAttr wfAttrName at hr2wf
          simp only [Bool.and_eq_true] at hr2wf
          exact hr2wf.1.1.1.1.2
        have hc2p := List.all_eq_true.mp hr2chars c2 (by rw [hc2]; simp)
        simp only [Bool.and_eq_true, Bool.not_eq_true', decide_eq_true_eq] at hc2p
        rw [hX2, List.append_assoc, hc2, List.cons_append]
        exact dropWhile_cons_neg _ (by simp [hc2p.1, hc2p.2])
      rw [hdw]
      have hih := ih (acc ++ [(n, v)]) R g hwf.2 ?hdis2 hR ?hg2
      case hdis2 =>
        rw [List.append_assoc]
        simpa using hdis
      case hg2 =>
        rw [hrender, if_neg (show r2 :: t2 ≠ [] by simp)] at hfuel
        simp only [List.length_append, List.length_cons] at hfuel ⊢
        omega
      rw [hih]
      simp

/-! ### C1: more trimming facts -/

theorem trimR_append_of_ne_nil (a b : Str) (hb : trimR b ≠ []) :
    trimR (a ++ b) = a ++ trimR b := by
  unfold trimR at hb ⊢
  rw [List.reverse_append, List.dropWhile_append, if_neg ?hne]
  case hne =>
    rw [List.isEmpty_iff]
    intro hcon
    exact hb (by rw [hcon]; rfl)
  rw [List.reverse_append, List.reverse_reverse]

theorem trimR_eq_self_of_getLast (s : Str)
    (h : ∀ c, s.getLast? = some c → isWsChar c = false) : trimR s = s := by
  unfold trimR
  cases hrev : s.reverse with
  | nil => rw [List.reverse_eq_nil_iff.mp hrev]; rfl
  | cons c t =>
    rw [dropWhile_cons_neg _ (h c (by rw [← List.head?_reverse, hrev]; rfl))]
    rw [← hrev, List.reverse_reverse]

theorem trimR_getLast (s : Str) (c : Char)
    (h : (trimR s).getLast? = some c) : isWsChar c = false := by
  unfold trimR at h
  rw [List.getLast?_reverse] at h
  cases hdw : List.dropWhile isWsChar s.reverse with
  | nil => rw [hdw] at h; simp at h
  | cons d t =>
    rw [hdw] at h
    have hd := List.head?_dropWhile_not isWsChar s.reverse
    rw [hdw] at hd
    have hcd : d = c := by simpa using h
    subst hcd
    simpa using hd

theorem mem_of_getLast {l : List α} {a : α} (h : l.getLast? = some a) :
    a ∈ l := by
  rw [← List.head?_reverse] at h
  have hm : a ∈ l.reverse := by
    cases hrev : l.reverse with
    | nil => rw [hrev] at h; simp at h
    | cons c t =>
      rw [hrev] at h
      have hca : c = a := by simpa using h
      subst hca
      simp
  exact List.mem_reverse.mp hm

theorem mem_trimR (s : Str) (c : Char) (h : c ∈ trimR s) : c ∈ s :=
  (( trimR_prefix s).sublist).subset h

theorem mem_trimL (s : Str) (c : Char) (h : c ∈ trimL s) : c ∈ s := by
  unfold trimL at h
  exact ((List.dropWhile_suffix _).sublist).subset h

theorem mem_trimS (s : Str) (c : Char) (h : c ∈ trimS s) : c ∈ s := by
  unfold trimS at h
  exact mem_trimL s c (mem_trimR (trimL s) c h)

theorem trimL_cons_not_ws (c : Char) (s : Str) (h : isWsChar c = false) :
    trimL (c :: s) = c :: s := by
  unfold trimL
  exact dropWhile_cons_neg _ h

theorem trimS_block (N y : Str) (hne : N ≠ [])
    (hh : ∀ c, N.head? = some c → isWsChar c = false)
    (hl : ∀ c, N.getLast? = some c → isWsChar c = false) :
    trimS (N ++ y) = N ++ trimR y := by
  unfold trimS
  cases N with
  | nil => exact absurd rfl hne
  | cons c N' =>
    rw [List.cons_append, trimL_cons_not_ws c (N' ++ y) (hh c rfl),
      ← List.cons_append]
    by_cases hy : trimR y = []
    · have hws : ∀ d ∈ y, isWsChar d = true := (trimR_eq_nil_iff y).mp hy
      rw [trimR_append_ws _ _ hws, hy, List.append_nil]
      exact trimR_eq_self_of_getLast _ hl
    · exact trimR_append_of_ne_nil _ _ hy

theorem trimS_all_not_ws (s : Str) (h : ∀ c ∈ s, isWsChar c = false) :
    trimS s = s := by
  unfold trimS
  cases s with
  | nil => rfl
  | cons c t =>
    rw [trimL_cons_not_ws c t (h c (by simp))]
    exact trimR_eq_self_of_getLast _
      (fun d hd => h d (mem_of_getLast hd))

/-! ### C1: splitting and joining lines -/

theorem splitChar_ne_nil (c : Char) (s : Str) : splitChar c s ≠ [] := by
  induction s with
  | nil => simp [splitChar]
  | cons x xs ih =>
    unfold splitChar
    split
    · simp
    · split
      · simp
      · simp

theorem splitChar_cons_eq (c x : Char) (xs : Str) :
    splitChar c (x :: xs) =
      if x = c then [] :: splitChar c xs
      else match splitChar c xs with
        | [] => [[x]]
        | y :: ys => (x :: y) :: ys := rfl

theorem splitChar_append (c : Char) (a b : Str) :
    splitChar c (a ++ c :: b) = splitChar c a ++ splitChar c b := by
  induction a with
  | nil =>
    rw [List.nil_append, splitChar_cons_eq, if_pos rfl]
    rfl
  | cons x xs ih =>
    rw [List.cons_append, splitChar_cons_eq, ih]
    conv_rhs => rw [splitChar_cons_eq]
    by_cases hx : x = c
    · rw [if_pos hx, if_pos hx]
      rfl
    · rw [if_neg hx, if_neg hx]
      cases hs : splitChar c xs with
      | nil => exact absurd hs (splitChar_ne_nil c xs)
      | cons y ys => simp

theorem splitChar_no (c : Char) (s : Str) (h : ∀ x ∈ s, x ≠ c) :
    splitChar c s = [s] := by
  induction s with
  | nil => rfl
  | cons x xs ih =>
    rw [splitChar_cons_eq, if_neg (h x (by simp)),
      ih (fun y hy => h y (by simp [hy]))]

theorem intercalate_single (sep : Str) (a : Str) :
    List.intercalate sep [a] = a := by
  simp [List.intercalate]

theorem intercalate_cons₂ (sep : Str) (a b : Str) (l : List Str) :
    List.intercalate sep (a :: b :: l) =
      a ++ sep ++ List.intercalate sep (b :: l) := by
  simp [List.intercalate, List.intersperse]

theorem intercalate_splitChar (c : Char) (s : Str) :
    List.intercalate [c] (splitChar c s) = s := by
  induction s with
  | nil => rfl
  | cons x xs ih =>
    rw [splitChar_cons_eq]
    by_cases hx : x = c
    · rw [if_pos hx]
      cases hs : splitChar c xs with
      | nil => exact absurd hs (splitChar_ne_nil c xs)
      | cons y ys =>
        rw [hs] at ih
        rw [intercalate_cons₂, ih]
        simp [hx]
    · rw [if_neg hx]
      cases hs : splitChar c xs with
      | nil => exact absurd hs (splitChar_ne_nil c xs)
      | cons y ys =>
        rw [hs] at ih
        cases ys with
        | nil =>
          rw [intercalate_single] at ih
          rw [intercalate_single, ih]
        | cons y2 ys2 =>
          rw [intercalate_cons₂] at ih
          rw [intercalate_cons₂, ← ih]
          simp

theorem mem_splitChar (c : Char) (s : Str) :
    ∀ x ∈ splitChar c s, ∀ d ∈ x, d ∈ s := by
  induction s with
  | nil =>
    intro x hx d hd
    simp [splitChar] at hx
    subst hx
    simp at hd
  | cons a as ih =>
    intro x hx d hd
    rw [splitChar_cons_eq] at hx
    by_cases ha : a = c
    · rw [if_pos ha] at hx
      rcases List.mem_cons.mp hx with rfl | hmem
      · simp at hd
      · exact List.mem_cons_of_mem a (ih x hmem d hd)
    · rw [if_neg ha] at hx
      cases hs : splitChar c as with
      | nil => exact absurd hs (splitChar_ne_nil c as)
      | cons y ys =>
        rw [hs] at hx
        rcases List.mem_cons.mp hx with rfl | hmem
        · rcases List.mem_cons.mp hd with rfl | hdy
          · simp
          · exact List.mem_cons_of_mem a (ih y (by rw [hs]; simp) d hdy)
        · exact List.mem_cons_of_mem a (ih x (by rw [hs]; simp [hmem]) d hd)

theorem mem_intercalate (sep : Char) (L : List Str) (c : Char)
    (hc : c ∈ List.intercalate [sep] L) : c = sep ∨ ∃ x ∈ L, c ∈ x := by
  induction L with
  | nil => simp [List.intercalate] at hc
  | cons a l ih =>
    cases l with
    | nil =>
      rw [intercalate_single] at hc
      exact Or.inr ⟨a, by simp, hc⟩
    | cons b l2 =>
      rw [intercalate_cons₂] at hc
      rcases List.mem_append.mp hc with h1 | h2
      · rcases List.mem_append.mp h1 with h3 | h4
        · exact Or.inr ⟨a, by simp, h3⟩
        · exact Or.inl (by simpa using h4)
      · rcases ih h2 with h | ⟨x, hx, hcx⟩
        · exact Or.inl h
        · exact Or.inr ⟨x, by simp [hx], hcx⟩

/-! ### C1: map and key toolkit -/

theorem mapSet_cons_eq {α : Type} (k : Str) (v : α) (k' : Str) (v' : α)
    (rest : List (Str × α)) :
    mapSet k v ((k', v') :: rest) =
      if k' = k then (k, v) :: rest else (k', v') :: mapSet k v rest := rfl

theorem mapSet_get_self {α : Type} (k : Str) (v : α) (m : List (Str × α))
    (h : mapGet k m = some v) : mapSet k v m = m := by
  induction m with
  | nil => simp [mapGet] at h
  | cons e rest ih =>
    obtain ⟨k', v'⟩ := e
    unfold mapGet at h
    unfold mapSet
    by_cases hk : k' = k
    · rw [if_pos hk] at h ⊢
      have hv : v' = v := by simpa using h
      rw [hk, hv]
    · rw [if_neg hk] at h ⊢
      rw [ih h]

theorem mapSet_mapSet_self {α : Type} (k : Str) (x y : α) (m : List (Str × α)) :
    mapSet k x (mapSet k y m) = mapSet k x m := by
  induction m with
  | nil => simp [mapSet]
  | cons e rest ih =>
    obtain ⟨k', v'⟩ := e
    by_cases hk : k' = k
    · have h1 : mapSet k y ((k', v') :: rest) = (k, y) :: rest := by
        rw [mapSet_cons_eq, if_pos hk]
      have h2 : mapSet k x ((k', v') :: rest) = (k, x) :: rest := by
        rw [mapSet_cons_eq, if_pos hk]
      have h3 : mapSet k x ((k, y) :: rest) = (k, x) :: rest := by
        rw [mapSet_cons_eq, if_pos rfl]
      rw [h1, h3, h2]
    · have h1 : mapSet k y ((k', v') :: rest) = (k', v') :: mapSet k y rest := by
        rw [mapSet_cons_eq, if_neg hk]
      have h2 : mapSet k x ((k', v') :: rest) = (k', v') :: mapSet k x rest := by
        rw [mapSet_cons_eq, if_neg hk]
      have h3 : mapSet k x ((k', v') :: mapSet k y rest) =
          (k', v') :: mapSet k x (mapSet k y rest) := by
        rw [mapSet_cons_eq, if_neg hk]
      rw [h1, h3, ih, h2]

theorem mapSet_skip_append {α : Type} (k : Str) (x y : α)
    (a b : List (Str × α)) (h : mapHas k a = false) :
    mapSet k x (a ++ (k, y) :: b) = a ++ (k, x) :: b := by
  induction a with
  | nil =>
    rw [List.nil_append, List.nil_append]
    unfold mapSet
    rw [if_pos rfl]
  | cons e a' ih =>
    obtain ⟨k', v'⟩ := e
    rw [mapHas, List.any_cons, Bool.or_eq_false_iff] at h
    rw [List.cons_append, List.cons_append]
    unfold mapSet
    rw [if_neg (by simpa using h.1), ih h.2]

theorem any_key_value_irrel {α : Type} (q k : Str) (v v' : α)
    (a b : List (Str × α)) :
    ((a ++ (k, v) :: b).any fun e => e.1 = q) =
      ((a ++ (k, v') :: b).any fun e => e.1 = q) := by
  simp [List.any_append, List.any_cons]

theorem distinctKeys_value_irrel {α : Type} (k : Str) (v v' : α)
    (a b : List (Str × α)) :
    distinctKeys (a ++ (k, v) :: b) = distinctKeys (a ++ (k, v') :: b) := by
  induction a with
  | nil => rfl
  | cons e a' ih =>
    obtain ⟨k0, v0⟩ := e
    rw [List.cons_append, List.cons_append]
    unfold distinctKeys
    rw [ih, show ((a' ++ (k, v) :: b).any fun e => decide (e.1 = k0)) =
        ((a' ++ (k, v') :: b).any fun e => decide (e.1 = k0)) from
      any_key_value_irrel k0 k v v' a' b]

theorem mapHas_eq_of_keys {α β : Type} (k : Str) {a : List (Str × α)}
    {b : List (Str × β)} (h : List.Forall₂ (fun x y => y.1 = x.1) a b) :
    mapHas k a = mapHas k b := by
  induction h with
  | nil => rfl
  | cons he ht ih =>
    rw [mapHas, mapHas, List.any_cons, List.any_cons]
    rw [mapHas, mapHas] at ih
    rw [he, ih]

/-! ### C1: rendered attributes and descriptions as line fragments -/

theorem renderAttrs_eq_intercalate (l : List (Str × Option Str)) :
    List.intercalate [' '] (l.map renderAttr) = renderAttrs l := by
  induction l with
  | nil => rfl
  | cons e rest ih =>
    cases rest with
    | nil =>
      rw [List.map_cons, List.map_nil, intercalate_single]
      rfl
    | cons e2 t2 =>
      rw [List.map_cons, List.map_cons, intercalate_cons₂, ← List.map_cons, ih,
        show renderAttrs (e :: e2 :: t2) =
          renderAttr e ++ ' ' :: renderAttrs (e2 :: t2) from rfl]
      simp

theorem renderAttr_none_eq (n : Str) : renderAttr (n, none) = n := rfl

theorem renderAttr_some_eq (n w : Str) :
    renderAttr (n, some w) =
      if w ≠ [] then n ++ '=' :: '\x22' :: escAttrValue w ++ ['\x22'] else n := rfl

theorem wfAttrVal_some_eq (w : Str) :
    wfAttrVal (some w) =
      (w ≠ [] && w.all (fun c => c ≠ '\x22' && c ≠ '\n' && c ≠ '\x0d') &&
        w.getLast? ≠ some '\\') := rfl

theorem renderAttr_no_nl (n : Str) (v : Option Str)
    (hwf : wfAttr (n, v) = true) : ∀ c ∈ renderAttr (n, v), c ≠ '\n' := by
  unfold wfAttr wfAttrName at hwf
  simp only [Bool.and_eq_true] at hwf
  have hchars := List.all_eq_true.mp hwf.1.1.1.1.2
  have hnamenl : ∀ c ∈ n, c ≠ '\n' := by
    intro c hc hcon
    have := hchars c hc
    rw [hcon] at this
    exact absurd this (by decide)
  cases v with
  | none => exact fun c hc => hnamenl c hc
  | some w =>
    intro c hc
    rw [renderAttr_some_eq] at hc
    by_cases hw : w = []
    · rw [if_neg (by simp [hw])] at hc
      exact hnamenl c hc
    · rw [if_pos hw] at hc
      rcases List.mem_append.mp hc with h1 | h2
      · rcases List.mem_append.mp h1 with h3 | h4
        · exact hnamenl c h3
        · rcases List.mem_cons.mp h4 with rfl | h5
          · decide
          · rcases List.mem_cons.mp h5 with rfl | h6
            · decide
            · exact escNL_no_nl _ c h6
      · rcases List.mem_cons.mp h2 with rfl | h7
        · decide
        · simp at h7

theorem renderAttrs_no_nl (attrs : List (Str × Option Str))
    (h : attrs.all wfAttr = true) : ∀ c ∈ renderAttrs attrs, c ≠ '\n' := by
  induction attrs with
  | nil => intro c hc; simp [renderAttrs] at hc
  | cons e rest ih =>
    intro c hc
    rw [List.all_cons, Bool.and_eq_true] at h
    obtain ⟨n, v⟩ := e
    cases rest with
    | nil => exact renderAttr_no_nl n v h.1 c hc
    | cons e2 t2 =>
      rw [show renderAttrs ((n, v) :: e2 :: t2) =
        renderAttr (n, v) ++ ' ' :: renderAttrs (e2 :: t2) from rfl] at hc
      rcases List.mem_append.mp hc with h1 | h2
      · exact renderAttr_no_nl n v h.1 c h1
      · rcases List.mem_cons.mp h2 with rfl | h3
        · decide
        · exact ih h.2 c h3

theorem renderAttr_getLast_not_ws (n : Str) (v : Option Str)
    (hwf : wfAttr (n, v) = true) (c : Char)
    (h : (renderAttr (n, v)).getLast? = some c) : isWsChar c = false := by
  unfold wfAttr wfAttrName at hwf
  simp only [Bool.and_eq_true] at hwf
  have hchars := List.all_eq_true.mp hwf.1.1.1.1.2
  have hname : ∀ d, n.getLast? = some d → isWsChar d = false := by
    intro d hd
    have := hchars d (mem_of_getLast hd)
    simp only [Bool.and_eq_true, Bool.not_eq_true'] at this
    exact this.1
  cases v with
  | none => exact hname c h
  | some w =>
    have hval := hwf.2
    rw [wfAttrVal_some_eq] at hval
    simp only [Bool.and_eq_true] at hval
    have hw : w ≠ [] := by simpa using hval.1.1
    rw [renderAttr_some_eq, if_pos hw] at h
    rw [List.getLast?_concat] at h
    have hcq : c = '\x22' := by simpa using h.symm
    rw [hcq]
    decide

theorem renderAttrs_ne_nil (e : Str × Option Str)
    (rest : List (Str × Option Str)) (hname : e.1 ≠ []) :
    renderAttrs (e :: rest) ≠ [] := by
  obtain ⟨X, hX⟩ := renderAttrs_cons_decomp e rest
  intro hcon
  rw [hX] at hcon
  cases h1 : e.1 with
  | nil => exact hname h1
  | cons a t => rw [h1] at hcon; simp at hcon

theorem renderAttrs_getLast_not_ws (attrs : List (Str × Option Str)) :
    attrs.all wfAttr = true → ∀ c, (renderAttrs attrs).getLast? = some c →
      isWsChar c = false := by
  induction attrs with
  | nil => intro _ c hc; simp [renderAttrs] at hc
  | cons e rest ih =>
    intro h c hc
    rw [List.all_cons, Bool.and_eq_true] at h
    obtain ⟨n, v⟩ := e
    cases rest with
    | nil => exact renderAttr_getLast_not_ws n v h.1 c hc
    | cons e2 t2 =>
      rw [show renderAttrs ((n, v) :: e2 :: t2) =
        renderAttr (n, v) ++ ' ' :: renderAttrs (e2 :: t2) from rfl] at hc
      have hne2 : renderAttrs (e2 :: t2) ≠ [] := by
        apply renderAttrs_ne_nil
        have h2 := h.2
        rw [List.all_cons, Bool.and_eq_true] at h2
        have := h2.1
        unfold wfAttr wfAttrName at this
        simp only [Bool.and_eq_true] at this
        simpa using this.1.1.1.1.1
      rw [show renderAttr (n, v) ++ ' ' :: renderAttrs (e2 :: t2) =
        (renderAttr (n, v) ++ [' ']) ++ renderAttrs (e2 :: t2) by simp] at hc
      rw [List.getLast?_append_of_ne_nil _ hne2] at hc
      exact ih h.2 c hc

theorem descToString_some_eq (d : Str) :
    descToString (some d) =
      if d = [] then [] else trimS ("// ".toList ++ escNL (escDescQ d)) := rfl

theorem descToString_cases (o : Option Str) :
    descToString o = [] ∨ ∃ d', descToString o = '/' :: '/' :: d' := by
  cases o with
  | none => exact Or.inl rfl
  | some d =>
    rw [descToString_some_eq]
    by_cases hd : d = []
    · rw [if_pos hd]; exact Or.inl rfl
    · rw [if_neg hd]
      right
      unfold trimS
      rw [show "// ".toList ++ escNL (escDescQ d) =
        '/' :: ('/' :: ' ' :: escNL (escDescQ d)) from rfl]
      rw [trimL_cons_not_ws _ _ (by decide)]
      rw [show '/' :: ('/' :: ' ' :: escNL (escDescQ d)) =
        ['/', '/'] ++ (' ' :: escNL (escDescQ d)) from rfl]
      by_cases h2 : trimR (' ' :: escNL (escDescQ d)) = []
      · refine ⟨[], ?_⟩
        rw [trimR_append_ws _ _ ((trimR_eq_nil_iff _).mp h2)]
        decide
      · refine ⟨trimR (' ' :: escNL (escDescQ d)), ?_⟩
        rw [trimR_append_of_ne_nil _ _ h2]
        rfl

theorem descToString_getLast (o : Option Str) (c : Char)
    (h : (descToString o).getLast? = some c) : isWsChar c = false := by
  cases o with
  | none => simp [descToString] at h
  | some d =>
    rw [descToString_some_eq] at h
    by_cases hd : d = []
    · rw [if_pos hd] at h; simp at h
    · rw [if_neg hd] at h
      unfold trimS at h
      exact trimR_getLast _ c h

theorem descToString_no_nl (o : Option Str) :
    ∀ c ∈ descToString o, c ≠ '\n' := by
  cases o with
  | none => intro c hc; simp [descToString] at hc
  | some d =>
    rw [descToString_some_eq]
    by_cases hd : d = []
    · rw [if_pos hd]; intro c hc; simp at hc
    · rw [if_neg hd]
      intro c hc
      have hmem := mem_trimS _ c hc
      rcases List.mem_append.mp hmem with h1 | h2
      · rcases (by simpa using h1 : c = '/' ∨ c = '/' ∨ c = ' ') with rfl | rfl | rfl
          <;> decide
      · exact escNL_no_nl _ c h2

/-! ### C1: attribute-map assembly in `parseField` -/

theorem foldl_setAttribute_eq (l : List (Str × Option Str)) :
    ∀ f0 : Field, distinctKeys (f0.attributes ++ l) = true →
      l.foldl (fun f e => f.setAttribute e.1 e.2) f0 =
        { f0 with attributes := f0.attributes ++ l } := by
  induction l with
  | nil => intro f0 _; simp
  | cons e rest ih =>
    intro f0 hdis
    obtain ⟨n, v⟩ := e
    rw [List.foldl_cons]
    have hfresh : mapHas n f0.attributes = false :=
      distinctKeys_fresh_left _ n v rest hdis
    have hset : f0.setAttribute n v =
        { f0 with attributes := f0.attributes ++ [(n, v)] } := by
      unfold Field.setAttribute
      rw [mapSet_append_fresh _ _ _ hfresh]
    rw [hset, ih _ (by simpa using hdis)]
    simp

theorem parseAttrsLoop_nil (fuel : Nat) (acc : List (Str × Option Str)) :
    parseAttrsLoop fuel [] acc = (acc, none) := by
  cases fuel with
  | zero => rfl
  | succ g => rfl

theorem indexOfChar_cons_eq (e x : Char) (xs : Str) :
    indexOfChar e (x :: xs) =
      if x = e then some 0 else (indexOfChar e xs).map (· + 1) := rfl

theorem indexOfChar_append (e : Char) (pre post : Str)
    (h : ∀ c ∈ pre, c ≠ e) :
    indexOfChar e (pre ++ e :: post) = some pre.length := by
  induction pre with
  | nil =>
    rw [List.nil_append, indexOfChar_cons_eq, if_pos rfl]
    rfl
  | cons x xs ih =>
    rw [List.cons_append, indexOfChar_cons_eq, if_neg (h x (by simp)),
      ih (fun c hc => h c (by simp [hc]))]
    rfl

theorem bracket_scan (n v : Str) (hn : n ≠ [])
    (hnchars : ∀ c ∈ n, isWordDotChar c = true)
    (hnp : n ≠ protoStr)
    (hv : ∀ c ∈ v, c ≠ '\x22' ∧ c ≠ '\\') :
    (parseHtmlAttributes (n ++ '=' :: '\x22' :: v ++ ['\x22'])).1 =
      [(n, some v)] := by
  obtain ⟨nh, nt, rfl⟩ : ∃ nh nt, n = nh :: nt := by
    cases n with
    | nil => exact absurd rfl hn
    | cons a b => exact ⟨a, b, rfl⟩
  have hchars' : ∀ c ∈ nh :: nt, (!isWsChar c && c ≠ '=') = true := by
    intro c hc
    have hwd := hnchars c hc
    have hws := isWordDotChar_not_ws c hwd
    have hne : c ≠ '=' := by
      intro hcon
      rw [hcon] at hwd
      exact absurd hwd (by decide)
    simp [hws, hne]
  have hnh := hchars' nh (by simp)
  have hnhf : (isWsChar nh || nh = '=') = false := by
    simp only [Bool.and_eq_true, Bool.not_eq_true', decide_eq_true_eq] at hnh
    simp [hnh.1, hnh.2]
  have hns : ¬ startsWithS "//".toList (nh :: nt) = true := by
    have hred : startsWithS "//".toList (nh :: nt) =
        ('/' == nh && List.isPrefixOf ['/'] nt) := rfl
    intro hcon
    rw [hred, Bool.and_eq_true, beq_iff_eq] at hcon
    have hwd := hnchars nh (by simp)
    rw [← hcon.1] at hwd
    exact absurd hwd (by decide)
  have hvq : ∀ c ∈ v, c ≠ '\x22' := fun c hc => (hv c hc).1
  have hvlast : v.getLast? ≠ some '\\' := by
    intro hcon
    exact absurd rfl ((hv '\\' (mem_of_getLast hcon)).2)
  unfold parseHtmlAttributes
  have hshape : (nh :: nt) ++ '=' :: '\x22' :: v ++ ['\x22'] =
      (nh :: nt) ++ '=' :: '\x22' :: (v ++ '\x22' :: []) := by simp
  rw [hshape]
  simp only [parseAttrsLoop]
  rw [List.cons_append, List.dropWhile_cons, hnhf]
  simp only [Bool.false_eq_true, if_false]
  rw [← List.cons_append,
    takeWhile_append_cons _ (nh :: nt) '=' ('\x22' :: (v ++ '\x22' :: []))
      hchars' (by decide)]
  rw [if_neg hns, List.drop_left]
  rw [List.dropWhile_cons]
  simp only [show isWsChar '=' = false by decide, Bool.false_eq_true, if_false]
  rw [List.dropWhile_cons]
  simp only [show isWsChar '\x22' = false by decide, Bool.false_eq_true, if_false]
  rw [scanDQuoted_exact _ _ hvq hvlast]
  simp only [valueFromRaw_quoted, unescape_id v (fun c hc => (hv c hc).2)]
  rw [objSet_ne _ _ _ hnp]
  rfl

/-! ### C1: the serialized attribute-and-description tail -/

theorem descToString_trimS (o : Option Str) :
    trimS (descToString o) = descToString o := by
  cases o with
  | none => rfl
  | some d =>
    rw [descToString_some_eq]
    by_cases hd : d = []
    · rw [if_pos hd]; rfl
    · rw [if_neg hd]
      exact trimS_idem _

theorem parse_tail (attrs : List (Str × Option Str)) (o : Option Str)
    (hall : attrs.all wfAttr = true) (hdis : distinctKeys attrs = true) :
    (parseHtmlAttributes (trimS ("    ".toList ++
      (renderAttrs attrs ++ ' ' :: descToString o)))).1 = attrs := by
  rw [trimS_ws_append "    ".toList _ (by decide)]
  cases attrs with
  | nil =>
    rw [show renderAttrs [] ++ ' ' :: descToString o =
      [' '] ++ descToString o from rfl]
    rw [trimS_ws_append [' '] _ (by decide), descToString_trimS]
    rcases descToString_cases o with hD | ⟨d', hD⟩
    · rw [hD]; rfl
    · rw [hD]
      unfold parseHtmlAttributes
      rw [parseAttrsLoop_stop _ _ _ (Or.inr ⟨d', dropWhile_cons_neg _ (by decide)⟩)
        (by simp)]
  | cons e rest =>
    obtain ⟨X, hX⟩ := renderAttrs_cons_decomp e rest
    obtain ⟨c0, n0, hc0⟩ : ∃ c0 n0, e.1 = c0 :: n0 := by
      have he := hall
      rw [List.all_cons, Bool.and_eq_true] at he
      have h1 := he.1
      unfold wfAttr wfAttrName at h1
      simp only [Bool.and_eq_true] at h1
      have h2 : e.1 ≠ [] := by simpa using h1.1.1.1.1.1
      cases hr : e.1 with
      | nil => exact absurd hr h2
      | cons a b => exact ⟨a, b, rfl⟩
    have hc0ws : isWsChar c0 = false := by
      have he := hall
      rw [List.all_cons, Bool.and_eq_true] at he
      have h1 := he.1
      unfold wfAttr wfAttrName at h1
      simp only [Bool.and_eq_true] at h1
      have h3 := List.all_eq_true.mp h1.1.1.1.1.2 c0 (by rw [hc0]; simp)
      simp only [Bool.and_eq_true, Bool.not_eq_true'] at h3
      exact h3.1
    have hL : trimL (renderAttrs (e :: rest) ++ ' ' :: descToString o) =
        renderAttrs (e :: rest) ++ ' ' :: descToString o := by
      rw [hX, hc0, List.cons_append, List.cons_append]
      unfold trimL
      exact dropWhile_cons_neg _ hc0ws
    unfold trimS
    rw [hL]
    rcases descToString_cases o with hD | ⟨d', hD⟩
    · rw [hD]
      rw [show renderAttrs (e :: rest) ++ [' '] =
        renderAttrs (e :: rest) ++ [' '] from rfl,
        trimR_append_ws _ [' '] (by decide)]
      rw [trimR_eq_self_of_getLast _
        (fun c hc => renderAttrs_getLast_not_ws (e :: rest) hall c hc)]
      unfold parseHtmlAttributes
      have := parseAttrsLoop_render (e :: rest)
        [] [] ((renderAttrs (e :: rest)).length + 1)
        hall (by simpa using hdis) (Or.inl rfl) (by simp)
      rw [List.append_nil] at this
      rw [this, List.nil_append]
    · have hDlast : trimR (descToString o) = descToString o :=
        trimR_eq_self_of_getLast _ (fun c hc => descToString_getLast o c hc)
      rw [show renderAttrs (e :: rest) ++ ' ' :: descToString o =
        (renderAttrs (e :: rest) ++ [' ']) ++ descToString o by simp]
      rw [trimR_append_of_ne_nil _ _ (by rw [hDlast, hD]; simp)]
      rw [hDlast]
      rw [show (renderAttrs (e :: rest) ++ [' ']) ++ descToString o =
        renderAttrs (e :: rest) ++ (' ' :: descToString o) by simp]
      unfold parseHtmlAttributes
      have := parseAttrsLoop_render (e :: rest)
        [] (' ' :: descToString o)
        ((renderAttrs (e :: rest) ++ (' ' :: descToString o)).length + 1)
        hall (by simpa using hdis)
        (Or.inr ⟨rfl, d', by
          rw [show (' ' :: descToString o) = [' '] ++ descToString o from rfl,
            dropWhile_append_all _ _ _ (by decide), hD]
          exact dropWhile_cons_neg _ (by decide)⟩)
        (by simp)
      rw [this, List.nil_append]

/-! ### C1: a serialized field parses back similar -/

theorem wfDefault_some_eq (v : Str) :
    wfDefault (some v) =
      v.all (fun c => c ≠ '\x22' && c ≠ '\n' && c ≠ '\x0d' && c ≠ ']' &&
        c ≠ '\\') := rfl

theorem parseField_stringify (f : Field) (hwf : wfField f = true) :
    ∃ g, parseField (Field.stringify f) = .ok g ∧ FieldSim f g := by
  unfold wfField at hwf
  simp only [Bool.and_eq_true] at hwf
  have hnne : f.name ≠ [] := by simpa using hwf.1.1.1.1
  have hnchars : ∀ c ∈ f.name, isWordDotChar c = true :=
    List.all_eq_true.mp hwf.1.1.1.2
  have hcond := hwf.1.1.2
  have hattrs : f.attributes.all wfAttr = true := hwf.1.2
  have hdis : distinctKeys f.attributes = true := hwf.2
  have hhead : ∀ c, f.name.head? = some c → isWsChar c = false := by
    intro c hc
    cases hn : f.name with
    | nil => rw [hn] at hc; simp at hc
    | cons a b =>
      rw [hn] at hc
      have hac : a = c := by simpa using hc
      subst hac
      exact isWordDotChar_not_ws a (hnchars a (by rw [hn]; simp))
  have hlast : ∀ c, f.name.getLast? = some c → isWsChar c = false :=
    fun c hc => isWordDotChar_not_ws c (hnchars c (mem_of_getLast hc))
  obtain ⟨W, hW⟩ : ∃ W, W = trimR ("    ".toList ++
      (renderAttrs f.attributes ++ ' ' :: descToString f.description)) := ⟨_, rfl⟩
  have hWcase : W = [] ∨ W.head? = some ' ' := by
    by_cases h : W = []
    · exact Or.inl h
    · right
      rw [hW] at h ⊢
      have hp := head?_of_prefix ( trimR_prefix _) h
      rw [← hp]
      rfl
  have hparse : (parseHtmlAttributes (trimS W)).1 = f.attributes := by
    rw [hW, trimS_trimR]
    exact parse_tail f.attributes f.description hattrs hdis
  have mtok : (f.name ++ W).takeWhile isWordDotChar = f.name := by
    rcases hWcase with hWnil | hWsp
    · rw [hWnil, List.append_nil]
      exact List.takeWhile_eq_self_iff.mpr hnchars
    · cases W with
      | nil => simp at hWsp
      | cons w0 W' =>
        have hw0 : w0 = ' ' := by simpa using hWsp
        subst hw0
        exact takeWhile_append_cons _ f.name ' ' W' hnchars (by decide)
  have hio : ¬ (W.head? = some '?') := by
    rcases hWcase with hWnil | hWsp
    · rw [hWnil]; simp
    · rw [hWsp]; simp
  cases hopt : f.isOptional with
  | false =>
    have hdv : f.defaultValue = none := by
      rw [hopt] at hcond
      simpa using hcond
    have hstr : Field.stringify f = f.name ++ W := by
      simp only [Field.stringify]
      rw [hopt]
      simp only [Bool.false_eq_true, if_false]
      rw [renderAttrs_eq_intercalate]
      rw [show f.name ++ "    ".toList ++ renderAttrs f.attributes ++
          ' ' :: descToString f.description =
        f.name ++ ("    ".toList ++ (renderAttrs f.attributes ++
          ' ' :: descToString f.description)) by simp]
      rw [trimS_block _ _ hnne hhead hlast, hW]
    have hnotbr : startsWithS ['['] (f.name ++ W) = false := by
      cases hn : f.name with
      | nil => exact absurd hn hnne
      | cons a b =>
        have ha := hnchars a (by rw [hn]; simp)
        have hane : a ≠ '[' := by
          intro hcon
          rw [hcon] at ha
          exact absurd ha (by decide)
        rw [List.cons_append]
        simp [startsWithS, List.isPrefixOf, Ne.symm hane]
    rw [hstr]
    simp only [parseField]
    rw [if_neg (by simp [hnotbr])]
    rw [mtok]
    rw [if_neg hnne]
    rw [List.drop_left]
    rw [if_neg hio, Nat.add_zero, List.drop_left, decide_eq_false hio]
    rw [hparse]
    rw [foldl_setAttribute_eq f.attributes (mkField f.name false none none)
      (by simpa [mkField] using hdis)]
    refine ⟨_, rfl, ?_⟩
    simp [FieldSim, mkField, hopt, hdv]
  | true =>
    obtain ⟨dv, hdv⟩ : ∃ dv, f.defaultValue = some dv := by
      rw [hopt] at hcond
      simp only [if_true] at hcond
      cases hd : f.defaultValue with
      | none => rw [hd] at hcond; exact absurd hcond (by simp [wfDefault])
      | some dv => exact ⟨dv, rfl⟩
    have hdvAll : ∀ c ∈ dv, c ≠ '\x22' ∧ c ≠ '\n' ∧ c ≠ '\x0d' ∧ c ≠ ']' ∧
        c ≠ '\\' := by
      intro c hc
      rw [hopt] at hcond
      simp only [if_true, hdv, wfDefault_some_eq, Bool.and_eq_true] at hcond
      have := List.all_eq_true.mp hcond.1 c hc
      simp only [Bool.and_eq_true, decide_eq_true_eq] at this
      exact ⟨this.1.1.1.1, this.1.1.1.2, this.1.1.2, this.1.2, this.2⟩
    have hproto : f.name ≠ protoStr := by
      have hc2 := hcond
      rw [hopt] at hc2
      simp only [if_true, Bool.and_eq_true] at hc2
      simpa using hc2.2
    have hjs : jsShow f.defaultValue = dv := by rw [hdv]; rfl
    have hns_eq : '[' :: f.name ++ '=' :: '\x22' :: jsShow f.defaultValue ++
        ['\x22', ']'] =
        '[' :: ((f.name ++ '=' :: '\x22' :: dv ++ ['\x22']) ++ [']']) := by
      rw [hjs]
      simp
    have hstr : Field.stringify f =
        ('[' :: ((f.name ++ '=' :: '\x22' :: dv ++ ['\x22']) ++ [']'])) ++ W := by
      simp only [Field.stringify]
      rw [hopt]
      simp only [if_true]
      rw [renderAttrs_eq_intercalate, hns_eq]
      rw [show ('[' :: ((f.name ++ '=' :: '\x22' :: dv ++ ['\x22']) ++ [']'])) ++
          "    ".toList ++ renderAttrs f.attributes ++
          ' ' :: descToString f.description =
        ('[' :: ((f.name ++ '=' :: '\x22' :: dv ++ ['\x22']) ++ [']'])) ++
          ("    ".toList ++ (renderAttrs f.attributes ++
            ' ' :: descToString f.description)) by simp]
      rw [trimS_block _ _ (by simp) ?hh ?hl, hW]
      case hh =>
        intro c hc
        have hc2 : c = '[' := by simpa using hc.symm
        rw [hc2]
        decide
      case hl =>
        intro c hc
        rw [show '[' :: ((f.name ++ '=' :: '\x22' :: dv ++ ['\x22']) ++ [']']) =
          ('[' :: (f.name ++ '=' :: '\x22' :: dv ++ ['\x22'])) ++ [']'] by simp,
          List.getLast?_concat] at hc
        have hc2 : c = ']' := by simpa using hc.symm
        rw [hc2]
        decide
    rw [hstr]
    rw [show ('[' :: ((f.name ++ '=' :: '\x22' :: dv ++ ['\x22']) ++ [']'])) ++ W =
      '[' :: ((f.name ++ '=' :: '\x22' :: dv ++ ['\x22']) ++ ']' :: W) by simp]
    simp only [parseField]
    rw [if_pos (by simp [startsWithS, List.isPrefixOf])]
    have hpre_mem : ∀ c ∈ f.name ++ '=' :: '\x22' :: dv ++ ['\x22'], c ≠ ']' := by
      intro c hc
      rcases List.mem_append.mp hc with h1 | h2
      · rcases List.mem_append.mp h1 with h3 | h4
        · intro hcon
          have := hnchars c h3
          rw [hcon] at this
          exact absurd this (by decide)
        · rcases List.mem_cons.mp h4 with rfl | h5
          · decide
          · rcases List.mem_cons.mp h5 with rfl | h6
            · decide
            · exact (hdvAll c h6).2.2.2.1
      · rcases List.mem_cons.mp h2 with rfl | h7
        · decide
        · simp at h7
    have hidx : indexOfChar ']'
        ('[' :: ((f.name ++ '=' :: '\x22' :: dv ++ ['\x22']) ++ ']' :: W)) =
        some ((f.name ++ '=' :: '\x22' :: dv ++ ['\x22']).length + 1) := by
      rw [indexOfChar_cons_eq, if_neg (by decide),
        indexOfChar_append _ _ _ hpre_mem]
      rfl
    rw [hidx]
    split
    · rename_i heq
      simp at heq
    · rename_i endIdx heq
      have hE : endIdx = (f.name ++ '=' :: '\x22' :: dv ++ ['\x22']).length + 1 := by
        have := heq.symm
        simpa using this
      subst hE
      rw [show ('[' :: ((f.name ++ '=' :: '\x22' :: dv ++ ['\x22']) ++
          ']' :: W)).drop 1 =
        (f.name ++ '=' :: '\x22' :: dv ++ ['\x22']) ++ ']' :: W from rfl]
      rw [show (f.name ++ '=' :: '\x22' :: dv ++ ['\x22']).length + 1 - 1 =
        (f.name ++ '=' :: '\x22' :: dv ++ ['\x22']).length from rfl]
      rw [List.take_left]
      rw [bracket_scan f.name dv hnne hnchars hproto
        (fun c hc => ⟨(hdvAll c hc).1, (hdvAll c hc).2.2.2.2⟩)]
      split
      · rename_i heq2
        simp at heq2
      · rename_i name value tl heq2
        rw [List.cons.injEq, Prod.mk.injEq] at heq2
        obtain ⟨⟨hname, hvalue⟩, htl⟩ := heq2
        rw [show '[' :: ((f.name ++ '=' :: '\x22' :: dv ++ ['\x22']) ++ ']' :: W) =
          ('[' :: ((f.name ++ '=' :: '\x22' :: dv ++ ['\x22']) ++ [']'])) ++ W
          by simp]
        rw [show (f.name ++ '=' :: '\x22' :: dv ++ ['\x22']).length + 1 + 1 =
          ('[' :: ((f.name ++ '=' :: '\x22' :: dv ++ ['\x22']) ++ [']'])).length
          by simp; omega]
        rw [List.drop_left]
        rw [hparse]
        rw [← hname, ← hvalue]
        rw [foldl_setAttribute_eq f.attributes (mkField f.name true (some dv) none)
          (by simpa [mkField] using hdis)]
        refine ⟨_, rfl, ?_⟩
        simp [FieldSim, mkField, hopt, hdv]

/-! ### C1: serialized structures split into their line lists -/

theorem stringify_no_nl (f : Field) (hwf : wfField f = true) :
    ∀ c ∈ Field.stringify f, c ≠ '\n' := by
  unfold wfField at hwf
  simp only [Bool.and_eq_true] at hwf
  have hnchars : ∀ c ∈ f.name, isWordDotChar c = true :=
    List.all_eq_true.mp hwf.1.1.1.2
  have hnamefree : ∀ c ∈ f.name, c ≠ '\n' := by
    intro c hc hcon
    have := hnchars c hc
    rw [hcon] at this
    exact absurd this (by decide)
  have hcond := hwf.1.1.2
  have hattrs := hwf.1.2
  intro c hc
  simp only [Field.stringify] at hc
  rw [renderAttrs_eq_intercalate] at hc
  have hc2 := mem_trimS _ c hc
  rcases List.mem_append.mp hc2 with h1 | h2
  · rcases List.mem_append.mp h1 with h3 | h4
    · rcases List.mem_append.mp h3 with h5 | h6
      · by_cases hopt : f.isOptional = true
        · rw [if_pos hopt] at h5
          rcases List.mem_cons.mp h5 with rfl | h7
          · decide
          · rcases List.mem_append.mp h7 with h8 | h9
            · rcases List.mem_append.mp h8 with h10 | h11
              · exact hnamefree c h10
              · rcases List.mem_cons.mp h11 with rfl | h12
                · decide
                · rcases List.mem_cons.mp h12 with rfl | h13
                  · decide
                  · rw [hopt] at hcond
                    simp only [if_true] at hcond
                    cases hd : f.defaultValue with
                    | none =>
                      rw [hd, show jsShow none = 'n' :: 'u' :: 'l' :: 'l' :: []
                        from rfl] at h13
                      rcases (by simpa using h13 :
                        c = 'n' ∨ c = 'u' ∨ c = 'l') with rfl | rfl | rfl <;> decide
                    | some dv =>
                      rw [hd, wfDefault_some_eq] at hcond
                      rw [Bool.and_eq_true] at hcond
                      rw [hd] at h13
                      have := List.all_eq_true.mp hcond.1 c h13
                      simp only [Bool.and_eq_true, decide_eq_true_eq] at this
                      exact this.1.1.1.2
            · rcases (by simpa using h9 : c = '\x22' ∨ c = ']') with rfl | rfl
                <;> decide
        · rw [if_neg hopt] at h5
          exact hnamefree c h5
      · rcases (by simpa using h6 : c = ' ') with rfl
        decide
    · exact renderAttrs_no_nl f.attributes hattrs c h4
  · rcases List.mem_cons.mp h2 with rfl | h7
    · decide
    · exact descToString_no_nl f.description c h7

theorem flatten_map_splitChar (c : Char) (L : List Str)
    (hfree : ∀ l ∈ L, ∀ x ∈ l, x ≠ c) :
    (L.map (splitChar c)).flatten = L := by
  induction L with
  | nil => rfl
  | cons a l ih =>
    rw [List.map_cons, List.flatten_cons,
      splitChar_no _ _ (fun x hx => hfree a (by simp) x hx),
      ih (fun l' hl' x hx => hfree l' (by simp [hl']) x hx)]
    rfl

theorem splitChar_intercalate (c : Char) (L : List Str) (hL : L ≠ []) :
    splitChar c (List.intercalate [c] L) = (L.map (splitChar c)).flatten := by
  induction L with
  | nil => exact absurd rfl hL
  | cons a l ih =>
    cases l with
    | nil =>
      rw [intercalate_single]
      simp
    | cons b l2 =>
      rw [intercalate_cons₂]
      rw [show a ++ [c] ++ List.intercalate [c] (b :: l2) =
        a ++ c :: List.intercalate [c] (b :: l2) by simp]
      rw [splitChar_append, ih (by simp)]
      simp

theorem lines_of_join (L : List Str) (hL : L ≠ [])
    (hfree : ∀ l ∈ L, ∀ x ∈ l, x ≠ '\n') :
    splitChar '\n' (List.intercalate ['\n'] L) = L := by
  rw [splitChar_intercalate _ _ hL, flatten_map_splitChar _ _ hfree]

theorem section_lines (k : Str) (s : Section) (hwf : wfSection k s = true) :
    splitChar '\n' (Section.stringify s "    ".toList) = sectionLines s := by
  have hname : ∀ c ∈ s.name, isWordDotChar c = true := by
    unfold wfSection at hwf
    simp only [Bool.and_eq_true] at hwf
    exact List.all_eq_true.mp hwf.1.1.2
  have hfwf : ∀ e ∈ s.fields, wfField e.2 = true := by
    unfold wfSection at hwf
    simp only [Bool.and_eq_true] at hwf
    intro e he
    have := List.all_eq_true.mp hwf.2 e he
    rw [Bool.and_eq_true] at this
    exact this.2
  have hfree : ∀ l ∈ fieldLines s.fields, ∀ c ∈ l, c ≠ '\n' := by
    intro l hl c hc
    unfold fieldLines at hl
    obtain ⟨e, he, rfl⟩ := List.mem_map.mp hl
    rcases List.mem_append.mp hc with h1 | h2
    · have hsp : c = ' ' := by simpa using h1
      rw [hsp]
      decide
    · exact stringify_no_nl e.2 (hfwf e he) c h2
  have hbody : splitChar '\n'
      (List.intercalate ['\n'] (s.fields.map fun e =>
        "    ".toList ++ e.2.stringify) ++ ['\n']) =
      (if s.fields = [] then [[]] else fieldLines s.fields) ++ [[]] := by
    rw [splitChar_append]
    cases hfs : s.fields with
    | nil =>
      rw [if_pos rfl]
      rfl
    | cons e0 fs =>
      rw [if_neg (by simp)]
      rw [show (List.map (fun e => "    ".toList ++ e.2.stringify) (e0 :: fs)) =
        fieldLines (e0 :: fs) from rfl]
      rw [lines_of_join _ (by simp [fieldLines]) (by rw [← hfs]; exact hfree)]
      rw [← hfs]
      rfl
  simp only [Section.stringify]
  by_cases hm : s.name = mainStr
  · rw [if_pos hm]
    unfold sectionLines
    rw [if_pos hm, hbody]
    rfl
  · rw [if_neg hm]
    rw [show ("    ".toList ++ '@' :: s.name) ++
        '\n' :: List.intercalate ['\n'] (s.fields.map fun e =>
          "    ".toList ++ e.2.stringify) ++ ['\n'] =
      ("    ".toList ++ '@' :: s.name) ++
        '\n' :: (List.intercalate ['\n'] (s.fields.map fun e =>
          "    ".toList ++ e.2.stringify) ++ ['\n']) by simp]
    rw [splitChar_append, hbody]
    rw [splitChar_no _ _ (by
      intro x hx
      rcases List.mem_append.mp hx with h1 | h2
      · have hsp : x = ' ' := by simpa using h1
        rw [hsp]
        decide
      · rcases List.mem_cons.mp h2 with rfl | h3
        · decide
        · intro hcon
          have := hname x h3
          rw [hcon] at this
          exact absurd this (by decide))]
    unfold sectionLines
    rw [if_neg hm]
    rfl

theorem header_no_nl (k : Str) (r : Record) (hwf : wfRecord k r = true) :
    ∀ c ∈ headerOf r, c ≠ '\n' := by
  unfold wfRecord at hwf
  simp only [Bool.and_eq_true] at hwf
  have hfn : ∀ c ∈ r.getFullName, isWsChar c = false :=
    (by
      intro c hc
      have := List.all_eq_true.mp hwf.1.1.1.1.1.2 c hc
      simpa using this)
  intro c hc
  unfold headerOf at hc
  have hc2 := mem_trimS _ c hc
  rcases List.mem_append.mp hc2 with h1 | h2
  · rcases List.mem_append.mp h1 with h3 | h4
    · intro hcon
      have := hfn c h3
      rw [hcon] at this
      exact absurd this (by decide)
    · have hsp : c = ' ' := by simpa using h4
      rw [hsp]
      decide
  · exact descToString_no_nl r.description c h2

theorem record_lines (k : Str) (r : Record) (hwf : wfRecord k r = true) :
    splitChar '\n' (Record.stringify r) = recordLines r := by
  have hsecs : ∀ e ∈ r.sections, wfSection e.1 e.2 = true := by
    unfold wfRecord at hwf
    simp only [Bool.and_eq_true] at hwf
    exact fun e he => List.all_eq_true.mp hwf.2 e he
  simp only [Record.stringify]
  rw [splitChar_intercalate _ _ (by simp)]
  rw [List.map_cons, List.flatten_cons]
  rw [show splitChar '\n' (trimS (r.getFullName ++ "    ".toList ++
      descToString r.description)) = splitChar '\n' (headerOf r) from rfl]
  rw [splitChar_no _ _ (fun x hx => header_no_nl k r hwf x hx)]
  rw [List.map_map]
  rw [List.map_congr_left (fun e he => by
    show splitChar '\n' (Section.stringify e.2 "    ".toList) = sectionLines e.2
    exact section_lines e.1 e.2 (hsecs e he))]
  rfl

theorem tree_lines_rec (recs : List (Str × Record))
    (h : ∀ e ∈ recs, wfRecord e.1 e.2 = true) (hne : recs ≠ []) :
    splitChar '\n' (List.intercalate "\n\n".toList
        (recs.map (fun e => e.2.stringify))) =
      ((recs.map (fun e => recordLines e.2)).intersperse [[]]).flatten := by
  induction recs with
  | nil => exact absurd rfl hne
  | cons a l ih =>
    cases l with
    | nil =>
      rw [List.map_cons, List.map_nil, intercalate_single]
      rw [record_lines a.1 a.2 (h a (by simp))]
      simp
    | cons b l2 =>
      rw [List.map_cons, List.map_cons, intercalate_cons₂,
        show b.2.stringify :: List.map (fun e => e.2.stringify) l2 =
          List.map (fun e => e.2.stringify) (b :: l2) from rfl]
      rw [show a.2.stringify ++ "\n\n".toList ++ List.intercalate "\n\n".toList
          (List.map (fun e => e.2.stringify) (b :: l2)) =
        a.2.stringify ++ '\n' :: ('\n' :: List.intercalate "\n\n".toList
          (List.map (fun e => e.2.stringify) (b :: l2))) by simp]
      rw [splitChar_append]
      rw [splitChar_cons_eq, if_pos rfl]
      rw [ih (fun e he => h e (by simp [he])) (by simp)]
      rw [record_lines a.1 a.2 (h a (by simp))]
      rw [List.map_cons, List.map_cons]
      rfl

theorem tree_lines (t : Tree) (hwf : wfTree t = true) (hne : t.records ≠ []) :
    splitChar '\n' (Tree.stringify t) = treeLines t := by
  have hrecs : ∀ e ∈ t.records, wfRecord e.1 e.2 = true := by
    unfold wfTree at hwf
    rw [Bool.and_eq_true] at hwf
    exact fun e he => List.all_eq_true.mp hwf.2 e he
  unfold Tree.stringify treeLines
  exact tree_lines_rec t.records hrecs hne

/-! ### C1: single-line parser steps -/

theorem parseLine_blank (st : ParseState) (line : Str)
    (h : trimS line = []) : parseLine st line = .ok st := by
  unfold parseLine
  rw [if_pos h]

theorem addField_ok (r : Record) (f : Field) (sn : Str) (s : Section)
    (hs : mapGet sn r.sections = some s)
    (hf : mapHas f.name s.fields = false) :
    r.addField f sn = .ok { r with sections := mapSet sn { s with fields := mapSet f.name f s.fields } r.sections } := by
  have haf : s.addField f = .ok { s with fields := mapSet f.name f s.fields } := by
    unfold Section.addField
    rw [hf]
    simp
  unfold Record.addField
  rw [hs]
  split
  · rename_i s2 heq
    injection heq with hs2
    subst hs2
    rw [haf]
  · rename_i heq
    simp at heq

theorem addSection_ok_eq (r : Record) (name : Str)
    (hfresh : mapHas name r.sections = false)
    (hws : name.any isWsChar = false) (hne : name ≠ []) :
    r.addSection name = .ok ({ name := name, fields := [] }, { r with sections := mapSet name { name := name, fields := [] } r.sections }) := by
  have hmk : mkSection name = .ok { name := name, fields := [] } := by
    unfold mkSection
    rw [hws]
    simp only [Bool.false_eq_true, if_false]
    rw [if_neg (by simpa using hne)]
  unfold Record.addSection
  rw [hfresh]
  simp only [Bool.false_eq_true, if_false]
  rw [hmk]

theorem parseLine_field (st : ParseState) (key : Str) (r : Record) (f : Field)
    (s : Section)
    (hkey : st.currentRecord = some key)
    (hget : mapGet key st.tree.records = some r)
    (hs : mapGet st.currentSectionName r.sections = some s)
    (hwf : wfField f = true)
    (hfresh : mapHas f.name s.fields = false) :
    ∃ g, FieldSim f g ∧
      parseLine st ("    ".toList ++ Field.stringify f) = .ok { st with tree := st.tree.putAt key { r with sections := mapSet st.currentSectionName { s with fields := mapSet f.name g s.fields } r.sections } } := by
  obtain ⟨g, hg, hsim⟩ := parseField_stringify f hwf
  have hne : Field.stringify f ≠ [] := by
    intro hcon
    rw [hcon,
      show parseField [] = .error ("Invalid field: ".toList ++ []) from rfl] at hg
    simp at hg
  have hsd : isSectionDeclaration (Field.stringify f) = false := by
    unfold isSectionDeclaration
    cases hl : Field.stringify f with
    | nil => rfl
    | cons c0 rest =>
      by_cases hc0 : c0 = '@'
      · subst hc0
        rw [hl] at hg
        exfalso
        simp only [parseField] at hg
        rw [if_neg (by rw [show startsWithS ['['] ('@' :: rest) = false
            from rfl]; simp)] at hg
        rw [takeWhile_cons_neg _ (by decide), if_pos rfl] at hg
        simp at hg
      · rw [show startsWithS ['@'] (c0 :: rest) =
          ('@' == c0 && List.isPrefixOf [] rest) from rfl]
        simp [Ne.symm hc0]
  have hrd : isRecordDeclaration ("    ".toList ++ Field.stringify f) =
      false := rfl
  have htr : trimS ("    ".toList ++ Field.stringify f) = Field.stringify f := by
    rw [trimS_ws_append _ _ (by decide)]
    show trimS (Field.stringify f) = Field.stringify f
    simp only [Field.stringify]
    rw [trimS_idem]
  refine ⟨g, hsim, ?_⟩
  simp only [parseLine]
  rw [htr, if_neg hne, if_neg (by rw [hrd]; simp)]
  split
  · rename_i heq
    rw [hkey] at heq
    simp at heq
  · rename_i key' heq
    rw [hkey] at heq
    injection heq with hk
    subst hk
    split
    · rename_i heq2
      rw [hget] at heq2
      simp at heq2
    · rename_i r' heq2
      rw [hget] at heq2
      injection heq2 with hr
      subst hr
      rw [if_neg (by simp [hsd])]
      rw [hg]
      split
      · rename_i e heq3
        simp at heq3
      · rename_i field heq3
        injection heq3 with hf2
        subst hf2
        rw [addField_ok r g st.currentSectionName s hs
          (by rw [hsim.1]; exact hfresh)]
        split
        · rename_i e r2 heq4
          simp at heq4
        · rename_i r2 heq4
          injection heq4 with hr2
          subst hr2
          rw [hsim.1]

theorem parseLine_section (st : ParseState) (key : Str) (r : Record)
    (sname : Str)
    (hkey : st.currentRecord = some key)
    (hget : mapGet key st.tree.records = some r)
    (hne : sname ≠ [])
    (hchars : ∀ c ∈ sname, isWordDotChar c = true)
    (hfresh : mapHas sname r.sections = false) :
    parseLine st ("    ".toList ++ '@' :: sname) = .ok { tree := st.tree.putAt key { r with sections := mapSet sname { name := sname, fields := [] } r.sections }, currentRecord := st.currentRecord, currentSectionName := sname } := by
  have htr : trimS ("    ".toList ++ '@' :: sname) = '@' :: sname := by
    rw [trimS_ws_append _ _ (by decide)]
    exact trimS_all_not_ws _ (by
      intro c hc
      rcases List.mem_cons.mp hc with rfl | h2
      · decide
      · exact isWordDotChar_not_ws c (hchars c h2))
  have hrd : isRecordDeclaration ("    ".toList ++ '@' :: sname) = false := rfl
  have hws : sname.any isWsChar = false := by
    cases h : sname.any isWsChar with
    | false => rfl
    | true =>
      exfalso
      obtain ⟨c, hc, hcw⟩ := List.any_eq_true.mp h
      exact absurd hcw (by simp [isWordDotChar_not_ws c (hchars c hc)])
  have hpsd : parseSectionDeclaration ('@' :: sname) = some sname := by
    show (if sname.takeWhile isWordDotChar = [] then none
      else some (sname.takeWhile isWordDotChar)) = some sname
    rw [List.takeWhile_eq_self_iff.mpr hchars, if_neg hne]
  simp only [parseLine]
  rw [htr, if_neg (by simp), if_neg (by rw [hrd]; simp)]
  split
  · rename_i heq
    rw [hkey] at heq
    simp at heq
  · rename_i key' heq
    rw [hkey] at heq
    injection heq with hk
    subst hk
    split
    · rename_i heq2
      rw [hget] at heq2
      simp at heq2
    · rename_i r' heq2
      rw [hget] at heq2
      injection heq2 with hr
      subst hr
      rw [if_pos (by simp [isSectionDeclaration, startsWithS, List.isPrefixOf])]
      rw [hpsd]
      split
      · rename_i heq3
        simp at heq3
      · rename_i sname' heq3
        injection heq3 with hsn
        subst hsn
        rw [addSection_ok_eq r sname hfresh hws hne]

/-! ### C1: the record-header line -/

theorem intercalate_parts (mid : List Str) :
    ∀ e0 a : Str, List.intercalate ['.'] (e0 :: (mid ++ [a])) =
      e0 ++ (if mid = [] then [] else '.' :: List.intercalate ['.'] mid) ++
        '.' :: a := by
  induction mid with
  | nil =>
    intro e0 a
    rw [List.nil_append, intercalate_cons₂, intercalate_single, if_pos rfl]
    simp
  | cons m ms ih =>
    intro e0 a
    rw [List.cons_append, intercalate_cons₂, ih m a]
    rw [if_neg (show ¬ (m :: ms) = [] by simp)]
    cases ms with
    | nil =>
      rw [if_pos rfl, intercalate_single]
      simp
    | cons m2 ms2 =>
      rw [if_neg (show ¬ (m2 :: ms2) = [] by simp), intercalate_cons₂]
      simp

theorem mkRecord_ok (e0 : Str) (pp vv dd : Option Str)
    (hws : e0.any isWsChar = false) (hne : e0 ≠ [])
    (hpp : truthy pp = true → (pp.getD []).any isWsChar = false ∧
      (pp.getD []) ≠ [])
    (hvv : truthy vv = true → (vv.getD []).any isWsChar = false ∧
      (vv.getD []) ≠ []) :
    mkRecord e0 pp vv dd = .ok { entityName := e0, propertyName := pp, verb := vv, sections := [(mainStr, { name := mainStr, fields := [] })], description := dd } := by
  unfold mkRecord
  rw [hws]
  simp only [Bool.false_eq_true, if_false]
  rw [if_neg (by simpa using hne)]
  rw [if_neg ?h1, if_neg ?h2, if_neg ?h3, if_neg ?h4]
  case h1 =>
    intro hcon
    rw [Bool.and_eq_true] at hcon
    exact absurd hcon.2 (by simp [(hpp hcon.1).1])
  case h2 =>
    intro hcon
    rw [Bool.and_eq_true] at hcon
    have hlen : (pp.getD []).length = 0 := by simpa using hcon.2
    exact (hpp hcon.1).2 (List.length_eq_zero.mp hlen)
  case h3 =>
    intro hcon
    rw [Bool.and_eq_true] at hcon
    exact absurd hcon.2 (by simp [(hvv hcon.1).1])
  case h4 =>
    intro hcon
    rw [Bool.and_eq_true] at hcon
    have hlen : (vv.getD []).length = 0 := by simpa using hcon.2
    exact (hvv hcon.1).2 (List.length_eq_zero.mp hlen)

theorem addRecord_ok (t : Tree) (e0 : Str) (pp vv dd : Option Str)
    (rec0 : Record) (hmk : mkRecord e0 pp vv dd = .ok rec0)
    (hfresh : mapHas rec0.getFullName t.records = false) :
    t.addRecord e0 pp vv dd = .ok (rec0, { records := mapSet rec0.getFullName rec0 t.records }) := by
  simp only [Tree.addRecord]
  rw [hmk]
  split
  · rename_i e heq
    simp at heq
  · rename_i record heq
    injection heq with hrec
    subst hrec
    rw [if_neg (by simp [hfresh])]

theorem getFullName_mk (e : Str) (pp vv dd : Option Str)
    (secs : List (Str × Section)) :
    ({ entityName := e, propertyName := pp, verb := vv, sections := secs, description := dd } : Record).getFullName =
      (if truthy vv then
        (if truthy pp then e ++ '.' :: pp.getD [] else e) ++ '.' :: vv.getD []
      else (if truthy pp then e ++ '.' :: pp.getD [] else e)) := rfl

theorem parseLine_header (st : ParseState) (k : Str) (r : Record)
    (hwf : wfRecord k r = true)
    (hfresh : mapHas r.getFullName st.tree.records = false) :
    ∃ rec0 : Record,
      rec0.getFullName = r.getFullName ∧
      rec0.sections = [(mainStr, { name := mainStr, fields := [] })] ∧
      parseLine st (headerOf r) = .ok { tree := { records := mapSet r.getFullName rec0 st.tree.records }, currentRecord := some r.getFullName, currentSectionName := mainStr } := by
  unfold wfRecord at hwf
  simp only [Bool.and_eq_true] at hwf
  have hfn_ne : r.getFullName ≠ [] := by simpa using hwf.1.1.1.1.1.1.2
  have hfn_ws : ∀ c ∈ r.getFullName, isWsChar c = false := by
    intro c hc
    have := List.all_eq_true.mp hwf.1.1.1.1.1.2 c hc
    simpa using this
  have hfn_at : startsWithS ['@'] r.getFullName = false := by
    simpa using hwf.1.1.1.1.2
  have hsegs : ∀ x ∈ splitChar '.' r.getFullName, x ≠ [] := by
    intro x hx
    have := List.all_eq_true.mp hwf.1.1.1.2 x hx
    simpa using this
  have hhead : ∀ c, r.getFullName.head? = some c → isWsChar c = false := by
    intro c hc
    cases hn : r.getFullName with
    | nil => rw [hn] at hc; simp at hc
    | cons a b =>
      rw [hn] at hc
      have hac : a = c := by simpa using hc
      subst hac
      exact hfn_ws a (by rw [hn]; simp)
  have hlast : ∀ c, r.getFullName.getLast? = some c → isWsChar c = false :=
    fun c hc => hfn_ws c (mem_of_getLast hc)
  obtain ⟨Wh, hWh⟩ : ∃ Wh, Wh = trimR ("    ".toList ++
      descToString r.description) := ⟨_, rfl⟩
  have hline : headerOf r = r.getFullName ++ Wh := by
    unfold headerOf
    rw [show r.getFullName ++ "    ".toList ++ descToString r.description =
      r.getFullName ++ ("    ".toList ++ descToString r.description) by simp]
    rw [trimS_block _ _ hfn_ne hhead hlast, hWh]
  have hWhcase : Wh = [] ∨ Wh.head? = some ' ' := by
    by_cases h : Wh = []
    · exact Or.inl h
    · right
      rw [hWh] at h ⊢
      have hp := head?_of_prefix ( trimR_prefix _) h
      rw [← hp]
      rfl
  have htrim : trimS (headerOf r) = headerOf r := by
    unfold headerOf
    rw [trimS_idem]
  have hlne : headerOf r ≠ [] := by
    rw [hline]
    simp [hfn_ne]
  obtain ⟨c0, fn', hfn0⟩ : ∃ c0 fn', r.getFullName = c0 :: fn' := by
    cases hn : r.getFullName with
    | nil => exact absurd hn hfn_ne
    | cons a b => exact ⟨a, b, rfl⟩
  have hrd : isRecordDeclaration (headerOf r) = true := by
    rw [hline, hfn0, List.cons_append]
    have h1 : isWsChar c0 = false := hfn_ws c0 (by rw [hfn0]; simp)
    have h2 : ('@' == c0) = false := by
      rw [hfn0] at hfn_at
      rw [show startsWithS ['@'] (c0 :: fn') =
        ('@' == c0 && List.isPrefixOf [] fn') from rfl] at hfn_at
      simpa using hfn_at
    rw [show isRecordDeclaration (c0 :: (fn' ++ Wh)) =
      (!isWsChar c0 && !startsWithS ['@'] (c0 :: (fn' ++ Wh))) from rfl]
    rw [h1, show startsWithS ['@'] (c0 :: (fn' ++ Wh)) =
      ('@' == c0 && List.isPrefixOf [] (fn' ++ Wh)) from rfl, h2]
    rfl
  have htok : (headerOf r).takeWhile (fun c => !isWsChar c) = r.getFullName := by
    rw [hline]
    rcases hWhcase with hnil | hsp
    · rw [hnil, List.append_nil]
      exact List.takeWhile_eq_self_iff.mpr
        (by intro c hc; simp [hfn_ws c hc])
    · cases Wh with
      | nil => simp at hsp
      | cons w0 W' =>
        have hw0 : w0 = ' ' := by simpa using hsp
        subst hw0
        exact takeWhile_append_cons _ _ ' ' W'
          (by intro c hc; simp [hfn_ws c hc]) (by decide)
  obtain ⟨dsc, hdsc⟩ : ∃ dsc : Option Str,
      (match splitDSlash (headerOf r) with
        | _ :: d :: _ => some (trimS d)
        | _ => none) = dsc := ⟨_, rfl⟩
  cases hsegs0 : splitChar '.' r.getFullName with
  | nil => exact absurd hsegs0 (splitChar_ne_nil '.' _)
  | cons e0 rest =>
    have he0 : e0 ≠ [] := hsegs e0 (by rw [hsegs0]; simp)
    have he0ws : e0.any isWsChar = false := by
      cases h : e0.any isWsChar with
      | false => rfl
      | true =>
        exfalso
        obtain ⟨c, hc, hcw⟩ := List.any_eq_true.mp h
        have hmem : c ∈ r.getFullName :=
          mem_splitChar '.' _ e0 (by rw [hsegs0]; simp) c hc
        exact absurd hcw (by simp [hfn_ws c hmem])
    have hFN : List.intercalate ['.'] (e0 :: rest) = r.getFullName := by
      rw [← hsegs0]
      exact intercalate_splitChar '.' _
    cases rest with
    | nil =>
      have hd : parseRecordDeclaration (headerOf r) =
          { entityName := e0, propertyName := none, actionName := none, description := dsc } := by
        simp only [parseRecordDeclaration]
        rw [htrim, htok, hsegs0, hdsc]
        split
        · rename_i heq
          simp at heq
        · rename_i e0' rest' heq
          injection heq with he0' hrest'
          subst he0'
          rw [dif_pos hrest'.symm]
      rw [intercalate_single] at hFN
      have hmk := mkRecord_ok e0 none none dsc
        he0ws he0 (by intro h; simp [truthy] at h)
        (by intro h; simp [truthy] at h)
      have hful : ({ entityName := e0, propertyName := none, verb := none, sections := [(mainStr, { name := mainStr, fields := [] })], description := dsc } : Record).getFullName = r.getFullName := by
        exact hFN
      refine ⟨_, hful, rfl, ?_⟩
      simp only [parseLine]
      rw [htrim, if_neg hlne, if_pos hrd]
      have haddc := addRecord_ok st.tree e0 none none dsc _ hmk
        (by rw [hful]; exact hfresh)
      rw [hd]
      rw [haddc]
      split
      · rename_i e heq
        simp at heq
      · rename_i record t2 heq
        injection heq with hpr
        rw [Prod.mk.injEq] at hpr
        rw [← hpr.1, ← hpr.2, hful]
    | cons r1 rest' =>
      obtain ⟨act, hact⟩ : ∃ act, (r1 :: rest').getLast (by simp) = act := ⟨_, rfl⟩
      obtain ⟨pp, hppdef⟩ : ∃ pp : Option Str,
          (if (r1 :: rest').dropLast = [] then none
            else some (List.intercalate ['.'] ((r1 :: rest').dropLast))) = pp :=
        ⟨_, rfl⟩
      have hAct : act ∈ splitChar '.' r.getFullName := by
        rw [hsegs0, ← hact]
        exact List.mem_cons_of_mem e0 (List.getLast_mem _)
      have hActNe : act ≠ [] := hsegs _ hAct
      have hActWs : act.any isWsChar = false := by
        cases h : act.any isWsChar with
        | false => rfl
        | true =>
          exfalso
          obtain ⟨c, hc, hcw⟩ := List.any_eq_true.mp h
          have hmem : c ∈ r.getFullName :=
            mem_splitChar '.' _ _ hAct c hc
          exact absurd hcw (by simp [hfn_ws c hmem])
      have hmids : ∀ x ∈ (r1 :: rest').dropLast,
          x ∈ splitChar '.' r.getFullName := by
        intro x hx
        rw [hsegs0]
        exact List.mem_cons_of_mem e0 ((List.dropLast_sublist _).subset hx)
      have hIne : (r1 :: rest').dropLast ≠ [] →
          List.intercalate ['.'] ((r1 :: rest').dropLast) ≠ [] := by
        intro hmid
        cases hm : (r1 :: rest').dropLast with
        | nil => exact absurd hm hmid
        | cons m0 ms =>
          have hm0 : m0 ≠ [] := hsegs m0 (hmids m0 (by rw [hm]; simp))
          cases ms with
          | nil =>
            rw [intercalate_single]
            exact hm0
          | cons m2 ms2 =>
            rw [intercalate_cons₂]
            cases hm0c : m0 with
            | nil => exact absurd hm0c hm0
            | cons a b => simp
      have hd : parseRecordDeclaration (headerOf r) =
          { entityName := e0, propertyName := pp, actionName := some act, description := dsc } := by
        simp only [parseRecordDeclaration]
        rw [htrim, htok, hsegs0, hdsc]
        split
        · rename_i heq
          simp at heq
        · rename_i e0' rest2 heq
          injection heq with he0' hrest2
          subst he0'
          rw [dif_neg (by rw [← hrest2]; simp)]
          have hrest2' : rest2 = r1 :: rest' := hrest2.symm
          subst hrest2'
          rw [hppdef, hact]
      have hppfact : truthy pp = true →
          ((pp.getD []).any isWsChar = false) ∧ (pp.getD []) ≠ [] := by
        intro htru
        rw [← hppdef] at htru ⊢
        by_cases hmid : (r1 :: rest').dropLast = []
        · rw [if_pos hmid] at htru
          simp [truthy] at htru
        · rw [if_neg hmid] at htru ⊢
          constructor
          · cases h : (List.intercalate ['.']
                ((r1 :: rest').dropLast)).any isWsChar with
            | false => simp [h]
            | true =>
              exfalso
              obtain ⟨c, hc, hcw⟩ := List.any_eq_true.mp h
              rcases mem_intercalate '.' _ c hc with rfl | ⟨x, hx, hcx⟩
              · exact absurd hcw (by decide)
              · have hmem : c ∈ r.getFullName :=
                  mem_splitChar '.' _ x (hmids x hx) c hcx
                exact absurd hcw (by simp [hfn_ws c hmem])
          · simpa using hIne hmid
      have hvvfact : truthy (some act) = true →
          (((some act).getD []).any isWsChar = false) ∧
            ((some act).getD []) ≠ [] := by
        intro _
        exact ⟨hActWs, hActNe⟩
      have hmk := mkRecord_ok e0 pp (some act) dsc he0ws he0 hppfact hvvfact
      have hFN2 : List.intercalate ['.']
          (e0 :: ((r1 :: rest').dropLast ++ [(r1 :: rest').getLast (by simp)])) =
          r.getFullName := by
        rw [List.dropLast_append_getLast (by simp)]
        exact hFN
      rw [intercalate_parts, hact] at hFN2
      have hful : ({ entityName := e0, propertyName := pp, verb := some act, sections := [(mainStr, { name := mainStr, fields := [] })], description := dsc } : Record).getFullName = r.getFullName := by
        rw [getFullName_mk]
        rw [show truthy (some act) = decide (act ≠ []) from rfl,
          decide_eq_true hActNe, if_pos rfl]
        rw [← hppdef]
        by_cases hmid : (r1 :: rest').dropLast = []
        · rw [if_pos hmid]
          rw [show truthy (none : Option Str) = false from rfl]
          rw [if_neg (by simp)]
          rw [hmid, if_pos rfl] at hFN2
          simpa using hFN2
        · rw [if_neg hmid]
          rw [show truthy (some (List.intercalate ['.']
              ((r1 :: rest').dropLast))) =
            decide (List.intercalate ['.'] ((r1 :: rest').dropLast) ≠ [])
            from rfl]
          rw [decide_eq_true (hIne hmid), if_pos rfl]
          rw [if_neg hmid] at hFN2
          exact hFN2
      refine ⟨_, hful, rfl, ?_⟩
      simp only [parseLine]
      rw [htrim, if_neg hlne, if_pos hrd]
      have haddc := addRecord_ok st.tree e0 pp (some act) dsc _ hmk
        (by rw [hful]; exact hfresh)
      rw [hd]
      rw [haddc]
      split
      · rename_i e heq
        simp at heq
      · rename_i record t2 heq
        injection heq with hpr
        rw [Prod.mk.injEq] at hpr
        rw [← hpr.1, ← hpr.2, hful]
/-! ### C1: assembling the full parse of a serialized tree -/

theorem parseLines_cons_eq (st : ParseState) (l : Str) (ls : List Str) :
    parseLines st (l :: ls) =
      match parseLine st l with
      | .error e => .error e
      | .ok st2 => parseLines st2 ls := rfl

theorem parseLines_cons_ok (st : ParseState) (l : Str) (ls : List Str)
    (st2 : ParseState) (h : parseLine st l = .ok st2) :
    parseLines st (l :: ls) = parseLines st2 ls := by
  rw [parseLines_cons_eq, h]

theorem parseLines_append (l1 : List Str) :
    ∀ (st st2 : ParseState) (l2 : List Str), parseLines st l1 = .ok st2 →
      parseLines st (l1 ++ l2) = parseLines st2 l2 := by
  induction l1 with
  | nil =>
    intro st st2 l2 h
    rw [show parseLines st [] = .ok st from rfl] at h
    injection h with h2
    subst h2
    rw [List.nil_append]
  | cons a l ih =>
    intro st st2 l2 h
    cases hp : parseLine st a with
    | error e =>
      rw [parseLines_cons_eq, hp] at h
      simp at h
    | ok st1 =>
      rw [parseLines_cons_ok st a l st1 hp] at h
      rw [List.cons_append, parseLines_cons_ok st a (l ++ l2) st1 hp]
      exact ih st1 st2 l2 h

theorem mapGet_fresh_append {α : Type} (k : Str) (v : α) (m : List (Str × α))
    (h : mapHas k m = false) : mapGet k (m ++ [(k, v)]) = some v := by
  induction m with
  | nil =>
    rw [List.nil_append]
    unfold mapGet
    rw [if_pos rfl]
  | cons e rest ih =>
    obtain ⟨k1, v1⟩ := e
    rw [mapHas, List.any_cons, Bool.or_eq_false_iff] at h
    rw [List.cons_append]
    unfold mapGet
    rw [if_neg (by simpa using h.1)]
    exact ih h.2

/-- A run of serialized field lines adds exactly those fields (up to
`FieldSim`) to the current section of the current record. -/
theorem parseLines_fields (flds : List (Str × Field)) :
    ∀ (prev : List (Str × Record)) (K : Str) (r : Record) (sn : Str) (sAcc : Section),
      mapHas K prev = false →
      mapGet sn r.sections = some sAcc →
      distinctKeys (sAcc.fields ++ flds) = true →
      flds.all (fun e => decide (e.1 = e.2.name) && wfField e.2) = true →
      ∃ flds2, FieldsSim flds flds2 ∧
        parseLines ⟨⟨prev ++ [(K, r)]⟩, some K, sn⟩ (fieldLines flds) = .ok ⟨⟨prev ++ [(K, { r with sections := mapSet sn { sAcc with fields := sAcc.fields ++ flds2 } r.sections })]⟩, some K, sn⟩ := by
  induction flds with
  | nil =>
    intro prev K r sn sAcc hprev hsec hdis hall
    refine ⟨[], List.Forall₂.nil, ?_⟩
    rw [show ({ sAcc with fields := sAcc.fields ++ [] } : Section) = sAcc by rw [List.append_nil]]
    rw [mapSet_get_self sn sAcc r.sections hsec]
    rfl
  | cons e rest ih =>
    intro prev K r sn sAcc hprev hsec hdis hall
    obtain ⟨n, f⟩ := e
    rw [List.all_cons, Bool.and_eq_true] at hall
    have h1 : (decide (n = f.name) && wfField f) = true := hall.1
    rw [Bool.and_eq_true] at h1
    have hn : n = f.name := by simpa using h1.1
    have hwf : wfField f = true := h1.2
    subst hn
    have hfresh : mapHas f.name sAcc.fields = false :=
      distinctKeys_fresh_left sAcc.fields f.name f rest hdis
    obtain ⟨g, hsim, hstep⟩ := parseLine_field ⟨⟨prev ++ [(K, r)]⟩, some K, sn⟩ K r f sAcc
      rfl (mapGet_fresh_append K r prev hprev) hsec hwf hfresh
    have hstep2 : parseLine ⟨⟨prev ++ [(K, r)]⟩, some K, sn⟩ ("    ".toList ++ Field.stringify f) = .ok ⟨⟨prev ++ [(K, { r with sections := mapSet sn { sAcc with fields := sAcc.fields ++ [(f.name, g)] } r.sections })]⟩, some K, sn⟩ := by
      rw [hstep]
      rw [mapSet_append_fresh f.name g sAcc.fields hfresh]
      exact congrArg (fun m => Except.ok (⟨⟨m⟩, some K, sn⟩ : ParseState))
        (mapSet_skip_append K ({ r with sections := mapSet sn { sAcc with fields := sAcc.fields ++ [(f.name, g)] } r.sections }) r prev [] hprev)
    have hdis1 : distinctKeys ((sAcc.fields ++ [(f.name, g)]) ++ rest) = true := by
      rw [List.append_assoc]
      rw [show [(f.name, g)] ++ rest = (f.name, g) :: rest from rfl]
      rw [distinctKeys_value_irrel f.name g f sAcc.fields rest]
      exact hdis
    obtain ⟨rest2, hsim2, hrec⟩ := ih prev K
      ({ r with sections := mapSet sn { sAcc with fields := sAcc.fields ++ [(f.name, g)] } r.sections }) sn
      ({ sAcc with fields := sAcc.fields ++ [(f.name, g)] })
      hprev (mapGet_mapSet_self sn _ r.sections) hdis1 hall.2
    refine ⟨(f.name, g) :: rest2, List.Forall₂.cons ⟨rfl, hsim⟩ hsim2, ?_⟩
    rw [show fieldLines ((f.name, f) :: rest) = ("    ".toList ++ Field.stringify f) :: fieldLines rest from rfl]
    rw [parseLines_cons_ok _ _ _ _ hstep2]
    rw [hrec]
    have hfin : ({ r with sections := mapSet sn { sAcc with fields := (sAcc.fields ++ [(f.name, g)]) ++ rest2 } (mapSet sn { sAcc with fields := sAcc.fields ++ [(f.name, g)] } r.sections) } : Record) = { r with sections := mapSet sn { sAcc with fields := sAcc.fields ++ (f.name, g) :: rest2 } r.sections } := by
      rw [mapSet_mapSet_self, List.append_assoc, List.singleton_append]
    exact congrArg (fun R => Except.ok (⟨⟨prev ++ [(K, R)]⟩, some K, sn⟩ : ParseState)) hfin

/-- A run of serialized non-`main` sections (header line, body, trailing
blank) appends exactly those sections (up to `SectionSim`) to the current
record. -/
theorem parseLines_tail_sections (secs : List (Str × Section)) :
    ∀ (prev : List (Str × Record)) (K : Str) (r : Record) (sn : Str),
      mapHas K prev = false →
      (∀ e ∈ secs, wfSection e.1 e.2 = true ∧ e.2.name ≠ mainStr) →
      distinctKeys (r.sections ++ secs) = true →
      ∃ secs2, SectionsSim secs secs2 ∧ ∃ snF : Str,
        parseLines ⟨⟨prev ++ [(K, r)]⟩, some K, sn⟩ ((secs.map (fun e => sectionLines e.2)).flatten) = .ok ⟨⟨prev ++ [(K, { r with sections := r.sections ++ secs2 })]⟩, some K, snF⟩ := by
  induction secs with
  | nil =>
    intro prev K r sn hprev hwfs hdis
    refine ⟨[], List.Forall₂.nil, sn, ?_⟩
    rw [List.append_nil]
    rfl
  | cons e rest ih =>
    intro prev K r sn hprev hwfs hdis
    obtain ⟨k, s⟩ := e
    have hws := (hwfs (k, s) (by simp)).1
    have hnm : s.name ≠ mainStr := (hwfs (k, s) (by simp)).2
    unfold wfSection at hws
    simp only [Bool.and_eq_true] at hws
    have hks : s.name = k := by simpa using hws.1.1.1.1
    have hsne : s.name ≠ [] := by simpa using hws.1.1.1.2
    have hschars : ∀ c ∈ s.name, isWordDotChar c = true := List.all_eq_true.mp hws.1.1.2
    have hsdis : distinctKeys s.fields = true := hws.1.2
    have hsall : s.fields.all (fun e => decide (e.1 = e.2.name) && wfField e.2) = true := hws.2
    subst hks
    have hfreshsec : mapHas s.name r.sections = false :=
      distinctKeys_fresh_left r.sections s.name s rest hdis
    have hsec1 := parseLine_section ⟨⟨prev ++ [(K, r)]⟩, some K, sn⟩ K r s.name
      rfl (mapGet_fresh_append K r prev hprev) hsne hschars hfreshsec
    have hsec2 : parseLine ⟨⟨prev ++ [(K, r)]⟩, some K, sn⟩ ("    ".toList ++ '@' :: s.name) = .ok ⟨⟨prev ++ [(K, { r with sections := r.sections ++ [(s.name, { name := s.name, fields := [] })] })]⟩, some K, s.name⟩ := by
      rw [hsec1]
      rw [mapSet_append_fresh s.name ({ name := s.name, fields := [] } : Section) r.sections hfreshsec]
      exact congrArg (fun m => Except.ok (⟨⟨m⟩, some K, s.name⟩ : ParseState))
        (mapSet_skip_append K ({ r with sections := r.sections ++ [(s.name, { name := s.name, fields := [] })] }) r prev [] hprev)
    by_cases hf : s.fields = []
    · have hdis1 : distinctKeys ((r.sections ++ [(s.name, ({ name := s.name, fields := [] } : Section))]) ++ rest) = true := by
        rw [List.append_assoc]
        rw [show [(s.name, ({ name := s.name, fields := [] } : Section))] ++ rest = (s.name, ({ name := s.name, fields := [] } : Section)) :: rest from rfl]
        rw [distinctKeys_value_irrel s.name ({ name := s.name, fields := [] } : Section) s r.sections rest]
        exact hdis
      obtain ⟨rest2, hsim2, snF, hrec⟩ := ih prev K
        ({ r with sections := r.sections ++ [(s.name, { name := s.name, fields := [] })] }) s.name
        hprev (fun e he => hwfs e (List.mem_cons_of_mem _ he)) hdis1
      refine ⟨(s.name, { name := s.name, fields := [] }) :: rest2,
        List.Forall₂.cons ⟨rfl, rfl, by rw [hf]; exact List.Forall₂.nil⟩ hsim2, snF, ?_⟩
      have hsl : sectionLines s = [("    ".toList ++ '@' :: s.name), [], []] := by
        unfold sectionLines
        rw [if_neg hnm, if_pos hf]
        rfl
      rw [show (((s.name, s) :: rest).map (fun e => sectionLines e.2)).flatten = sectionLines s ++ (rest.map (fun e => sectionLines e.2)).flatten from by simp only [List.map_cons, List.flatten_cons]]
      rw [hsl]
      rw [show ([("    ".toList ++ '@' :: s.name), [], []] : List Str) ++ (rest.map (fun e => sectionLines e.2)).flatten = ("    ".toList ++ '@' :: s.name) :: ([] : Str) :: ([] : Str) :: (rest.map (fun e => sectionLines e.2)).flatten from rfl]
      rw [parseLines_cons_ok _ _ _ _ hsec2]
      rw [parseLines_cons_ok _ _ _ _ (parseLine_blank _ [] rfl)]
      rw [parseLines_cons_ok _ _ _ _ (parseLine_blank _ [] rfl)]
      rw [hrec]
      have hfin : ({ r with sections := (r.sections ++ [(s.name, ({ name := s.name, fields := [] } : Section))]) ++ rest2 } : Record) = { r with sections := r.sections ++ (s.name, ({ name := s.name, fields := [] } : Section)) :: rest2 } := by
        rw [List.append_assoc, List.singleton_append]
      exact congrArg (fun R => Except.ok (⟨⟨prev ++ [(K, R)]⟩, some K, snF⟩ : ParseState)) hfin
    · obtain ⟨flds2, hfsim, hG1⟩ := parseLines_fields s.fields prev K
        ({ r with sections := r.sections ++ [(s.name, { name := s.name, fields := [] })] }) s.name
        ({ name := s.name, fields := [] })
        hprev (mapGet_fresh_append s.name _ r.sections hfreshsec) hsdis hsall
      have hG2 : parseLines ⟨⟨prev ++ [(K, { r with sections := r.sections ++ [(s.name, { name := s.name, fields := [] })] })]⟩, some K, s.name⟩ (fieldLines s.fields) = .ok ⟨⟨prev ++ [(K, { r with sections := r.sections ++ [(s.name, { name := s.name, fields := flds2 })] })]⟩, some K, s.name⟩ := by
        rw [hG1]
        exact congrArg (fun m => Except.ok (⟨⟨prev ++ [(K, ({ r with sections := m } : Record))]⟩, some K, s.name⟩ : ParseState))
          (mapSet_skip_append s.name ({ name := s.name, fields := flds2 } : Section) ({ name := s.name, fields := [] } : Section) r.sections [] hfreshsec)
      have hdis1 : distinctKeys ((r.sections ++ [(s.name, ({ name := s.name, fields := flds2 } : Section))]) ++ rest) = true := by
        rw [List.append_assoc]
        rw [show [(s.name, ({ name := s.name, fields := flds2 } : Section))] ++ rest = (s.name, ({ name := s.name, fields := flds2 } : Section)) :: rest from rfl]
        rw [distinctKeys_value_irrel s.name ({ name := s.name, fields := flds2 } : Section) s r.sections rest]
        exact hdis
      obtain ⟨rest2, hsim2, snF, hrec⟩ := ih prev K
        ({ r with sections := r.sections ++ [(s.name, { name := s.name, fields := flds2 })] }) s.name
        hprev (fun e he => hwfs e (List.mem_cons_of_mem _ he)) hdis1
      refine ⟨(s.name, { name := s.name, fields := flds2 }) :: rest2,
        List.Forall₂.cons ⟨rfl, rfl, hfsim⟩ hsim2, snF, ?_⟩
      have hsl : sectionLines s = ("    ".toList ++ '@' :: s.name) :: (fieldLines s.fields ++ [[]]) := by
        unfold sectionLines
        rw [if_neg hnm, if_neg hf]
        rw [List.singleton_append, List.cons_append]
      rw [show (((s.name, s) :: rest).map (fun e => sectionLines e.2)).flatten = sectionLines s ++ (rest.map (fun e => sectionLines e.2)).flatten from by simp only [List.map_cons, List.flatten_cons]]
      rw [hsl]
      rw [List.cons_append, List.append_assoc]
      rw [parseLines_cons_ok _ _ _ _ hsec2]
      rw [parseLines_append _ _ _ _ hG2]
      rw [show ([[]] : List Str) ++ (rest.map (fun e => sectionLines e.2)).flatten = ([] : Str) :: (rest.map (fun e => sectionLines e.2)).flatten from rfl]
      rw [parseLines_cons_ok _ _ _ _ (parseLine_blank _ [] rfl)]
      rw [hrec]
      have hfin : ({ r with sections := (r.sections ++ [(s.name, ({ name := s.name, fields := flds2 } : Section))]) ++ rest2 } : Record) = { r with sections := r.sections ++ (s.name, ({ name := s.name, fields := flds2 } : Section)) :: rest2 } := by
        rw [List.append_assoc, List.singleton_append]
      exact congrArg (fun R => Except.ok (⟨⟨prev ++ [(K, R)]⟩, some K, snF⟩ : ParseState)) hfin

/-- The serialized lines of a well-formed record, fed to the parser in any
state, append one record similar to the original under its full name. -/
theorem parseLines_record (prev : List (Str × Record)) (K : Str) (r : Record)
    (cr : Option Str) (csn : Str)
    (hwf : wfRecord K r = true)
    (hfresh : mapHas r.getFullName prev = false) :
    ∃ r2, RecordSim r r2 ∧ ∃ snF : Str,
      parseLines ⟨⟨prev⟩, cr, csn⟩ (recordLines r) = .ok ⟨⟨prev ++ [(r.getFullName, r2)]⟩, some r.getFullName, snF⟩ := by
  have hwf2 := hwf
  unfold wfRecord at hwf2
  simp only [Bool.and_eq_true] at hwf2
  cases hsecs : r.sections with
  | nil =>
    have hG := hwf2.1.2
    rw [hsecs] at hG
    simp at hG
  | cons e0 tail =>
    obtain ⟨k0, s0⟩ := e0
    have hG := hwf2.1.2
    rw [hsecs] at hG
    have hk0 : k0 = mainStr := by simpa using hG
    subst hk0
    have hH := hwf2.2
    rw [hsecs, List.all_cons, Bool.and_eq_true] at hH
    have hws0 : wfSection mainStr s0 = true := hH.1
    have htail : ∀ e ∈ tail, wfSection e.1 e.2 = true :=
      fun e he => List.all_eq_true.mp hH.2 e he
    have hws0c := hws0
    unfold wfSection at hws0c
    simp only [Bool.and_eq_true] at hws0c
    have hs0name : s0.name = mainStr := by simpa using hws0c.1.1.1.1
    have hsdis0 : distinctKeys s0.fields = true := hws0c.1.2
    have hsall0 : s0.fields.all (fun e => decide (e.1 = e.2.name) && wfField e.2) = true := hws0c.2
    have hdisS := hwf2.1.1.2
    rw [hsecs] at hdisS
    unfold distinctKeys at hdisS
    rw [Bool.and_eq_true] at hdisS
    have hnotmain : ∀ e ∈ tail, e.1 ≠ mainStr := by
      intro e he hc
      have h1 : tail.any (fun e => decide (e.1 = mainStr)) = true :=
        List.any_eq_true.mpr ⟨e, he, by simpa using hc⟩
      have h2 := hdisS.1
      rw [h1] at h2
      simp at h2
    obtain ⟨rec0, hful, hr0secs, hstep⟩ := parseLine_header ⟨⟨prev⟩, cr, csn⟩ K r hwf hfresh
    have hstep2 : parseLine ⟨⟨prev⟩, cr, csn⟩ (headerOf r) = .ok ⟨⟨prev ++ [(r.getFullName, rec0)]⟩, some r.getFullName, mainStr⟩ := by
      rw [hstep]
      exact congrArg (fun m => Except.ok (⟨⟨m⟩, some r.getFullName, mainStr⟩ : ParseState))
        (mapSet_append_fresh r.getFullName rec0 prev hfresh)
    have hbody : ∃ flds0, FieldsSim s0.fields flds0 ∧
        parseLines ⟨⟨prev ++ [(r.getFullName, rec0)]⟩, some r.getFullName, mainStr⟩ (if s0.fields = [] then [[]] else fieldLines s0.fields) = .ok ⟨⟨prev ++ [(r.getFullName, { rec0 with sections := [(mainStr, { name := mainStr, fields := flds0 })] })]⟩, some r.getFullName, mainStr⟩ := by
      by_cases hf0 : s0.fields = []
      · refine ⟨[], by rw [hf0]; exact List.Forall₂.nil, ?_⟩
        rw [if_pos hf0]
        rw [parseLines_cons_ok _ _ _ _ (parseLine_blank _ [] rfl)]
        rw [show ({ rec0 with sections := [(mainStr, { name := mainStr, fields := [] })] } : Record) = rec0 by rw [← hr0secs]]
        rfl
      · obtain ⟨flds0, hsim0, hG1⟩ := parseLines_fields s0.fields prev r.getFullName rec0 mainStr
          { name := mainStr, fields := [] }
          hfresh (by rw [hr0secs]; simp [mapGet]) hsdis0 hsall0
        refine ⟨flds0, hsim0, ?_⟩
        rw [if_neg hf0]
        rw [hG1]
        have hms : mapSet mainStr ({ name := mainStr, fields := flds0 } : Section) rec0.sections = [(mainStr, { name := mainStr, fields := flds0 })] := by
          rw [hr0secs, mapSet_cons_eq, if_pos rfl]
        exact congrArg (fun m => Except.ok (⟨⟨prev ++ [(r.getFullName, ({ rec0 with sections := m } : Record))]⟩, some r.getFullName, mainStr⟩ : ParseState)) hms
    obtain ⟨flds0, hsim0, hbodyok⟩ := hbody
    have hwfs2 : ∀ e ∈ tail, wfSection e.1 e.2 = true ∧ e.2.name ≠ mainStr := by
      intro e he
      refine ⟨htail e he, ?_⟩
      have hw := htail e he
      unfold wfSection at hw
      simp only [Bool.and_eq_true] at hw
      have hname : e.2.name = e.1 := by simpa using hw.1.1.1.1
      rw [hname]
      exact hnotmain e he
    have hdisS3 : distinctKeys ((mainStr, s0) :: tail) = true := by
      unfold distinctKeys
      rw [Bool.and_eq_true]
      exact hdisS
    have hdis2 : distinctKeys (([] : List (Str × Section)) ++ (mainStr, ({ name := mainStr, fields := flds0 } : Section)) :: tail) = true := by
      rw [distinctKeys_value_irrel mainStr ({ name := mainStr, fields := flds0 } : Section) s0 [] tail]
      exact hdisS3
    obtain ⟨secs2, hsims, snF, htailok⟩ := parseLines_tail_sections tail prev r.getFullName
      ({ rec0 with sections := [(mainStr, { name := mainStr, fields := flds0 })] }) mainStr
      hfresh hwfs2 hdis2
    refine ⟨{ rec0 with sections := (mainStr, { name := mainStr, fields := flds0 }) :: secs2 }, ⟨hful, ?_⟩, snF, ?_⟩
    · show SectionsSim r.sections ((mainStr, ({ name := mainStr, fields := flds0 } : Section)) :: secs2)
      rw [hsecs]
      exact List.Forall₂.cons ⟨rfl, hs0name.symm, hsim0⟩ hsims
    · have hsl0 : sectionLines s0 = (if s0.fields = [] then [[]] else fieldLines s0.fields) ++ [[]] := by
        unfold sectionLines
        rw [if_pos hs0name]
        rw [List.nil_append]
      rw [show recordLines r = headerOf r :: (r.sections.map (fun e => sectionLines e.2)).flatten from rfl]
      rw [hsecs]
      simp only [List.map_cons, List.flatten_cons]
      rw [hsl0]
      rw [List.append_assoc]
      rw [parseLines_cons_ok _ _ _ _ hstep2]
      rw [parseLines_append _ _ _ _ hbodyok]
      rw [show ([[]] : List Str) ++ (tail.map (fun e => sectionLines e.2)).flatten = ([] : Str) :: (tail.map (fun e => sectionLines e.2)).flatten from rfl]
      rw [parseLines_cons_ok _ _ _ _ (parseLine_blank _ [] rfl)]
      rw [htailok]
      rfl

theorem forall2_append_single {α β : Type} {R : α → β → Prop} {l1 : List α}
    {l2 : List β} (h : List.Forall₂ R l1 l2) {a : α} {b : β} (hab : R a b) :
    List.Forall₂ R (l1 ++ [a]) (l2 ++ [b]) := by
  induction h with
  | nil => exact List.Forall₂.cons hab List.Forall₂.nil
  | cons hx ht ih => exact List.Forall₂.cons hx ih

/-- The serialized lines of a list of well-formed records, separated by blank
lines, append records similar to the originals. -/
theorem parseLines_records (recs : List (Str × Record)) :
    ∀ (done done2 : List (Str × Record)) (cr : Option Str) (csn : Str),
      (∀ e ∈ recs, wfRecord e.1 e.2 = true) →
      distinctKeys (done ++ recs) = true →
      List.Forall₂ (fun a b => b.1 = a.1 ∧ RecordSim a.2 b.2) done done2 →
      ∃ recs2, List.Forall₂ (fun a b => b.1 = a.1 ∧ RecordSim a.2 b.2) recs recs2 ∧
        ∃ crF : Option Str, ∃ snF : Str,
          parseLines ⟨⟨done2⟩, cr, csn⟩ (((recs.map (fun e => recordLines e.2)).intersperse [[]]).flatten) = .ok ⟨⟨done2 ++ recs2⟩, crF, snF⟩ := by
  induction recs with
  | nil =>
    intro done done2 cr csn hwfs hdis hsim
    refine ⟨[], List.Forall₂.nil, cr, csn, ?_⟩
    rw [List.append_nil]
    rfl
  | cons e l ih =>
    intro done done2 cr csn hwfs hdis hsim
    obtain ⟨k0, r0⟩ := e
    have hwf0 : wfRecord k0 r0 = true := hwfs (k0, r0) (by simp)
    have hk0 : k0 = r0.getFullName := by
      have h := hwf0
      unfold wfRecord at h
      simp only [Bool.and_eq_true] at h
      simpa using h.1.1.1.1.1.1.1
    have hkeys : List.Forall₂ (fun (x y : Str × Record) => y.1 = x.1) done done2 :=
      List.Forall₂.imp (fun a b h => h.1) hsim
    have hfresh0 : mapHas r0.getFullName done2 = false := by
      rw [← mapHas_eq_of_keys r0.getFullName hkeys]
      rw [← hk0]
      exact distinctKeys_fresh_left done k0 r0 l hdis
    obtain ⟨r02, hrsim, snF0, hrec0⟩ := parseLines_record done2 k0 r0 cr csn hwf0 hfresh0
    cases l with
    | nil =>
      refine ⟨[(r0.getFullName, r02)], List.Forall₂.cons ⟨hk0.symm, hrsim⟩ List.Forall₂.nil,
        some r0.getFullName, snF0, ?_⟩
      rw [show (([(k0, r0)].map (fun e => recordLines e.2)).intersperse [[]]).flatten = recordLines r0 ++ [] from rfl]
      rw [List.append_nil]
      exact hrec0
    | cons e1 l1 =>
      have hli : ((((k0, r0) :: e1 :: l1).map (fun e => recordLines e.2)).intersperse [[]]).flatten = recordLines r0 ++ (([] : Str) :: (((e1 :: l1).map (fun e => recordLines e.2)).intersperse [[]]).flatten) := by
        simp only [List.map_cons]
        rw [show List.intersperse [[]] (recordLines r0 :: recordLines e1.2 :: List.map (fun e => recordLines e.2) l1) = recordLines r0 :: [[]] :: List.intersperse [[]] (recordLines e1.2 :: List.map (fun e => recordLines e.2) l1) from rfl]
        rw [List.flatten_cons, List.flatten_cons]
        rfl
      rw [hli]
      rw [parseLines_append _ _ _ _ hrec0]
      rw [parseLines_cons_ok _ _ _ _ (parseLine_blank _ [] rfl)]
      have hdis1 : distinctKeys ((done ++ [(k0, r0)]) ++ (e1 :: l1)) = true := by
        rw [List.append_assoc]
        exact hdis
      have hsim1 : List.Forall₂ (fun (a b : Str × Record) => b.1 = a.1 ∧ RecordSim a.2 b.2) (done ++ [(k0, r0)]) (done2 ++ [(r0.getFullName, r02)]) :=
        forall2_append_single hsim ⟨hk0.symm, hrsim⟩
      obtain ⟨recs2, hsim2, crF, snF, hrec2⟩ := ih (done ++ [(k0, r0)]) (done2 ++ [(r0.getFullName, r02)])
        (some r0.getFullName) snF0 (fun e he => hwfs e (List.mem_cons_of_mem _ he)) hdis1 hsim1
      refine ⟨(r0.getFullName, r02) :: recs2, List.Forall₂.cons ⟨hk0.symm, hrsim⟩ hsim2, crF, snF, ?_⟩
      rw [hrec2]
      exact congrArg (fun m => Except.ok (⟨⟨m⟩, crF, snF⟩ : ParseState))
        (show (done2 ++ [(r0.getFullName, r02)]) ++ recs2 = done2 ++ ((r0.getFullName, r02) :: recs2) by rw [List.append_assoc, List.singleton_append])

/-- C1 (amended): serializing a well-formed tree and parsing the result
succeeds and yields a tree entry-wise similar to the original — same record
full names, section names, field names, optionality flags, default values
and attribute maps. -/
theorem c1_amended (t : Tree) (h : wfTree t = true) :
    ∃ t2, treeFromString (Tree.stringify t) = .ok t2 ∧ TreeSim t t2 := by
  have h2 := h
  unfold wfTree at h2
  rw [Bool.and_eq_true] at h2
  have hdis : distinctKeys t.records = true := h2.1
  have hwfs : ∀ e ∈ t.records, wfRecord e.1 e.2 = true :=
    fun e he => List.all_eq_true.mp h2.2 e he
  cases hrecs : t.records with
  | nil =>
    refine ⟨{ records := [] }, ?_, ?_⟩
    · unfold treeFromString
      rw [show Tree.stringify t = List.intercalate "\n\n".toList ((t.records).map (fun e => e.2.stringify)) from rfl]
      rw [hrecs]
      rfl
    · show TreeSim t { records := [] }
      unfold TreeSim
      rw [hrecs]
      exact List.Forall₂.nil
  | cons a l =>
    obtain ⟨recs2, hsim, crF, snF, hok⟩ := parseLines_records t.records [] [] none mainStr
      hwfs hdis List.Forall₂.nil
    refine ⟨{ records := recs2 }, ?_, ?_⟩
    · unfold treeFromString
      rw [tree_lines t h (by rw [hrecs]; simp)]
      rw [show treeLines t = ((t.records.map (fun e => recordLines e.2)).intersperse [[]]).flatten from rfl]
      rw [show (initState : ParseState) = ⟨⟨[]⟩, none, mainStr⟩ from rfl]
      rw [hok]
      rfl
    · show TreeSim t { records := recs2 }
      unfold TreeSim
      exact hsim

theorem c1_amended_witness :
    wfTree t1c1 = true ∧
      ∃ t2, treeFromString (Tree.stringify t1c1) = .ok t2 ∧ TreeSim t1c1 t2 :=
  ⟨by decide, c1_amended t1c1 (by decide)⟩

end MetaTree
